import Mathlib

/-! Cache dictionary update queue, ring buffer and merge sorter.

Shallow embeddings of `src/Dictionaries/CacheDictionaryUpdateQueue.cpp`,
`src/Common/RingBuffer.h` and the `MergeSorter` of
`src/Processors/Transforms/SortingTransform.cpp`, each followed further down by
its properties.

The development of the update queue has two layers.

* The *sequential* layer gives one Lean function per member function of the
  class, acting on the fields of the queue object.  It describes a call that
  runs with no other thread taking a step in between.
* The *interleaved* layer splits every member function at its synchronisation
  points (the atomic flag `finished`, the semaphore `empty_count`, the mutex
  `queue_mutex`, the per-unit mutex `lock`) and lets an arbitrary schedule pick
  which thread moves next.
-/

namespace DB

/-! ## Exceptions -/

/-- Error codes used by the translation unit (`namespace ErrorCodes`). -/
inductive ErrorCodes where
  | LOGICAL_ERROR
  | CACHE_DICTIONARY_UPDATE_FAIL
  | UNSUPPORTED_METHOD
  | TIMEOUT_EXCEEDED
  deriving DecidableEq, Repr

/-- A `DB::Exception`: an error code and a formatted message. -/
structure Exception where
  code : ErrorCodes
  message : String
  deriving DecidableEq, Repr

/-- Outcome of a member function returning `void`: the exception it threw, or
normal return. -/
abbrev Result := Except Exception Unit

/-- The text `needle` occurs inside `haystack`. -/
def Mentions (haystack needle : String) : Prop :=
  needle.data <:+: haystack.data

instance (haystack needle : String) : Decidable (Mentions haystack needle) := by
  unfold Mentions
  infer_instance

/-! ## Data model -/

/-- The configuration record, `CacheDictionaryUpdateQueueConfiguration`; only
its field names are known from the uses in the translation unit. -/
structure CacheDictionaryUpdateQueueConfiguration where
  max_update_queue_size : Nat
  max_threads_for_updates : Nat
  update_queue_push_timeout_milliseconds : Nat
  query_wait_timeout_milliseconds : Nat
  deriving DecidableEq, Repr

/-- The completion state of a `CacheDictionaryUpdateUnit`, the two fields the
queue reads and writes under the unit's `lock`.  A captured `std::exception_ptr`
is represented by the text `getCurrentExceptionMessage` renders for it; a null
pointer is `none`. -/
structure CacheDictionaryUpdateUnit where
  is_done : Bool
  current_exception : Option String
  deriving DecidableEq, Repr

/-- Modelled from the spec: the constructor of `CacheDictionaryUpdateUnit`
(declared in the header, which is not among the sources): "done: boolean; false
at construction", "failure: optional captured failure; empty at construction". -/
def CacheDictionaryUpdateUnit.fresh : CacheDictionaryUpdateUnit :=
  { is_done := false, current_exception := none }

/-- A `CacheDictionaryUpdateUnitPtr`: the identity of a shared unit object. -/
abbrev UnitPtr := Nat

/-- The data members of `CacheDictionaryUpdateQueue` that the member functions
read or write.  `queue` is the `std::queue`, front first; `empty_count` is the
number of permits currently available in the semaphore. -/
structure CacheDictionaryUpdateQueue where
  dictionary_name_for_logs : String
  configuration : CacheDictionaryUpdateQueueConfiguration
  finished : Bool
  queue : List UnitPtr
  empty_count : Nat
  deriving DecidableEq, Repr

namespace Semaphore

/-- Modelled from the spec: `Poco::Semaphore::tryWait` (library code, not among
the sources), "attempts to acquire one permit ... returns true on success, false
on timeout".  With no other thread moving during the call a permit is obtained
exactly when one is available. -/
def tryWait (permits : Nat) : Option Nat :=
  if 0 < permits then some (permits - 1) else none

/-- Modelled from the spec: `Poco::Semaphore::set`, "releases permit". -/
def set (permits : Nat) : Nat :=
  permits + 1

end Semaphore

namespace CacheDictionaryUpdateQueue

/-- The message of the exception thrown on a finished queue (lines 56, 84, 129). -/
def alreadyFinishedMessage (q : CacheDictionaryUpdateQueue) : String :=
  "CacheDictionaryUpdateQueue for dictionary " ++ q.dictionary_name_for_logs ++ " already finished"

/-- Member function `getSize` (lines 183-188). -/
def getSize (q : CacheDictionaryUpdateQueue) : Nat :=
  q.queue.length

/-- The message of the exception thrown when no permit was obtained (lines 59-64). -/
def pushTimeoutMessage (q : CacheDictionaryUpdateQueue) : String :=
  "Cannot push to internal update queue in dictionary " ++ q.dictionary_name_for_logs
    ++ ". Timelimit of " ++ toString q.configuration.update_queue_push_timeout_milliseconds
    ++ " ms. exceeded. Current queue size is " ++ toString q.getSize

/-- The message of the exception thrown when the wait timed out (lines 98-102). -/
def queryTimeoutMessage (q : CacheDictionaryUpdateQueue) : String :=
  "Dictionary " ++ q.dictionary_name_for_logs ++ " source seems unavailable, because "
    ++ toString q.configuration.query_wait_timeout_milliseconds ++ " ms timeout exceeded."

/-- The message of the exception built from a captured failure (lines 116-120). -/
def updateFailedMessage (q : CacheDictionaryUpdateQueue) (description : String) : String :=
  "Update failed for dictionary \x27" ++ q.dictionary_name_for_logs ++ "\x27: " ++ description

/-- The constructor (lines 20-34) as far as the data members go: the queue is
empty, `finished` is false and the semaphore holds `max_update_queue_size`
permits. -/
def construct (dictionary_name_for_logs : String)
    (configuration : CacheDictionaryUpdateQueueConfiguration) : CacheDictionaryUpdateQueue :=
  { dictionary_name_for_logs := dictionary_name_for_logs
    configuration := configuration
    finished := false
    queue := []
    empty_count := configuration.max_update_queue_size }

/-- Member function `tryPushToUpdateQueueOrThrow` (lines 52-78), run without
interference.  `push_failure` is the exception, if any, that lines 68-71 throw
(taking the mutex, `std::queue::push`); the `catch` block then returns the
permit and rethrows. -/
def tryPushToUpdateQueueOrThrow (q : CacheDictionaryUpdateQueue) (update_unit_ptr : UnitPtr)
    (push_failure : Option Exception) : Result × CacheDictionaryUpdateQueue :=
  if q.finished then
    (.error ⟨.LOGICAL_ERROR, q.alreadyFinishedMessage⟩, q)
  else
    match Semaphore.tryWait q.empty_count with
    | none => (.error ⟨.CACHE_DICTIONARY_UPDATE_FAIL, q.pushTimeoutMessage⟩, q)
    | some permits =>
      match push_failure with
      | none => (.ok (), { q with empty_count := permits, queue := q.queue ++ [update_unit_ptr] })
      | some e => (.error e, { q with empty_count := Semaphore.set permits })

/-- Member function `waitForCurrentUpdateFinish` (lines 80-123).
`update_unit` is the state of `*update_unit_ptr` at the moment `wait_for`
returns: the predicate is evaluated under the unit's `lock`, which the caller
still holds when it tests `current_exception`. -/
def waitForCurrentUpdateFinish (q : CacheDictionaryUpdateQueue)
    (update_unit : CacheDictionaryUpdateUnit) : Result :=
  if q.finished then
    .error ⟨.LOGICAL_ERROR, q.alreadyFinishedMessage⟩
  else
    let result := update_unit.is_done || update_unit.current_exception.isSome
    if !result then
      .error ⟨.TIMEOUT_EXCEEDED, q.queryTimeoutMessage⟩
    else
      match update_unit.current_exception with
      | some description => .error ⟨.CACHE_DICTIONARY_UPDATE_FAIL, q.updateFailedMessage description⟩
      | none => .ok ()

/-- Member function `stopAndWait` (lines 125-139) as far as the data members
go: `finished.exchange(true)`, then the queue is swapped with an empty one. -/
def stopAndWait (q : CacheDictionaryUpdateQueue) : Result × CacheDictionaryUpdateQueue :=
  if q.finished then
    (.error ⟨.LOGICAL_ERROR, q.alreadyFinishedMessage⟩, q)
  else
    (.ok (), { q with finished := true, queue := [] })

/-- What happens at the head of one iteration of `updateThreadFunction`. -/
inductive Dequeue where
  /-- `finished` is set: the thread leaves the loop (lines 146, 154-155). -/
  | exit
  /-- The thread stays blocked in `queue_cond.wait` (line 152). -/
  | blocked
  /-- The front unit was moved out and popped (lines 157-158); `q` is the queue
  object afterwards. -/
  | unit (unit_to_update : UnitPtr) (q : CacheDictionaryUpdateQueue)
  deriving DecidableEq, Repr

/-- Lines 146-159 of `updateThreadFunction`: the block that holds
`queue_mutex`.  The wait ends when `finished` is set or the queue is non-empty;
a set `finished` then leaves the loop, otherwise the front unit is moved out and
popped. -/
def takeFront (q : CacheDictionaryUpdateQueue) : Dequeue :=
  if q.finished then .exit
  else
    match q.queue with
    | [] => .blocked
    | unit_to_update :: rest => .unit unit_to_update { q with queue := rest }

/-- Lines 146-161 of `updateThreadFunction`, run without interference: the
locked block followed by `empty_count.set()`. -/
def dequeue (q : CacheDictionaryUpdateQueue) : Dequeue :=
  match q.takeFront with
  | .unit unit_to_update q1 =>
    .unit unit_to_update { q1 with empty_count := Semaphore.set q1.empty_count }
  | other => other

end CacheDictionaryUpdateQueue

/-- How a call of `update_func` ends: it returns, or it throws an exception
(given by the text `getCurrentExceptionMessage` renders for it). -/
inductive UpdateOutcome where
  | returned
  | raised (description : String)
  deriving DecidableEq, Repr

/-- Lines 163-177 of `updateThreadFunction`: the write to the unit that follows
the call of `update_func`. -/
def recordOutcome (outcome : UpdateOutcome) (unit_to_update : CacheDictionaryUpdateUnit) :
    CacheDictionaryUpdateUnit :=
  match outcome with
  | .returned => { unit_to_update with is_done := true }
  | .raised description => { unit_to_update with current_exception := some description }

/-! ## Completed calls -/

/-- A completed call on the queue object: a push, the head of one worker
iteration, or a stop. -/
inductive Operation where
  | push (update_unit_ptr : UnitPtr) (push_failure : Option Exception)
  | dequeue
  | stop
  deriving DecidableEq, Repr

/-- The queue object after one completed call. -/
def Operation.apply (q : CacheDictionaryUpdateQueue) : Operation → CacheDictionaryUpdateQueue
  | .push update_unit_ptr push_failure => (q.tryPushToUpdateQueueOrThrow update_unit_ptr push_failure).2
  | .dequeue =>
    match q.dequeue with
    | .unit _ q1 => q1
    | _ => q
  | .stop => q.stopAndWait.2

/-! ## The interleaved layer -/

/-- Where a thread running `updateThreadFunction` stands. -/
inductive WorkerPc where
  /-- At the loop test or inside `queue_cond.wait` (lines 146-152). -/
  | waiting
  /-- Left the locked block with a unit, `empty_count.set()` of line 161 not
  yet executed. -/
  | popped (unit_to_update : UnitPtr)
  /-- Inside the `try` block, `update_func` not yet returned (lines 163-166). -/
  | updating (unit_to_update : UnitPtr)
  /-- Left the loop; the pool job is over. -/
  | exited
  deriving DecidableEq, Repr

/-- Where a call of `tryPushToUpdateQueueOrThrow` stands. -/
inductive PushPc where
  /-- Read `finished` as false (line 55); inside `empty_count.tryWait` (line 58). -/
  | acquiring (update_unit_ptr : UnitPtr)
  /-- Obtained a permit; lines 68-69 not yet executed. -/
  | admitted (update_unit_ptr : UnitPtr)
  | returned
  | threw (e : Exception)
  deriving DecidableEq, Repr

/-- Where a call of `stopAndWait` stands. -/
inductive StopPc where
  /-- Exchanged `finished` from false to true (line 128); block of lines
  131-136 not yet executed. -/
  | swapping
  /-- Inside `update_pool.wait()` (line 138). -/
  | joining
  | returned
  | threw (e : Exception)
  deriving DecidableEq, Repr

namespace ThreadPool

/-- Modelled from the spec: `ThreadPool::wait` (the pool class is not among the
sources), "Joins all worker threads": the call can return once every job
scheduled on the pool is over. -/
def wait (jobs : List WorkerPc) : Bool :=
  jobs.all (fun pc => pc = .exited)

end ThreadPool

/-- The queue object, the unit objects it has pointers to, and the program
points of all threads that are inside one of its member functions.  Calls are
numbered in the order in which they were entered. -/
structure System where
  q : CacheDictionaryUpdateQueue
  units : UnitPtr → CacheDictionaryUpdateUnit
  workers : List WorkerPc
  pushes : List PushPc
  stops : List StopPc

/-- One atomic step of one thread. -/
inductive Action where
  /-- A thread calls `tryPushToUpdateQueueOrThrow` and tests `finished` (line 55). -/
  | pushEnter (update_unit_ptr : UnitPtr)
  /-- `empty_count.tryWait` returns true (line 58). -/
  | pushAcquire (call : Nat)
  /-- `empty_count.tryWait` returns false: the time limit passed with no permit
  available (lines 58-64). -/
  | pushTimeout (call : Nat)
  /-- The unit is pushed under `queue_mutex` and one waiter is notified
  (lines 68-71). -/
  | pushAppend (call : Nat)
  /-- Lines 68-69 throw `e`; the handler returns the permit and rethrows
  (lines 73-77). -/
  | pushThrow (call : Nat) (e : Exception)
  /-- The locked block of a worker finds `finished` false and the queue
  non-empty, and pops the front (lines 151-158). -/
  | workerDequeue (worker : Nat)
  /-- A worker finds `finished` set and leaves the loop (lines 146, 154). -/
  | workerExit (worker : Nat)
  /-- `empty_count.set()` (line 161). -/
  | workerRelease (worker : Nat)
  /-- `update_func` ends with `outcome`; the worker records it on the unit,
  notifies the waiters and returns to the loop test (lines 163-179). -/
  | workerUpdate (worker : Nat) (outcome : UpdateOutcome)
  /-- A thread calls `stopAndWait` and exchanges `finished` (line 128). -/
  | stopEnter
  /-- The queue is swapped with an empty one and all waiters are notified
  (lines 131-136). -/
  | stopSwap (call : Nat)
  /-- `update_pool.wait()` returns: every worker job is over (line 138). -/
  | stopJoin (call : Nat)
  deriving DecidableEq, Repr

namespace System

/-- The system right after the constructor (lines 20-34): the data members as
`construct` leaves them, every unit object in its constructed state, and
`max_threads_for_updates` pool jobs at the top of `updateThreadFunction`. -/
def start (dictionary_name_for_logs : String)
    (configuration : CacheDictionaryUpdateQueueConfiguration) : System :=
  { q := CacheDictionaryUpdateQueue.construct dictionary_name_for_logs configuration
    units := fun _ => CacheDictionaryUpdateUnit.fresh
    workers := List.replicate configuration.max_threads_for_updates WorkerPc.waiting
    pushes := []
    stops := [] }

/-- The effect of one atomic step.  A step whose thread is not at the matching
program point, or whose guard is false, changes nothing. -/
def step (s : System) : Action → System
  | .pushEnter update_unit_ptr =>
    if s.q.finished then
      { s with pushes := s.pushes ++ [.threw ⟨.LOGICAL_ERROR, s.q.alreadyFinishedMessage⟩] }
    else
      { s with pushes := s.pushes ++ [.acquiring update_unit_ptr] }
  | .pushAcquire call =>
    match s.pushes[call]?, Semaphore.tryWait s.q.empty_count with
    | some (.acquiring update_unit_ptr), some permits =>
      { s with q := { s.q with empty_count := permits }
               pushes := s.pushes.set call (.admitted update_unit_ptr) }
    | _, _ => s
  | .pushTimeout call =>
    match s.pushes[call]?, Semaphore.tryWait s.q.empty_count with
    | some (.acquiring _), none =>
      { s with pushes :=
          s.pushes.set call (.threw ⟨.CACHE_DICTIONARY_UPDATE_FAIL, s.q.pushTimeoutMessage⟩) }
    | _, _ => s
  | .pushAppend call =>
    match s.pushes[call]? with
    | some (.admitted update_unit_ptr) =>
      { s with q := { s.q with queue := s.q.queue ++ [update_unit_ptr] }
               pushes := s.pushes.set call .returned }
    | _ => s
  | .pushThrow call e =>
    match s.pushes[call]? with
    | some (.admitted _) =>
      { s with q := { s.q with empty_count := Semaphore.set s.q.empty_count }
               pushes := s.pushes.set call (.threw e) }
    | _ => s
  | .workerDequeue worker =>
    match s.workers[worker]?, s.q.takeFront with
    | some .waiting, .unit unit_to_update q1 =>
      { s with q := q1, workers := s.workers.set worker (.popped unit_to_update) }
    | _, _ => s
  | .workerExit worker =>
    match s.workers[worker]?, s.q.takeFront with
    | some .waiting, .exit => { s with workers := s.workers.set worker .exited }
    | _, _ => s
  | .workerRelease worker =>
    match s.workers[worker]? with
    | some (.popped unit_to_update) =>
      { s with q := { s.q with empty_count := Semaphore.set s.q.empty_count }
               workers := s.workers.set worker (.updating unit_to_update) }
    | _ => s
  | .workerUpdate worker outcome =>
    match s.workers[worker]? with
    | some (.updating unit_to_update) =>
      { s with units := Function.update s.units unit_to_update
                 (recordOutcome outcome (s.units unit_to_update))
               workers := s.workers.set worker .waiting }
    | _ => s
  | .stopEnter =>
    if s.q.finished then
      { s with stops := s.stops ++ [.threw ⟨.LOGICAL_ERROR, s.q.alreadyFinishedMessage⟩] }
    else
      { s with q := { s.q with finished := true }, stops := s.stops ++ [.swapping] }
  | .stopSwap call =>
    match s.stops[call]? with
    | some .swapping =>
      { s with q := { s.q with queue := [] }, stops := s.stops.set call .joining }
    | _ => s
  | .stopJoin call =>
    match s.stops[call]? with
    | some .joining =>
      if ThreadPool.wait s.workers then
        { s with stops := s.stops.set call .returned }
      else s
    | _ => s

/-- The system after the steps of a schedule, taken in order. -/
def run (s : System) (schedule : List Action) : System :=
  schedule.foldl step s

end System

/-- The configuration with queue size 1 and one worker thread. -/
def unitCapacity (push_timeout query_timeout : Nat) : CacheDictionaryUpdateQueueConfiguration :=
  { max_update_queue_size := 1
    max_threads_for_updates := 1
    update_queue_push_timeout_milliseconds := push_timeout
    query_wait_timeout_milliseconds := query_timeout }

/-- A small configuration: queue size 1, one worker thread, push time limit
50 ms, query time limit 1000 ms. -/
def smallConfiguration : CacheDictionaryUpdateQueueConfiguration :=
  unitCapacity 50 1000

/-! ## Bookkeeping over the threads -/

/-- The sum of `weight` over a list of program points. -/
def tally {α : Type} (weight : α → Nat) (l : List α) : Nat :=
  (l.map weight).sum

/-- The permits a push call holds: one between `tryWait` and the push. -/
def PushPc.permits : PushPc → Nat
  | .admitted _ => 1
  | _ => 0

/-- The permits a worker still has to return: one between the pop and
`empty_count.set()`. -/
def WorkerPc.permits : WorkerPc → Nat
  | .popped _ => 1
  | _ => 0

/-- Every permit of the semaphore is in one of four places: free, represented
by a unit on the queue, held by a push call, or owed by a worker. -/
def System.permitsAccounted (s : System) : Nat :=
  s.q.queue.length + s.q.empty_count + tally PushPc.permits s.pushes
    + tally WorkerPc.permits s.workers

/-- The unit a step appends to the queue, if it does. -/
def System.appendedBy (s : System) : Action → List UnitPtr
  | .pushAppend call =>
    match s.pushes[call]? with
    | some (.admitted update_unit_ptr) => [update_unit_ptr]
    | _ => []
  | _ => []

/-- The unit a step pops from the queue into a worker, if it does. -/
def System.poppedBy (s : System) : Action → List UnitPtr
  | .workerDequeue worker =>
    match s.workers[worker]?, s.q.takeFront with
    | some .waiting, .unit unit_to_update _ => [unit_to_update]
    | _, _ => []
  | _ => []

/-- The units appended to the queue along a schedule, in the order of the
appends. -/
def System.appendedAlong (s : System) : List Action → List UnitPtr
  | [] => []
  | a :: rest => s.appendedBy a ++ (s.step a).appendedAlong rest

/-- The units popped by workers along a schedule, in the order of the pops. -/
def System.poppedAlong (s : System) : List Action → List UnitPtr
  | [] => []
  | a :: rest => s.poppedBy a ++ (s.step a).poppedAlong rest

/-- A stop call that has not yet swapped the queue has already set `finished`. -/
def System.SwapAfterFinish (s : System) : Prop :=
  s.q.finished = false → ∀ pc ∈ s.stops, pc ≠ StopPc.swapping

/-- Whether a push call is on its way to the queue with unit `u`. -/
def PushPc.carries (u : UnitPtr) : PushPc → Nat
  | .acquiring update_unit_ptr => if update_unit_ptr = u then 1 else 0
  | .admitted update_unit_ptr => if update_unit_ptr = u then 1 else 0
  | _ => 0

/-- Whether a worker holds unit `u` in `unit_to_update`. -/
def WorkerPc.carries (u : UnitPtr) : WorkerPc → Nat
  | .popped unit_to_update => if unit_to_update = u then 1 else 0
  | .updating unit_to_update => if unit_to_update = u then 1 else 0
  | _ => 0

/-- How many times unit `u` is on its way through the queue: in a push call
that was let in, on the queue, or in the hands of a worker. -/
def System.inFlight (s : System) (u : UnitPtr) : Nat :=
  tally (PushPc.carries u) s.pushes + s.q.queue.count u + tally (WorkerPc.carries u) s.workers

/-- One if a completion has been written to the unit, zero otherwise. -/
def CacheDictionaryUpdateUnit.written (unit : CacheDictionaryUpdateUnit) : Nat :=
  if unit.is_done = true ∨ unit.current_exception.isSome = true then 1 else 0

/-- The units passed to `tryPushToUpdateQueueOrThrow` along a schedule, one
entry per call. -/
def enteredUnits : List Action → List UnitPtr
  | [] => []
  | .pushEnter update_unit_ptr :: rest => update_unit_ptr :: enteredUnits rest
  | _ :: rest => enteredUnits rest

/-- The schedule in which unit 0 is pushed and updated twice: the first call of
`update_func` returns, the second throws "boom". -/
def resubmission : List Action :=
  [.pushEnter 0, .pushAcquire 0, .pushAppend 0, .workerDequeue 0, .workerRelease 0,
    .workerUpdate 0 .returned,
    .pushEnter 0, .pushAcquire 1, .pushAppend 1, .workerDequeue 0, .workerRelease 0,
    .workerUpdate 0 (.raised "boom")]

/-- The schedule in which unit 0 is pushed once and its `update_func` call
throws "boom". -/
def failingPass : List Action :=
  [.pushEnter 0, .pushAcquire 0, .pushAppend 0, .workerDequeue 0, .workerRelease 0,
    .workerUpdate 0 (.raised "boom")]

/-- A push call that tests `finished` just before a stop call sets it, and
obtains its permit afterwards. -/
def racingPush : List Action :=
  [.pushEnter 0, .stopEnter, .pushAcquire 0]

/-- A queue of size 1 whose only permit is taken: unit 0 has been appended and
no worker has popped it yet. -/
def fullQueue : System :=
  (System.start "d" smallConfiguration).run [.pushEnter 0, .pushAcquire 0, .pushAppend 0]

/-- The configuration with queue size 1, one worker thread and a push time
limit of zero. -/
def nonBlockingConfiguration : CacheDictionaryUpdateQueueConfiguration :=
  unitCapacity 0 1000

/-- If some call of `stopAndWait` has returned, every worker job is over. -/
def System.Joined (s : System) : Prop :=
  StopPc.returned ∈ s.stops → ∀ pc ∈ s.workers, pc = WorkerPc.exited

/-- A stop on an idle queue: the flag is set, the queue swapped, the worker
leaves its loop, and the join returns. -/
def orderlyStop : List Action :=
  [.stopEnter, .stopSwap 0, .workerExit 0, .stopJoin 0]

/-- Whether a push call has passed the test of `finished` and not yet ended. -/
def PushPc.pending : PushPc → Nat
  | .acquiring _ => 1
  | .admitted _ => 1
  | _ => 0

/-- After the stop nothing can reach the queue any more: `finished` is set, the
queue is empty and no push call is between its test of `finished` and its
end. -/
def System.Quiet (s : System) : Prop :=
  s.q.finished = true ∧ s.q.queue = [] ∧ tally PushPc.pending s.pushes = 0

/-- A push call passes the test of `finished`, a stop call then runs to its
end, and the push call appends unit 0 after it. -/
def pushAcrossStop : List Action :=
  [.pushEnter 0, .stopEnter, .stopSwap 0, .workerExit 0, .stopJoin 0, .pushAcquire 0,
    .pushAppend 0]

/-- Unit 0 is pushed a second time while a worker is inside `update_func` on it;
the stop call then finds it on the queue. -/
def stopWithCopyInWorker : List Action :=
  [.pushEnter 0, .pushAcquire 0, .pushAppend 0, .workerDequeue 0, .workerRelease 0,
    .pushEnter 0, .pushAcquire 1, .pushAppend 1, .stopEnter]

/-- Units 0 and 1 wait on a queue of size 2 when the stop call sets `finished`. -/
def stopWithPending : List Action :=
  [.pushEnter 0, .pushAcquire 0, .pushAppend 0, .pushEnter 1, .pushAcquire 1, .pushAppend 1,
    .stopEnter]

/-- A configuration with queue size 2 and one worker thread. -/
def pairConfiguration : CacheDictionaryUpdateQueueConfiguration :=
  { max_update_queue_size := 2
    max_threads_for_updates := 1
    update_queue_push_timeout_milliseconds := 50
    query_wait_timeout_milliseconds := 1000 }

/-! ## Ring buffer

A shallow embedding of `src/Common/RingBuffer.h`.  The buffer is a record of
its data members; the array `data` is the function from slot index to stored
value.  Sizes and indices are natural numbers: a buffer that fits in memory has
far fewer than 2^63 elements, so the additions and the doubling never wrap; the
subtractions, which wrap at zero on `size_t`, are written with `pred64`. -/

/-- The value of `x - 1` on a 64-bit unsigned `x`. -/
def pred64 (x : Nat) : Nat :=
  if x = 0 then 2 ^ 64 - 1 else x - 1

/-- The search behind `roundUpToPowerOfTwoOrZero`: the first of `p`, `2 * p`,
`4 * p`, ... (at most `tries` of them) that is not below `n`, zero if none. -/
def roundUpFrom : (tries : Nat) → (p n : Nat) → Nat
  | 0, _, _ => 0
  | tries + 1, p, n => if n ≤ p then p else roundUpFrom tries (2 * p) n

/-- Modelled from the spec: `roundUpToPowerOfTwoOrZero` (declared in
`Common/BitHelpers.h`, which is not among the sources).  Its name and the
constructor test (1 gives 1, 6 gives 8) are all that describes it: the smallest
power of two that is not below `n`, and zero when `n` is zero or no such power
fits in 64 bits. -/
def roundUpToPowerOfTwoOrZero (n : Nat) : Nat :=
  if n = 0 then 0 else roundUpFrom 64 1 n

/-- The data members of `RingBuffer<Value>`. -/
structure RingBuffer (Value : Type) where
  left_pointer : Nat
  right_pointer : Nat
  elements_size : Nat
  elements_capacity : Nat
  data : Nat → Value

namespace RingBuffer

variable {Value : Type} [Inhabited Value]

/-- The default argument of the constructor. -/
def buffer_initial_capacity : Nat := 32

/-- The constructor `RingBuffer(size_t initial_capacity)`: a fresh array of
default-constructed values; `none` when the `chassert` on the capacity fails. -/
def construct (initial_capacity : Nat) : Option (RingBuffer Value) :=
  let elements_capacity := roundUpToPowerOfTwoOrZero initial_capacity
  if elements_capacity = 0 then none
  else some
    { left_pointer := 0
      right_pointer := 0
      elements_size := 0
      elements_capacity := elements_capacity
      data := fun _ => default }

/-- Member function `size`. -/
def size (b : RingBuffer Value) : Nat :=
  b.elements_size

/-- Member function `capacity`. -/
def capacity (b : RingBuffer Value) : Nat :=
  b.elements_capacity

/-- Member function `getIndexMask`. -/
def getIndexMask (b : RingBuffer Value) : Nat :=
  pred64 b.elements_capacity

/-- Member function `incrementPointer`. -/
def incrementPointer (b : RingBuffer Value) (pointer_value offset : Nat) : Nat :=
  (pointer_value + offset) &&& b.getIndexMask

/-- Member function `decrementPointer`. -/
def decrementPointer (b : RingBuffer Value) (pointer_value : Nat) : Nat :=
  pred64 (if pointer_value = 0 then b.elements_capacity else pointer_value)

/-- Member function `resizeIfNeeded`: `none` when the `chassert` fails;
otherwise a full buffer is moved, oldest element first, to the start of a new
array of twice the capacity. -/
def resizeIfNeeded (b : RingBuffer Value) : Option (RingBuffer Value) :=
  if b.elements_capacity = 0 then none
  else if b.elements_size < b.elements_capacity then some b
  else some
    { left_pointer := 0
      right_pointer := b.elements_size
      elements_size := b.elements_size
      elements_capacity := b.elements_capacity * 2
      data := fun i =>
        if i < b.elements_size then b.data (b.incrementPointer b.left_pointer i) else default }

/-- Member function `emplace_back` (and `push_back`, which forwards to it). -/
def emplace_back (b : RingBuffer Value) (value : Value) : Option (RingBuffer Value) :=
  match b.resizeIfNeeded with
  | none => none
  | some r =>
    some { r with
      data := Function.update r.data r.right_pointer value
      right_pointer := r.incrementPointer r.right_pointer 1
      elements_size := r.elements_size + 1 }

/-- Member function `push_back`. -/
def push_back (b : RingBuffer Value) (value : Value) : Option (RingBuffer Value) :=
  b.emplace_back value

/-- Member function `emplace_front` (and `push_front`, which forwards to it). -/
def emplace_front (b : RingBuffer Value) (value : Value) : Option (RingBuffer Value) :=
  match b.resizeIfNeeded with
  | none => none
  | some r =>
    some { r with
      left_pointer := r.decrementPointer r.left_pointer
      data := Function.update r.data (r.decrementPointer r.left_pointer) value
      elements_size := r.elements_size + 1 }

/-- Member function `push_front`. -/
def push_front (b : RingBuffer Value) (value : Value) : Option (RingBuffer Value) :=
  b.emplace_front value

/-- Member function `back`. -/
def back (b : RingBuffer Value) : Value :=
  b.data (b.decrementPointer b.right_pointer)

/-- Member function `front`. -/
def front (b : RingBuffer Value) : Value :=
  b.data b.left_pointer

/-- Member function `pop_back()` for a trivially destructible `Value`: the
value of `decrementPointer(right_pointer)` is computed and dropped, and no data
member is assigned. -/
def pop_back (b : RingBuffer Value) : RingBuffer Value :=
  let _dropped := b.decrementPointer b.right_pointer
  b

/-- Member function `pop_front()`. -/
def pop_front (b : RingBuffer Value) : RingBuffer Value :=
  { b with
    left_pointer := b.incrementPointer b.left_pointer 1
    elements_size := pred64 b.elements_size }

/-- Member function `getElement`, which is also `operator[]`. -/
def getElement (b : RingBuffer Value) (index : Nat) : Value :=
  b.data (b.incrementPointer b.left_pointer index)

/-- Member function `clear`. -/
def clear (b : RingBuffer Value) : RingBuffer Value :=
  { b with left_pointer := 0, right_pointer := 0, elements_size := 0 }

/-- Member function `clearAndShrink`: the array is released. -/
def clearAndShrink (_b : RingBuffer Value) : RingBuffer Value :=
  { left_pointer := 0
    right_pointer := 0
    elements_size := 0
    elements_capacity := 0
    data := fun _ => default }

/-- A write through the reference that `back()` returns. -/
def assignBack (b : RingBuffer Value) (value : Value) : RingBuffer Value :=
  { b with data := Function.update b.data (b.decrementPointer b.right_pointer) value }

/-- The sequence the buffer holds: `operator[]` at 0, 1, ..., `size() - 1`. -/
def toList (b : RingBuffer Value) : List Value :=
  (List.range b.elements_size).map b.getElement

/-- The buffer after `push_back` of each value of a list in turn. -/
def pushAllBack (b : RingBuffer Value) : List Value → Option (RingBuffer Value)
  | [] => some b
  | value :: rest =>
    match b.push_back value with
    | none => none
    | some next => next.pushAllBack rest

/-- The buffer after `count` calls of `pop_front`. -/
def popFrontTimes (b : RingBuffer Value) : Nat → RingBuffer Value
  | 0 => b
  | count + 1 => b.pop_front.popFrontTimes count

/-- The representation invariant of a buffer that owns an array. -/
def Valid (b : RingBuffer Value) : Prop :=
  (∃ k, b.elements_capacity = 2 ^ k)
  ∧ b.elements_size ≤ b.elements_capacity
  ∧ b.left_pointer < b.elements_capacity
  ∧ b.right_pointer = (b.left_pointer + b.elements_size) % b.elements_capacity

end RingBuffer

namespace RingBuffer

/-- The buffers a program can arrive at with an array still owned: built by
the constructor and then changed by `push_back`, `push_front`, `pop_front` on a
non-empty buffer, and `clear`. -/
inductive Reached {Value : Type} [Inhabited Value] : RingBuffer Value → Prop
  | construct (initial_capacity : Nat) (b : RingBuffer Value) :
      RingBuffer.construct initial_capacity = some b → Reached b
  | push_back (b b1 : RingBuffer Value) (value : Value) :
      Reached b → b.push_back value = some b1 → Reached b1
  | push_front (b b1 : RingBuffer Value) (value : Value) :
      Reached b → b.push_front value = some b1 → Reached b1
  | pop_front (b : RingBuffer Value) : Reached b → 0 < b.size → Reached b.pop_front
  | clear (b : RingBuffer Value) : Reached b → Reached b.clear

end RingBuffer

namespace RingBuffer

/-- A full buffer of capacity 2 that holds 10, 11. -/
def fullPair : RingBuffer Nat :=
  { left_pointer := 0
    right_pointer := 0
    elements_size := 2
    elements_capacity := 2
    data := fun i => if i = 0 then 10 else 11 }

/-- A buffer of capacity 32 after `clearAndShrink`: no array, capacity 0. -/
def shrunk : RingBuffer Nat :=
  clearAndShrink (RingBuffer.mk 0 0 0 32 (fun _ => 0))

end RingBuffer

/-! ## Merge sorter

A shallow embedding of `MergeSorter` in
`src/Processors/Transforms/SortingTransform.cpp`. -/

/-- A column: the values of its rows. -/
abbrev Column := List Int

/-- A `Chunk`: its columns and its number of rows. -/
structure Chunk where
  columns : List Column
  num_rows : Nat
  deriving DecidableEq, Repr

namespace Chunk

/-- The default-constructed `Chunk()`. -/
def empty : Chunk :=
  { columns := [], num_rows := 0 }

/-- Member function `getNumRows`. -/
def getNumRows (chunk : Chunk) : Nat :=
  chunk.num_rows

/-- Member function `getNumColumns`. -/
def getNumColumns (chunk : Chunk) : Nat :=
  chunk.columns.length

end Chunk

/-- A row as the sorting heap hands it out: the value in each column. -/
abbrev Row := List Int

/-- The data members of `MergeSorter` that `read` and `mergeImpl` use.  The
sorting heap `queue_variants` (its class is not among the sources) is the list
of rows it has still to yield, in the order in which it yields them:
`isValid()` is "not empty", `current()` the head, `next()` drops the head. -/
structure MergeSorter where
  chunks : List Chunk
  max_merged_block_size : Nat
  limit : Nat
  total_merged_rows : Nat
  queue : List Row
  deriving DecidableEq, Repr

/-- Lines 101-102: the row is appended to the merged columns, column by
column. -/
def insertRow (merged_columns : List Column) (current : Row) : List Column :=
  merged_columns.mapIdx (fun i column => column ++ [current.getD i 0])

/-- What the loop of `mergeImpl` leaves behind. -/
structure MergeLoop where
  merged_columns : List Column
  merged_rows : Nat
  total_merged_rows : Nat
  queue : List Row
  chunks : List Chunk
  deriving DecidableEq, Repr

/-- The `while (queue.isValid())` loop of `mergeImpl` (lines 96-119). -/
def mergeLoop (max_merged_block_size limit : Nat) :
    (queue : List Row) → (merged_columns : List Column) → (merged_rows total_merged_rows : Nat)
      → (chunks : List Chunk) → MergeLoop
  | [], merged_columns, merged_rows, total_merged_rows, chunks =>
    { merged_columns := merged_columns, merged_rows := merged_rows
      total_merged_rows := total_merged_rows, queue := [], chunks := chunks }
  | current :: rest, merged_columns, merged_rows, total_merged_rows, chunks =>
    let merged_columns := insertRow merged_columns current
    let total_merged_rows := total_merged_rows + 1
    let merged_rows := merged_rows + 1
    if limit ≠ 0 ∧ total_merged_rows = limit then
      { merged_columns := merged_columns, merged_rows := merged_rows
        total_merged_rows := total_merged_rows, queue := current :: rest, chunks := [] }
    else if merged_rows = max_merged_block_size then
      { merged_columns := merged_columns, merged_rows := merged_rows
        total_merged_rows := total_merged_rows, queue := rest, chunks := chunks }
    else
      mergeLoop max_merged_block_size limit rest merged_columns merged_rows total_merged_rows
        chunks

namespace MergeSorter

/-- The constructor (lines 25-52): chunks without rows are dropped.  `order` is
the sequence in which the heap built over the cursors yields the rows.
`total_merged_rows` starts at zero (its initialiser is in the header, which is
not among the sources). -/
def construct (chunks_ : List Chunk) (max_merged_block_size_ limit_ : Nat) (order : List Row) :
    MergeSorter :=
  { chunks := chunks_.filter (fun chunk => chunk.getNumRows ≠ 0)
    max_merged_block_size := max_merged_block_size_
    limit := limit_
    total_merged_rows := 0
    queue := order }

/-- Member function `mergeImpl` (lines 76-128): the merged chunk and the sorter
afterwards. -/
def mergeImpl (s : MergeSorter) : Chunk × MergeSorter :=
  let num_columns := (s.chunks.headD Chunk.empty).getNumColumns
  let merged_columns : List Column := List.replicate num_columns []
  let loop := mergeLoop s.max_merged_block_size s.limit s.queue merged_columns 0
    s.total_merged_rows s.chunks
  let chunks := if loop.queue.isEmpty then [] else loop.chunks
  let after : MergeSorter :=
    { s with chunks := chunks, total_merged_rows := loop.total_merged_rows, queue := loop.queue }
  if loop.merged_rows = 0 then (Chunk.empty, after)
  else ({ columns := loop.merged_columns, num_rows := loop.merged_rows }, after)

/-- Member function `read` (lines 55-73). -/
def read (s : MergeSorter) : Chunk × MergeSorter :=
  match s.chunks with
  | [] => (Chunk.empty, s)
  | [chunk] => (chunk, { s with chunks := [] })
  | _ :: _ :: _ => s.mergeImpl

/-- The chunks returned by `count` successive calls of `read`, and the sorter
after them. -/
def readMany (s : MergeSorter) : (count : Nat) → List Chunk × MergeSorter
  | 0 => ([], s)
  | count + 1 =>
    let first := s.read
    let others := first.2.readMany count
    (first.1 :: others.1, others.2)

end MergeSorter

/-- The total number of rows of a list of chunks. -/
def totalRows (chunks : List Chunk) : Nat :=
  (chunks.map Chunk.getNumRows).sum

/-- Two chunks of one row each, merged with `max_merged_block_size` = 0 and no
limit. -/
def unboundedBlock : MergeSorter :=
  MergeSorter.construct [⟨[[1]], 1⟩, ⟨[[2]], 1⟩] 0 0 [[1], [2]]

/-- Three rows in two chunks, merged in blocks of one row with a limit of two
rows. -/
def limitedMerge : MergeSorter :=
  MergeSorter.construct [⟨[[1, 3]], 2⟩, ⟨[[2]], 1⟩, ⟨[[]], 0⟩] 1 2 [[1], [2], [3]]

/-- The state of a sorter that merges under a limit: no more than `limit` rows
have been merged, fewer as long as chunks remain, and `read` is not on its
single-chunk path. -/
def MergeSorter.WithinLimit (s : MergeSorter) : Prop :=
  s.total_merged_rows ≤ s.limit
  ∧ (s.chunks ≠ [] → s.total_merged_rows < s.limit)
  ∧ s.chunks.length ≠ 1

/-! ## Profile counters

`safeDiff` of `src/Common/ThreadProfileEvents.h`. -/

/-- Function template `safeDiff` at an unsigned type of `bits` bits: the
arguments are below `2 ^ bits` and `curr - prev` is taken modulo `2 ^ bits`. -/
def safeDiff (bits prev curr : Nat) : Nat :=
  if curr ≥ prev then (curr + 2 ^ bits - prev) % 2 ^ bits else 0

/-! ## Units in progress -/

/-- The units a worker holds: one from the pop until `update_func` has
returned and its outcome is recorded. -/
def WorkerPc.busy : WorkerPc → Nat
  | .popped _ => 1
  | .updating _ => 1
  | _ => 0

/-- The units that were pushed and are not completed: those on the queue and
those a worker has popped and not finished with. -/
def System.inProgress (s : System) : Nat :=
  s.q.queue.length + tally WorkerPc.busy s.workers

/-- A unit is pushed, popped and being updated while a second one is pushed. -/
def overlappingUnits : List Action :=
  [.pushEnter 0, .pushAcquire 0, .pushAppend 0, .workerDequeue 0, .workerRelease 0,
    .pushEnter 1, .pushAcquire 1, .pushAppend 1]

/-! ## Constant columns of the sorting transform

`SortingTransform::removeConstColumns` and
`SortingTransform::enrichChunkWithConstants` in
`src/Processors/Transforms/SortingTransform.cpp`, with the part of the
constructor that fills `const_columns_to_remove`. -/

/-- A column of the header block as the transform looks at it: the pointer
`column.column` is null, points to a `ColumnConst` that holds one value, or
points to another column. -/
inductive HeaderColumn where
  | absent
  | constant (value : Int)
  | full (column : Column)
  deriving DecidableEq, Repr

namespace HeaderColumn

/-- Modelled from the spec: the test `column.column && isColumnConst(*column.column)`
of line 150 (`isColumnConst` is not among the sources): the pointer is set and
the column is a `ColumnConst`. -/
def isConst : HeaderColumn → Bool
  | .constant _ => true
  | _ => false

/-- Modelled from the spec: `column->cloneResized(size)` (the column classes are
not among the sources): a column of `size` rows, for a constant column with the
same value in every row, for another column its rows cut or filled up with
default values.  There is no result when the pointer is null. -/
def cloneResized : HeaderColumn → Nat → Option Column
  | .absent, _ => none
  | .constant value, size => some (List.replicate size value)
  | .full column, size => some ((column ++ List.replicate (size - column.length) 0).take size)

end HeaderColumn

namespace Chunk

/-- Modelled from the spec: member function `setColumns` (the class `Chunk` is
not among the sources): the columns and the number of rows are stored, and
`LOGICAL_ERROR` is thrown when a column has another number of rows. -/
def setColumns (columns : List Column) (num_rows : Nat) : Except Exception Chunk :=
  if columns.all (fun column => column.length = num_rows) then
    .ok { columns := columns, num_rows := num_rows }
  else
    .error { code := .LOGICAL_ERROR, message := "Invalid number of rows in Chunk column" }

/-- The invariant of the class `Chunk`: every column has `num_rows` rows. -/
def Consistent (chunk : Chunk) : Prop :=
  ∀ column ∈ chunk.columns, column.length = chunk.num_rows

end Chunk

/-- The data members of `SortingTransform` that the two functions use:
`header` is `inputs.front().getHeader()`. -/
structure SortingTransform where
  header : List HeaderColumn
  const_columns_to_remove : List Bool
  header_without_constants : List HeaderColumn
  deriving DecidableEq, Repr

namespace SortingTransform

/-- The loop of the constructor (lines 147-156) from position `pos` on, with
`remaining` positions to go. -/
def constructLoop (sample : List HeaderColumn) :
    (remaining pos : Nat) → (const_columns_to_remove : List Bool)
      → (header_without_constants : List HeaderColumn) → List Bool × List HeaderColumn
  | 0, _, const_columns_to_remove, header_without_constants =>
    (const_columns_to_remove, header_without_constants)
  | remaining + 1, pos, const_columns_to_remove, header_without_constants =>
    let column := sample.getD pos .absent
    if !column.isConst then
      constructLoop sample remaining (pos + 1) (const_columns_to_remove.set pos false)
        (header_without_constants ++ [column])
    else
      constructLoop sample remaining (pos + 1) const_columns_to_remove header_without_constants

/-- The constructor, lines 143-156: every position is flagged, and the flag is
cleared where the header column is not constant. -/
def construct (header : List HeaderColumn) : SortingTransform :=
  let num_columns := header.length
  let filled := constructLoop header num_columns 0 (List.replicate num_columns true) []
  { header := header
    const_columns_to_remove := filled.1
    header_without_constants := filled.2 }

/-- The loop of `removeConstColumns` (lines 352-356) from `position` on. -/
def removeLoop (const_columns_to_remove : List Bool) (columns : List Column) :
    (remaining position : Nat) → (column_without_constants : List Column) → List Column
  | 0, _, column_without_constants => column_without_constants
  | remaining + 1, position, column_without_constants =>
    if !const_columns_to_remove.getD position true then
      removeLoop const_columns_to_remove columns remaining (position + 1)
        (column_without_constants ++ [columns.getD position []])
    else
      removeLoop const_columns_to_remove columns remaining (position + 1)
        column_without_constants

/-- Member function `removeConstColumns` (lines 339-359): the chunk afterwards,
or the exception thrown. -/
def removeConstColumns (t : SortingTransform) (chunk : Chunk) : Except Exception Chunk :=
  let num_columns := chunk.getNumColumns
  let num_rows := chunk.getNumRows
  if num_columns ≠ t.const_columns_to_remove.length then
    .error
      { code := .LOGICAL_ERROR
        message := "Block has different number of columns with header: " ++ toString num_columns
          ++ " vs " ++ toString t.const_columns_to_remove.length }
  else
    Chunk.setColumns (removeLoop t.const_columns_to_remove chunk.columns num_columns 0 [])
      num_rows

/-- The loop of `enrichChunkWithConstants` (lines 373-386) from position `i`
on: the columns collected, the exception thrown, or no result when the header
has no column to clone. -/
def enrichLoop (t : SortingTransform) (num_rows : Nat) (columns : List Column) :
    (remaining i : Nat) → (column_with_constants : List Column) → (next_non_const_column : Nat)
      → Option (Except Exception (List Column))
  | 0, _, column_with_constants, _ => some (.ok column_with_constants)
  | remaining + 1, i, column_with_constants, next_non_const_column =>
    if t.const_columns_to_remove.getD i false then
      match (t.header.getD i .absent).cloneResized num_rows with
      | none => none
      | some column =>
        enrichLoop t num_rows columns remaining (i + 1) (column_with_constants ++ [column])
          next_non_const_column
    else if next_non_const_column ≥ columns.length then
      some (.error
        { code := .LOGICAL_ERROR
          message :=
            "Can\x27t enrich chunk with constants because run out of non-constant columns." })
    else
      enrichLoop t num_rows columns remaining (i + 1)
        (column_with_constants ++ [columns.getD next_non_const_column []])
        (next_non_const_column + 1)

/-- Member function `enrichChunkWithConstants` (lines 361-389): the chunk
afterwards or the exception thrown; no result when a null column pointer of the
header is dereferenced. -/
def enrichChunkWithConstants (t : SortingTransform) (chunk : Chunk) :
    Option (Except Exception Chunk) :=
  let num_rows := chunk.getNumRows
  let num_result_columns := t.const_columns_to_remove.length
  match enrichLoop t num_rows chunk.columns num_result_columns 0 [] 0 with
  | none => none
  | some (.error e) => some (.error e)
  | some (.ok column_with_constants) => some (Chunk.setColumns column_with_constants num_rows)

end SortingTransform

/-- The columns at the positions that are not flagged, in their order. -/
def unflagged (flags : List Bool) (columns : List Column) : List Column :=
  ((columns.zip flags).filter (fun entry => !entry.2)).map Prod.fst

/-- A header of three columns, the one in the middle constant with value 7. -/
def constantInTheMiddle : SortingTransform :=
  SortingTransform.construct [.full [], .constant 7, .full []]

/-- Unit 0 is pushed, and a stop call then runs to its end: every call has
returned and the worker has left its loop. -/
def stopWithUnitQueued : List Action :=
  [.pushEnter 0, .pushAcquire 0, .pushAppend 0, .stopEnter, .stopSwap 0, .workerExit 0,
    .stopJoin 0]

/-- Unit 1 is pushed by a further call (the third of the system) and its
`update_func` call throws "boom". -/
def onceAfterTwice : List Action :=
  [.pushEnter 1, .pushAcquire 2, .pushAppend 2, .workerDequeue 0, .workerRelease 0,
    .workerUpdate 0 (.raised "boom")]

/-- Unit 0 is updated once, pushed again, and a worker is inside `update_func`
on it for the second time. -/
def secondPass : List Action :=
  [.pushEnter 0, .pushAcquire 0, .pushAppend 0, .workerDequeue 0, .workerRelease 0,
    .workerUpdate 0 .returned,
    .pushEnter 0, .pushAcquire 1, .pushAppend 1, .workerDequeue 0, .workerRelease 0]

end DB

/-! ## Properties of the update queue -/

namespace DB

open CacheDictionaryUpdateQueue

/-- C1, as stated, fails: with queue size 1 and one worker, after unit 0 has
been admitted and the worker has popped it, returned the permit and entered
`update_func`, a push of unit 1 does not fail with the push-timeout error; it
returns normally and unit 1 is on the queue. -/
theorem c1_push_admitted_while_callback_runs :
    ((System.start "d" smallConfiguration).run
        [.pushEnter 0, .pushAcquire 0, .pushAppend 0, .workerDequeue 0, .workerRelease 0]).workers
      = [.updating 0]
    ∧ ¬ ((∃ e, (((System.start "d" smallConfiguration).run
              [.pushEnter 0, .pushAcquire 0, .pushAppend 0, .workerDequeue 0,
                .workerRelease 0]).q.tryPushToUpdateQueueOrThrow 1 none).1 = .error e
            ∧ e.code = .CACHE_DICTIONARY_UPDATE_FAIL)
        ∧ 1 ∉ (((System.start "d" smallConfiguration).run
              [.pushEnter 0, .pushAcquire 0, .pushAppend 0, .workerDequeue 0,
                .workerRelease 0]).q.tryPushToUpdateQueueOrThrow 1 none).2.queue) := by
  refine ⟨by decide, ?_⟩
  rintro ⟨-, h⟩
  exact h (by decide)

/-- C1, amended: with queue size 1 and one worker, once unit `a` has been
admitted and the worker has popped it and returned the permit (it is inside
`update_func`), a push of `b` is admitted and `b` is placed on the queue; while
`a` is still on the queue the push of `b` fails with the push-timeout error
`CACHE_DICTIONARY_UPDATE_FAIL` and the queue keeps holding `a` alone. -/
theorem c1_push_after_dequeue (name : String) (push_timeout query_timeout : Nat) (a b : UnitPtr) :
    ((System.start name (unitCapacity push_timeout query_timeout)).run
        [.pushEnter a, .pushAcquire 0, .pushAppend 0, .workerDequeue 0, .workerRelease 0]).workers
      = [.updating a]
    ∧ (((System.start name (unitCapacity push_timeout query_timeout)).run
          [.pushEnter a, .pushAcquire 0, .pushAppend 0, .workerDequeue 0,
            .workerRelease 0]).q.tryPushToUpdateQueueOrThrow b none).1 = .ok ()
    ∧ (((System.start name (unitCapacity push_timeout query_timeout)).run
          [.pushEnter a, .pushAcquire 0, .pushAppend 0, .workerDequeue 0,
            .workerRelease 0]).q.tryPushToUpdateQueueOrThrow b none).2.queue = [b]
    ∧ ((System.start name (unitCapacity push_timeout query_timeout)).run
          [.pushEnter a, .pushAcquire 0, .pushAppend 0]).q.queue = [a]
    ∧ (∃ e, (((System.start name (unitCapacity push_timeout query_timeout)).run
          [.pushEnter a, .pushAcquire 0, .pushAppend 0]).q.tryPushToUpdateQueueOrThrow b none).1
            = .error e ∧ e.code = .CACHE_DICTIONARY_UPDATE_FAIL)
    ∧ (((System.start name (unitCapacity push_timeout query_timeout)).run
          [.pushEnter a, .pushAcquire 0, .pushAppend 0]).q.tryPushToUpdateQueueOrThrow b none).2.queue
        = [a] := by
  refine ⟨rfl, rfl, rfl, rfl, ⟨_, rfl, rfl⟩, rfl⟩

/-- C7: on a queue that is not finished, a unit whose `current_exception` holds
a failure described by `d` makes `waitForCurrentUpdateFinish` throw a newly
built exception with code `CACHE_DICTIONARY_UPDATE_FAIL`; its message contains
`d` and is not `d` itself. -/
theorem c7_update_failure_is_wrapped (q : CacheDictionaryUpdateQueue)
    (update_unit : CacheDictionaryUpdateUnit) (d : String)
    (hq : q.finished = false) (hd : update_unit.current_exception = some d) :
    q.waitForCurrentUpdateFinish update_unit
        = .error ⟨.CACHE_DICTIONARY_UPDATE_FAIL, q.updateFailedMessage d⟩
    ∧ Mentions (q.updateFailedMessage d) d
    ∧ q.updateFailedMessage d ≠ d := by
  refine ⟨by simp [waitForCurrentUpdateFinish, hq, hd], ?_, ?_⟩
  · unfold Mentions updateFailedMessage
    rw [String.data_append]
    exact (List.suffix_append _ _).isInfix
  · intro h
    have hdata := congrArg String.data h
    simp only [updateFailedMessage, String.data_append] at hdata
    have hnil := List.append_left_eq_self.mp hdata
    simp at hnil

/-- The scenario of the spec: the callback threw "boom". -/
theorem c7_update_failure_is_wrapped_witness :
    (construct "d" smallConfiguration).finished = false
    ∧ Mentions ((construct "d" smallConfiguration).updateFailedMessage "boom") "boom" :=
  ⟨rfl, (c7_update_failure_is_wrapped (construct "d" smallConfiguration)
    ⟨false, some "boom"⟩ "boom" rfl rfl).2.1⟩

/-- C8: on a queue that is not finished, `waitForCurrentUpdateFinish` throws
`TIMEOUT_EXCEEDED` exactly when neither `is_done` nor `current_exception` is set
as the wait ends; the message then contains `query_wait_timeout_milliseconds`.
With `is_done` set and `current_exception` empty it returns normally. -/
theorem c8_query_timeout (q : CacheDictionaryUpdateQueue)
    (update_unit : CacheDictionaryUpdateUnit) (hq : q.finished = false) :
    ((∃ e, q.waitForCurrentUpdateFinish update_unit = .error e ∧ e.code = .TIMEOUT_EXCEEDED)
        ↔ (update_unit.is_done = false ∧ update_unit.current_exception = none))
    ∧ (update_unit.is_done = false ∧ update_unit.current_exception = none →
        q.waitForCurrentUpdateFinish update_unit
          = .error ⟨.TIMEOUT_EXCEEDED, q.queryTimeoutMessage⟩)
    ∧ Mentions q.queryTimeoutMessage (toString q.configuration.query_wait_timeout_milliseconds)
    ∧ (update_unit.is_done = true ∧ update_unit.current_exception = none →
        q.waitForCurrentUpdateFinish update_unit = .ok ()) := by
  obtain ⟨done, failure⟩ := update_unit
  refine ⟨?_, ?_, ?_, ?_⟩
  · cases done <;> cases failure <;> simp [waitForCurrentUpdateFinish, hq]
  · rintro ⟨h1, h2⟩
    simp only at h1 h2
    subst h1 h2
    simp [waitForCurrentUpdateFinish, hq]
  · unfold Mentions queryTimeoutMessage
    simp only [String.data_append]
    exact ⟨_, _, rfl⟩
  · rintro ⟨h1, h2⟩
    simp only at h1 h2
    subst h1 h2
    simp [waitForCurrentUpdateFinish, hq]

/-- Scenario S3: nothing was written to the unit when the wait ended. -/
theorem c8_query_timeout_witness :
    (construct "d" smallConfiguration).finished = false
    ∧ ((construct "d" smallConfiguration).waitForCurrentUpdateFinish ⟨false, none⟩
        = .error ⟨.TIMEOUT_EXCEEDED, (construct "d" smallConfiguration).queryTimeoutMessage⟩) :=
  ⟨rfl, (c8_query_timeout (construct "d" smallConfiguration) ⟨false, none⟩ rfl).2.1 ⟨rfl, rfl⟩⟩

/-- C9: on a finished queue `waitForCurrentUpdateFinish` throws `LOGICAL_ERROR`
with the "already finished" message for every unit, also one whose `is_done` is
set; the outcome does not depend on the unit. -/
theorem c9_wait_on_finished_queue (q : CacheDictionaryUpdateQueue)
    (update_unit : CacheDictionaryUpdateUnit) (hq : q.finished = true) :
    q.waitForCurrentUpdateFinish update_unit = .error ⟨.LOGICAL_ERROR, q.alreadyFinishedMessage⟩
    ∧ Mentions q.alreadyFinishedMessage "already finished"
    ∧ ∀ other, q.waitForCurrentUpdateFinish other = q.waitForCurrentUpdateFinish update_unit := by
  refine ⟨by simp [waitForCurrentUpdateFinish, hq], ?_, fun other => by
    simp [waitForCurrentUpdateFinish, hq]⟩
  unfold Mentions alreadyFinishedMessage
  rw [String.data_append]
  have h : "already finished".data <:+: " already finished".data := ⟨" ".data, [], by decide⟩
  exact h.trans (List.suffix_append _ _).isInfix

/-- A stopped queue and a unit that is already done. -/
theorem c9_wait_on_finished_queue_witness :
    (construct "d" smallConfiguration).stopAndWait.2.finished = true
    ∧ (construct "d" smallConfiguration).stopAndWait.2.waitForCurrentUpdateFinish ⟨true, none⟩
        = .error ⟨.LOGICAL_ERROR,
            (construct "d" smallConfiguration).stopAndWait.2.alreadyFinishedMessage⟩ :=
  ⟨rfl, (c9_wait_on_finished_queue (construct "d" smallConfiguration).stopAndWait.2
    ⟨true, none⟩ rfl).1⟩

/-- C10: on a finished queue `tryPushToUpdateQueueOrThrow` throws `LOGICAL_ERROR`
with the "already finished" message and leaves every data member, in particular
`queue` and `empty_count`, as it was; in the interleaved system the call ends at
its first step without touching the queue object. -/
theorem c10_push_on_finished_queue (s : System) (update_unit_ptr : UnitPtr)
    (push_failure : Option Exception) (hq : s.q.finished = true) :
    s.q.tryPushToUpdateQueueOrThrow update_unit_ptr push_failure
        = (.error ⟨.LOGICAL_ERROR, s.q.alreadyFinishedMessage⟩, s.q)
    ∧ (s.step (.pushEnter update_unit_ptr)).q = s.q
    ∧ (s.step (.pushEnter update_unit_ptr)).pushes
        = s.pushes ++ [.threw ⟨.LOGICAL_ERROR, s.q.alreadyFinishedMessage⟩] := by
  simp [tryPushToUpdateQueueOrThrow, System.step, hq]

/-- A queue stopped while unit 5 was pending and a permit was taken. -/
theorem c10_push_on_finished_queue_witness :
    ((System.start "d" smallConfiguration).run
        [.pushEnter 5, .pushAcquire 0, .pushAppend 0, .stopEnter]).q.finished = true
    ∧ (((System.start "d" smallConfiguration).run
        [.pushEnter 5, .pushAcquire 0, .pushAppend 0, .stopEnter]).q.tryPushToUpdateQueueOrThrow
          6 none).2.queue = [5] :=
  ⟨rfl, by
    rw [(c10_push_on_finished_queue ((System.start "d" smallConfiguration).run
      [.pushEnter 5, .pushAcquire 0, .pushAppend 0, .stopEnter]) 6 none rfl).1]
    rfl⟩

theorem tally_nil {α : Type} (weight : α → Nat) : tally weight [] = 0 := rfl

theorem tally_append {α : Type} (weight : α → Nat) (l₁ l₂ : List α) :
    tally weight (l₁ ++ l₂) = tally weight l₁ + tally weight l₂ := by
  simp [tally]

theorem tally_singleton {α : Type} (weight : α → Nat) (x : α) : tally weight [x] = weight x := by
  simp [tally]

theorem tally_set {α : Type} (weight : α → Nat) (y : α) :
    ∀ (l : List α) (i : Nat) (x : α), l[i]? = some x →
      tally weight (l.set i y) + weight x = tally weight l + weight y := by
  intro l
  induction l with
  | nil => intro i x h; simp at h
  | cons head rest ih =>
    intro i x h
    cases i with
    | zero =>
      simp at h
      subst h
      simp [tally]
      omega
    | succ j =>
      simp at h
      have := ih j x h
      simp [tally] at this ⊢
      omega

theorem tally_replicate_zero {α : Type} (weight : α → Nat) (x : α) (n : Nat)
    (h : weight x = 0) : tally weight (List.replicate n x) = 0 := by
  induction n with
  | zero => rfl
  | succ k ih =>
    simp [tally, List.replicate_succ, h] at ih ⊢

theorem takeFront_eq_unit (q q1 : CacheDictionaryUpdateQueue) (u : UnitPtr)
    (h : q.takeFront = .unit u q1) :
    q.finished = false ∧ ∃ rest, q.queue = u :: rest ∧ q1 = { q with queue := rest } := by
  unfold takeFront at h
  split at h
  · simp at h
  · rename_i hf
    split at h
    · simp at h
    · rename_i front rest hq
      simp at h
      obtain ⟨rfl, rfl⟩ := h
      exact ⟨by simpa using hf, rest, hq, rfl⟩

theorem step_configuration (s : System) (a : Action) :
    (s.step a).q.configuration = s.q.configuration := by
  cases a <;> simp only [System.step] <;> split <;> try rfl
  · rename_i u q1 hw ht
    obtain ⟨-, rest, -, rfl⟩ := takeFront_eq_unit _ _ _ ht
    rfl
  · split <;> rfl

theorem permitsAccounted_step (s : System) (a : Action) :
    (s.step a).permitsAccounted ≤ s.permitsAccounted := by
  cases a with
  | pushEnter u =>
    simp only [System.step]
    split <;> simp [System.permitsAccounted, tally_append, tally_singleton, PushPc.permits]
  | pushAcquire c =>
    simp only [System.step]
    split
    · rename_i u permits hc hw
      have := tally_set PushPc.permits (.admitted u) s.pushes c _ hc
      simp [Semaphore.tryWait] at hw
      simp [System.permitsAccounted, PushPc.permits] at this ⊢
      omega
    · exact le_refl _
  | pushTimeout c =>
    simp only [System.step]
    split
    · rename_i u hc hw
      have := tally_set PushPc.permits
        (.threw ⟨.CACHE_DICTIONARY_UPDATE_FAIL, s.q.pushTimeoutMessage⟩) s.pushes c _ hc
      simp [System.permitsAccounted, PushPc.permits] at this ⊢
      omega
    · exact le_refl _
  | pushAppend c =>
    simp only [System.step]
    split
    · rename_i u hc
      have := tally_set PushPc.permits .returned s.pushes c _ hc
      simp [System.permitsAccounted, PushPc.permits] at this ⊢
      omega
    · exact le_refl _
  | pushThrow c e =>
    simp only [System.step]
    split
    · rename_i u hc
      have := tally_set PushPc.permits (.threw e) s.pushes c _ hc
      simp [System.permitsAccounted, PushPc.permits, Semaphore.set] at this ⊢
      omega
    · exact le_refl _
  | workerDequeue w =>
    simp only [System.step]
    split
    · rename_i u q1 hw ht
      have := tally_set WorkerPc.permits (.popped u) s.workers w _ hw
      obtain ⟨-, rest, hq, rfl⟩ := takeFront_eq_unit _ _ _ ht
      simp [System.permitsAccounted, WorkerPc.permits, hq] at this ⊢
      omega
    · exact le_refl _
  | workerExit w =>
    simp only [System.step]
    split
    · rename_i hw ht
      have := tally_set WorkerPc.permits .exited s.workers w _ hw
      simp [System.permitsAccounted, WorkerPc.permits] at this ⊢
      omega
    · exact le_refl _
  | workerRelease w =>
    simp only [System.step]
    split
    · rename_i u hw
      have := tally_set WorkerPc.permits (.updating u) s.workers w _ hw
      simp [System.permitsAccounted, WorkerPc.permits, Semaphore.set] at this ⊢
      omega
    · exact le_refl _
  | workerUpdate w outcome =>
    simp only [System.step]
    split
    · rename_i u hw
      have := tally_set WorkerPc.permits .waiting s.workers w _ hw
      simp [System.permitsAccounted, WorkerPc.permits] at this ⊢
      omega
    · exact le_refl _
  | stopEnter =>
    simp only [System.step]
    split <;> simp [System.permitsAccounted]
  | stopSwap c =>
    simp only [System.step]
    split
    · simp [System.permitsAccounted]
    · exact le_refl _
  | stopJoin c =>
    simp only [System.step]
    split
    · split
      · simp [System.permitsAccounted]
      · exact le_refl _
    · exact le_refl _

theorem run_cons (s : System) (a : Action) (rest : List Action) :
    s.run (a :: rest) = (s.step a).run rest := rfl

theorem run_append (s : System) (first second : List Action) :
    s.run (first ++ second) = (s.run first).run second := by
  simp [System.run, List.foldl_append]

theorem run_configuration (schedule : List Action) :
    ∀ s : System, (s.run schedule).q.configuration = s.q.configuration := by
  induction schedule with
  | nil => intro s; rfl
  | cons a rest ih =>
    intro s
    rw [run_cons, ih, step_configuration]

theorem permitsAccounted_run (schedule : List Action) :
    ∀ s : System, (s.run schedule).permitsAccounted ≤ s.permitsAccounted := by
  induction schedule with
  | nil => intro s; exact le_refl _
  | cons a rest ih =>
    intro s
    rw [run_cons]
    exact le_trans (ih _) (permitsAccounted_step s a)

theorem permitsAccounted_start (name : String)
    (configuration : CacheDictionaryUpdateQueueConfiguration) :
    (System.start name configuration).permitsAccounted = configuration.max_update_queue_size := by
  simp [System.permitsAccounted, System.start, construct, tally_nil,
    tally_replicate_zero WorkerPc.permits WorkerPc.waiting _ rfl]

/-- C3: from a freshly constructed queue, after any sequence of steps of
submitters, workers and stoppers, in any interleaving, `getSize()` is at most
`max_update_queue_size`. -/
theorem c3_getSize_bounded (name : String)
    (configuration : CacheDictionaryUpdateQueueConfiguration) (schedule : List Action) :
    ((System.start name configuration).run schedule).q.getSize
      ≤ configuration.max_update_queue_size := by
  have h := permitsAccounted_run schedule (System.start name configuration)
  rw [permitsAccounted_start] at h
  unfold System.permitsAccounted at h
  unfold getSize
  omega

theorem step_finished (s : System) (a : Action) (h : s.q.finished = true) :
    (s.step a).q.finished = true := by
  cases a <;> simp only [System.step]
  case workerDequeue w =>
    split
    · rename_i u q1 hw ht
      obtain ⟨hf, -⟩ := takeFront_eq_unit _ _ _ ht
      rw [h] at hf
      exact absurd hf (by simp)
    · exact h
  case stopJoin c =>
    split
    · split <;> exact h
    · exact h
  all_goals split <;> exact h

theorem poppedBy_of_finished (s : System) (a : Action) (h : s.q.finished = true) :
    s.poppedBy a = [] := by
  cases a <;> simp only [System.poppedBy]
  split
  · rename_i u q1 hw ht
    obtain ⟨hf, -⟩ := takeFront_eq_unit _ _ _ ht
    rw [h] at hf
    exact absurd hf (by simp)
  · rfl

theorem poppedAlong_of_finished (schedule : List Action) :
    ∀ s : System, s.q.finished = true → s.poppedAlong schedule = [] := by
  induction schedule with
  | nil => intro s _; rfl
  | cons a rest ih =>
    intro s h
    simp [System.poppedAlong, poppedBy_of_finished s a h, ih _ (step_finished s a h)]

theorem swapAfterFinish_step (s : System) (a : Action) (h : s.SwapAfterFinish) :
    (s.step a).SwapAfterFinish := by
  unfold System.SwapAfterFinish at h ⊢
  cases a <;> simp only [System.step]
  case workerDequeue w =>
    split
    · rename_i u q1 hw ht
      obtain ⟨hf, rest, -, rfl⟩ := takeFront_eq_unit _ _ _ ht
      exact h
    · exact h
  case stopEnter =>
    split
    · rename_i hfin
      intro hf
      rw [hfin] at hf
      exact absurd hf (by simp)
    · intro hf
      simp at hf
  case stopSwap c =>
    split
    · intro hf pc hpc
      rcases List.mem_or_eq_of_mem_set hpc with hmem | rfl
      · exact h hf pc hmem
      · simp
    · exact h
  case stopJoin c =>
    split
    · split
      · intro hf pc hpc
        rcases List.mem_or_eq_of_mem_set hpc with hmem | rfl
        · exact h hf pc hmem
        · simp
      · exact h
    · exact h
  all_goals split <;> exact h

theorem queue_step (s : System) (a : Action) (hf : s.q.finished = false)
    (h : s.SwapAfterFinish) :
    s.poppedBy a ++ (s.step a).q.queue = s.q.queue ++ s.appendedBy a := by
  cases a <;> simp only [System.step, System.poppedBy, System.appendedBy]
  case pushEnter u => split <;> simp
  case pushAcquire c => split <;> simp
  case pushTimeout c => split <;> simp
  case pushAppend c => split <;> simp
  case pushThrow c e => split <;> simp
  case workerDequeue w =>
    split
    · rename_i u q1 hw ht
      obtain ⟨-, rest, hq, rfl⟩ := takeFront_eq_unit _ _ _ ht
      simp [hq]
    · simp
  case workerExit w => split <;> simp
  case workerRelease w => split <;> simp
  case workerUpdate w outcome => split <;> simp
  case stopEnter => split <;> simp
  case stopSwap c =>
    split
    · rename_i hc
      exact absurd rfl (h hf _ (List.getElem?_mem hc))
    · simp
  case stopJoin c =>
    split
    · split <;> simp
    · simp

theorem popped_prefix (schedule : List Action) :
    ∀ s : System, s.SwapAfterFinish →
      s.poppedAlong schedule <+: s.q.queue ++ s.appendedAlong schedule := by
  induction schedule with
  | nil => intro s _; exact List.nil_prefix
  | cons a rest ih =>
    intro s h
    cases hf : s.q.finished with
    | true =>
      rw [poppedAlong_of_finished _ s hf]
      exact List.nil_prefix
    | false =>
      have hq := queue_step s a hf h
      have hrest := ih (s.step a) (swapAfterFinish_step s a h)
      simp only [System.poppedAlong, System.appendedAlong]
      rw [← List.append_assoc, ← hq, List.append_assoc]
      exact (List.prefix_append_right_inj _).mpr hrest

/-- C4: the queue is first-in first-out.  Along every schedule from a freshly
constructed queue, the sequence of units popped by the workers, in the order of
the pops, is an initial segment of the sequence of units appended by
`tryPushToUpdateQueueOrThrow`, in the order of the appends: the k-th unit handed
to a worker is the k-th unit admitted, so a unit admitted later is never
dequeued before one admitted earlier. -/
theorem c4_fifo (name : String) (configuration : CacheDictionaryUpdateQueueConfiguration)
    (schedule : List Action) :
    (System.start name configuration).poppedAlong schedule
      <+: (System.start name configuration).appendedAlong schedule
    ∧ ∀ k, k < ((System.start name configuration).poppedAlong schedule).length →
        ((System.start name configuration).poppedAlong schedule)[k]?
          = ((System.start name configuration).appendedAlong schedule)[k]? := by
  have h := popped_prefix schedule (System.start name configuration)
    (by intro _ pc hpc; simp [System.start] at hpc)
  have hp : (System.start name configuration).poppedAlong schedule
      <+: (System.start name configuration).appendedAlong schedule := by
    simpa [System.start, construct] using h
  refine ⟨hp, fun k hk => ?_⟩
  obtain ⟨later, hlater⟩ := hp
  rw [← hlater, List.getElem?_append_left hk]

/-- C5, as stated, fails: when the same unit is pushed twice and `update_func`
returns on the first pass and throws on the second, the unit ends with `is_done`
true and `current_exception` set together. -/
theorem c5_resubmitted_unit_done_and_failed :
    (((System.start "d" smallConfiguration).run resubmission).units 0).is_done = true
    ∧ (((System.start "d" smallConfiguration).run resubmission).units 0).current_exception
        = some "boom" := by
  decide

theorem enteredUnits_cons (a : Action) (rest : List Action) :
    enteredUnits (a :: rest) = enteredUnits [a] ++ enteredUnits rest := by
  cases a <;> rfl

theorem weight_le_tally {α : Type} (weight : α → Nat) :
    ∀ (l : List α) (i : Nat) (x : α), l[i]? = some x → weight x ≤ tally weight l := by
  intro l
  induction l with
  | nil => intro i x h; simp at h
  | cons head rest ih =>
    intro i x h
    cases i with
    | zero =>
      simp at h
      subst h
      simp [tally]
    | succ j =>
      simp at h
      have := ih j x h
      simp [tally] at this ⊢
      omega

theorem written_le_one (unit : CacheDictionaryUpdateUnit) : unit.written ≤ 1 := by
  unfold CacheDictionaryUpdateUnit.written
  split <;> omega

theorem inFlight_step (s : System) (a : Action) (u : UnitPtr) :
    (s.step a).inFlight u + ((s.step a).units u).written
      ≤ s.inFlight u + (s.units u).written + (enteredUnits [a]).count u := by
  cases a with
  | pushEnter v =>
    simp only [System.step]
    split
    · simp [System.inFlight, tally_append, tally_singleton, PushPc.carries]
    · by_cases hv : v = u
      · simp [System.inFlight, tally_append, tally_singleton, PushPc.carries, enteredUnits, hv]
        omega
      · simp [System.inFlight, tally_append, tally_singleton, PushPc.carries, enteredUnits, hv]
  | pushAcquire c =>
    simp only [System.step]
    split
    · rename_i v permits hc hw
      have := tally_set (PushPc.carries u) (.admitted v) s.pushes c _ hc
      simp [System.inFlight, PushPc.carries] at this ⊢
      omega
    · omega
  | pushTimeout c =>
    simp only [System.step]
    split
    · rename_i v hc hw
      have := tally_set (PushPc.carries u)
        (.threw ⟨.CACHE_DICTIONARY_UPDATE_FAIL, s.q.pushTimeoutMessage⟩) s.pushes c _ hc
      simp [System.inFlight, PushPc.carries] at this ⊢
      omega
    · omega
  | pushAppend c =>
    simp only [System.step]
    split
    · rename_i v hc
      have := tally_set (PushPc.carries u) .returned s.pushes c _ hc
      by_cases hv : v = u
      · simp [System.inFlight, PushPc.carries, hv] at this ⊢
        omega
      · simp [System.inFlight, PushPc.carries, hv, List.count_singleton] at this ⊢
        have hne : ¬ (u = v) := fun h => hv h.symm
        simp [hne]
        omega
    · omega
  | pushThrow c e =>
    simp only [System.step]
    split
    · rename_i v hc
      have := tally_set (PushPc.carries u) (.threw e) s.pushes c _ hc
      simp [System.inFlight, PushPc.carries] at this ⊢
      omega
    · omega
  | workerDequeue w =>
    simp only [System.step]
    split
    · rename_i v q1 hw ht
      have := tally_set (WorkerPc.carries u) (.popped v) s.workers w _ hw
      obtain ⟨-, rest, hq, rfl⟩ := takeFront_eq_unit _ _ _ ht
      by_cases hv : v = u
      · simp [System.inFlight, WorkerPc.carries, hq, hv] at this ⊢
        omega
      · simp [System.inFlight, WorkerPc.carries, hq, hv, List.count_cons] at this ⊢
        omega
    · omega
  | workerExit w =>
    simp only [System.step]
    split
    · rename_i hw ht
      have := tally_set (WorkerPc.carries u) .exited s.workers w _ hw
      simp [System.inFlight, WorkerPc.carries] at this ⊢
      omega
    · omega
  | workerRelease w =>
    simp only [System.step]
    split
    · rename_i v hw
      have := tally_set (WorkerPc.carries u) (.updating v) s.workers w _ hw
      simp [System.inFlight, WorkerPc.carries] at this ⊢
      omega
    · omega
  | workerUpdate w outcome =>
    simp only [System.step]
    split
    · rename_i v hw
      have := tally_set (WorkerPc.carries u) .waiting s.workers w _ hw
      by_cases hv : v = u
      · subst hv
        have hle := written_le_one (recordOutcome outcome (s.units v))
        simp [System.inFlight, WorkerPc.carries] at this ⊢
        omega
      · have hne : ¬ (u = v) := fun h => hv h.symm
        simp [System.inFlight, WorkerPc.carries, hv, Function.update, hne] at this ⊢
        omega
    · omega
  | stopEnter =>
    simp only [System.step]
    split <;> simp [System.inFlight]
  | stopSwap c =>
    simp only [System.step]
    split
    · simp [System.inFlight]
      omega
    · omega
  | stopJoin c =>
    simp only [System.step]
    split
    · split
      · simp [System.inFlight]
      · omega
    · omega

theorem exclusive_step (s : System) (a : Action) (u : UnitPtr)
    (hload : s.inFlight u + (s.units u).written ≤ 1)
    (hex : ¬ ((s.units u).is_done = true ∧ (s.units u).current_exception.isSome = true)) :
    ¬ (((s.step a).units u).is_done = true
        ∧ ((s.step a).units u).current_exception.isSome = true) := by
  cases a <;> simp only [System.step]
  case workerUpdate w outcome =>
    split
    · rename_i v hw
      by_cases hv : v = u
      · subst hv
        have hcarry := weight_le_tally (WorkerPc.carries v) s.workers w _ hw
        simp only [WorkerPc.carries, if_true] at hcarry
        have hzero : (s.units v).written = 0 := by
          unfold System.inFlight at hload
          omega
        unfold CacheDictionaryUpdateUnit.written at hzero
        split at hzero
        · omega
        · rename_i hnot
          simp only [not_or] at hnot
          cases outcome <;> simp [recordOutcome] <;> simp_all
      · have hne : ¬ (u = v) := fun h => hv h.symm
        simpa [Function.update, hne] using hex
    · exact hex
  case workerDequeue w => split <;> exact hex
  case workerExit w => split <;> exact hex
  case pushAcquire c => split <;> exact hex
  case pushTimeout c => split <;> exact hex
  case stopJoin c =>
    split
    · split <;> exact hex
    · exact hex
  all_goals split <;> exact hex

theorem exclusive_run (schedule : List Action) :
    ∀ s : System,
      (∀ u, s.inFlight u + (s.units u).written + (enteredUnits schedule).count u ≤ 1) →
      (∀ u, ¬ ((s.units u).is_done = true ∧ (s.units u).current_exception.isSome = true)) →
      ∀ u, ¬ (((s.run schedule).units u).is_done = true
        ∧ ((s.run schedule).units u).current_exception.isSome = true) := by
  induction schedule with
  | nil => intro s _ hex u; exact hex u
  | cons a rest ih =>
    intro s hload hex u
    rw [run_cons]
    refine ih (s.step a) ?_ ?_ u
    · intro v
      have h1 := inFlight_step s a v
      have h2 := hload v
      rw [enteredUnits_cons, List.count_append] at h2
      omega
    · intro v
      have h2 := hload v
      exact exclusive_step s a v (by omega) (hex v)

theorem done_step (s : System) (a : Action) (u : UnitPtr) :
    ((s.units u).is_done = true → ((s.step a).units u).is_done = true)
    ∧ ((s.units u).current_exception.isSome = true →
        ((s.step a).units u).current_exception.isSome = true) := by
  cases a <;> simp only [System.step]
  case workerUpdate w outcome =>
    split
    · rename_i v hw
      by_cases hv : v = u
      · subst hv
        cases outcome <;> simp [recordOutcome]
      · have hne : ¬ (u = v) := fun h => hv h.symm
        simp [Function.update, hne]
    · exact ⟨id, id⟩
  case workerDequeue w => split <;> exact ⟨id, id⟩
  case workerExit w => split <;> exact ⟨id, id⟩
  case pushAcquire c => split <;> exact ⟨id, id⟩
  case pushTimeout c => split <;> exact ⟨id, id⟩
  case stopJoin c =>
    split
    · split <;> exact ⟨id, id⟩
    · exact ⟨id, id⟩
  all_goals split <;> exact ⟨id, id⟩

theorem done_run (schedule : List Action) (u : UnitPtr) :
    ∀ s : System,
      ((s.units u).is_done = true → ((s.run schedule).units u).is_done = true)
      ∧ ((s.units u).current_exception.isSome = true →
          ((s.run schedule).units u).current_exception.isSome = true) := by
  induction schedule with
  | nil => intro s; exact ⟨id, id⟩
  | cons a rest ih =>
    intro s
    rw [run_cons]
    exact ⟨fun h => (ih _).1 ((done_step s a u).1 h), fun h => (ih _).2 ((done_step s a u).2 h)⟩

theorem exclusive_run_unit (schedule : List Action) (u : UnitPtr) :
    ∀ s : System,
      s.inFlight u + (s.units u).written + (enteredUnits schedule).count u ≤ 1 →
      ¬ ((s.units u).is_done = true ∧ (s.units u).current_exception.isSome = true) →
      ¬ (((s.run schedule).units u).is_done = true
        ∧ ((s.run schedule).units u).current_exception.isSome = true) := by
  induction schedule with
  | nil => intro s _ hex; exact hex
  | cons a rest ih =>
    intro s hload hex
    rw [run_cons]
    have h1 := inFlight_step s a u
    rw [enteredUnits_cons, List.count_append] at hload
    exact ih (s.step a) (by omega) (exclusive_step s a u (by omega) hex)

/-- C5, amended: from a freshly constructed queue, along every schedule, a unit
that has been passed to `tryPushToUpdateQueueOrThrow` at most once never has
`is_done` true and `current_exception` set together, whatever happens to the
other units; and for any unit, once `is_done` or `current_exception` is set, no
later step clears it. -/
theorem c5_done_and_failed_exclusive (name : String)
    (configuration : CacheDictionaryUpdateQueueConfiguration)
    (schedule later : List Action) (u : UnitPtr) :
    ((enteredUnits schedule).count u ≤ 1 →
      ¬ ((((System.start name configuration).run schedule).units u).is_done = true
        ∧ (((System.start name configuration).run schedule).units u).current_exception.isSome
            = true))
    ∧ ((((System.start name configuration).run schedule).units u).is_done = true →
        ((((System.start name configuration).run schedule).run later).units u).is_done = true)
    ∧ ((((System.start name configuration).run schedule).units u).current_exception.isSome
          = true →
        ((((System.start name configuration).run schedule).run later).units
          u).current_exception.isSome = true) := by
  refine ⟨fun honce => ?_, (done_run later u _).1, (done_run later u _).2⟩
  refine exclusive_run_unit schedule u (System.start name configuration) ?_ ?_
  · simp [System.inFlight, System.start, construct, tally_nil,
      tally_replicate_zero (WorkerPc.carries u) WorkerPc.waiting _ rfl,
      CacheDictionaryUpdateUnit.written, CacheDictionaryUpdateUnit.fresh]
    exact honce
  · simp [System.start, CacheDictionaryUpdateUnit.fresh]

/-- Unit 0 is pushed twice and unit 1 once, its callback throwing "boom": unit 1
has the failure recorded and `is_done` false, and the failure stays recorded
along the steps taken afterwards. -/
theorem c5_done_and_failed_exclusive_witness :
    (enteredUnits (resubmission ++ onceAfterTwice)).count 0 = 2
    ∧ (enteredUnits (resubmission ++ onceAfterTwice)).count 1 ≤ 1
    ∧ ¬ ((((System.start "d" smallConfiguration).run
            (resubmission ++ onceAfterTwice)).units 1).is_done = true
        ∧ (((System.start "d" smallConfiguration).run
            (resubmission ++ onceAfterTwice)).units 1).current_exception.isSome = true)
    ∧ ((((System.start "d" smallConfiguration).run
          (resubmission ++ onceAfterTwice)).run onceAfterTwice).units
            1).current_exception.isSome = true :=
  ⟨by decide, by decide,
   (c5_done_and_failed_exclusive "d" smallConfiguration (resubmission ++ onceAfterTwice)
      onceAfterTwice 1).1 (by decide),
   (c5_done_and_failed_exclusive "d" smallConfiguration (resubmission ++ onceAfterTwice)
      onceAfterTwice 1).2.2 (by decide)⟩

/-- The steps of one push call, taken back to back, have on the queue object
the effect of the sequential `tryPushToUpdateQueueOrThrow`. -/
theorem push_steps_agree (s : System) (u : UnitPtr) :
    (s.run [.pushEnter u, .pushAcquire s.pushes.length, .pushTimeout s.pushes.length,
        .pushAppend s.pushes.length]).q
      = (s.q.tryPushToUpdateQueueOrThrow u none).2 := by
  by_cases hf : s.q.finished = true
  · simp [System.run, System.step, tryPushToUpdateQueueOrThrow, hf]
  · by_cases hp : 0 < s.q.empty_count
    · simp [System.run, System.step, tryPushToUpdateQueueOrThrow, hf, Semaphore.tryWait, hp]
    · simp [System.run, System.step, tryPushToUpdateQueueOrThrow, hf, Semaphore.tryWait, hp]

/-- The same when lines 68-69 throw. -/
theorem push_steps_agree_on_throw (s : System) (u : UnitPtr) (e : Exception) :
    (s.run [.pushEnter u, .pushAcquire s.pushes.length, .pushTimeout s.pushes.length,
        .pushThrow s.pushes.length e]).q
      = (s.q.tryPushToUpdateQueueOrThrow u (some e)).2 := by
  by_cases hf : s.q.finished = true
  · simp [System.run, System.step, tryPushToUpdateQueueOrThrow, hf]
  · by_cases hp : 0 < s.q.empty_count
    · simp [System.run, System.step, tryPushToUpdateQueueOrThrow, hf, Semaphore.tryWait, hp]
    · simp [System.run, System.step, tryPushToUpdateQueueOrThrow, hf, Semaphore.tryWait, hp]

/-- The two steps of a stop call up to the join have on the queue object the
effect of the sequential `stopAndWait`. -/
theorem stop_steps_agree (s : System) :
    (s.run [.stopEnter, .stopSwap s.stops.length]).q = s.q.stopAndWait.2 := by
  by_cases hf : s.q.finished = true
  · simp [System.run, System.step, stopAndWait, hf]
  · simp [System.run, System.step, stopAndWait, hf]

/-- The pop and the release of a waiting worker, taken back to back, have on
the queue object the effect of the sequential `dequeue`. -/
theorem dequeue_steps_agree (s : System) (w : Nat) (hw : s.workers[w]? = some .waiting) :
    (s.run [.workerDequeue w, .workerRelease w]).q
      = Operation.apply s.q .dequeue := by
  by_cases hf : s.q.finished = true
  · simp [System.run, System.step, Operation.apply, dequeue, takeFront, hf, hw]
  · cases hq : s.q.queue with
    | nil => simp [System.run, System.step, Operation.apply, dequeue, takeFront, hf, hw, hq]
    | cons front rest =>
      have hlt : w < s.workers.length := by
        by_contra hge
        simp [List.getElem?_eq_none (Nat.le_of_not_lt hge)] at hw
      simp [System.run, System.step, Operation.apply, dequeue, takeFront, hf, hw, hq, hlt]

theorem threw_step (s : System) (a : Action) (n : Nat) (e : Exception)
    (h : s.pushes[n]? = some (.threw e)) : (s.step a).pushes[n]? = some (.threw e) := by
  have hlt : n < s.pushes.length := by
    by_contra hge
    simp [List.getElem?_eq_none (Nat.le_of_not_lt hge)] at h
  have hset : ∀ (c : Nat) (pc x : PushPc), s.pushes[c]? = some pc → (∀ e1, pc ≠ .threw e1) →
      (s.pushes.set c x)[n]? = some (.threw e) := by
    intro c pc x hc hpc
    have hne : c ≠ n := by
      rintro rfl
      rw [h] at hc
      exact hpc e (by simpa using hc.symm)
    rw [List.getElem?_set_ne hne]
    exact h
  cases a <;> simp only [System.step]
  case pushEnter u =>
    split <;> simpa [List.getElem?_append_left hlt] using h
  case pushAcquire c =>
    split
    · rename_i v permits hc hw
      exact hset c _ _ hc (by simp)
    · exact h
  case pushTimeout c =>
    split
    · rename_i v hc hw
      exact hset c _ _ hc (by simp)
    · exact h
  case pushAppend c =>
    split
    · rename_i v hc
      exact hset c _ _ hc (by simp)
    · exact h
  case pushThrow c e1 =>
    split
    · rename_i v hc
      exact hset c _ _ hc (by simp)
    · exact h
  case workerDequeue w => split <;> exact h
  case workerExit w => split <;> exact h
  case stopJoin c =>
    split
    · split <;> exact h
    · exact h
  all_goals split <;> exact h

theorem threw_run (schedule : List Action) (n : Nat) (e : Exception) :
    ∀ s : System, s.pushes[n]? = some (.threw e) →
      (s.run schedule).pushes[n]? = some (.threw e) := by
  induction schedule with
  | nil => intro s h; exact h
  | cons a rest ih =>
    intro s h
    rw [run_cons]
    exact ih _ (threw_step s a n e h)

/-- C11, as stated, fails: a push call tests `finished` (false), a stop call
then sets `finished`, the push call obtains its permit; in the state reached
`finished` is true, and the next step of the push call appends unit 0 to the
queue. -/
theorem c11_append_after_finished :
    ((System.start "d" smallConfiguration).run racingPush).q.finished = true
    ∧ ((System.start "d" smallConfiguration).run racingPush).appendedBy (.pushAppend 0) = [0]
    ∧ (((System.start "d" smallConfiguration).run racingPush).step (.pushAppend 0)).q.queue
        = [0] := by
  decide

/-- C11, amended: a call of `tryPushToUpdateQueueOrThrow` that is entered in a
state where `finished` is already true throws at its first step and, whatever
steps follow in whatever interleaving, stays thrown and never appends a unit to
the queue. -/
theorem c11_no_append_by_late_call (s : System) (update_unit_ptr : UnitPtr)
    (later : List Action) (hf : s.q.finished = true) :
    ((s.step (.pushEnter update_unit_ptr)).run later).pushes[s.pushes.length]?
        = some (.threw ⟨.LOGICAL_ERROR, s.q.alreadyFinishedMessage⟩)
    ∧ ((s.step (.pushEnter update_unit_ptr)).run later).appendedBy
        (.pushAppend s.pushes.length) = [] := by
  have h := threw_run later s.pushes.length ⟨.LOGICAL_ERROR, s.q.alreadyFinishedMessage⟩
    (s.step (.pushEnter update_unit_ptr)) (by simp [System.step, hf])
  refine ⟨h, ?_⟩
  simp [System.appendedBy, h]

/-- A push of unit 1 entered after the stop call of `racingPush`, followed by
attempts to take every further step of that call. -/
theorem c11_no_append_by_late_call_witness :
    ((System.start "d" smallConfiguration).run racingPush).q.finished = true
    ∧ ((((System.start "d" smallConfiguration).run racingPush).step (.pushEnter 1)).run
        [.pushAcquire 1, .pushAppend 1]).appendedBy (.pushAppend 1) = [] :=
  ⟨by decide,
   (c11_no_append_by_late_call ((System.start "d" smallConfiguration).run racingPush) 1
      [.pushAcquire 1, .pushAppend 1] (by decide)).2⟩

/-- C12: on a queue that is not finished and has no free permit,
`tryPushToUpdateQueueOrThrow` throws `CACHE_DICTIONARY_UPDATE_FAIL`; the message
contains `update_queue_push_timeout_milliseconds` and the value of `getSize()`,
and every data member, in particular `queue` and `empty_count`, is as before.
In the interleaved system the time-out step of the call does the same. -/
theorem c12_push_timeout (s : System) (update_unit_ptr : UnitPtr)
    (push_failure : Option Exception) (call : Nat)
    (hf : s.q.finished = false) (hp : s.q.empty_count = 0)
    (hc : s.pushes[call]? = some (.acquiring update_unit_ptr)) :
    s.q.tryPushToUpdateQueueOrThrow update_unit_ptr push_failure
        = (.error ⟨.CACHE_DICTIONARY_UPDATE_FAIL, s.q.pushTimeoutMessage⟩, s.q)
    ∧ Mentions s.q.pushTimeoutMessage
        (toString s.q.configuration.update_queue_push_timeout_milliseconds)
    ∧ Mentions s.q.pushTimeoutMessage (toString s.q.getSize)
    ∧ (s.step (.pushTimeout call)).q = s.q
    ∧ (s.step (.pushTimeout call)).pushes[call]?
        = some (.threw ⟨.CACHE_DICTIONARY_UPDATE_FAIL, s.q.pushTimeoutMessage⟩)
    ∧ (s.step (.pushAcquire call)) = s := by
  have hlt : call < s.pushes.length := by
    by_contra hge
    simp [List.getElem?_eq_none (Nat.le_of_not_lt hge)] at hc
  refine ⟨by simp [tryPushToUpdateQueueOrThrow, hf, Semaphore.tryWait, hp], ?_, ?_, ?_, ?_, ?_⟩
  · unfold Mentions pushTimeoutMessage
    exact ⟨("Cannot push to internal update queue in dictionary " ++ s.q.dictionary_name_for_logs
        ++ ". Timelimit of ").data,
      (" ms. exceeded. Current queue size is " ++ toString s.q.getSize).data,
      by simp only [String.data_append, List.append_assoc]⟩
  · unfold Mentions pushTimeoutMessage
    rw [String.data_append]
    exact (List.suffix_append _ _).isInfix
  · simp [System.step, hc, Semaphore.tryWait, hp]
  · simp [System.step, hc, Semaphore.tryWait, hp, hlt]
  · simp [System.step, hc, Semaphore.tryWait, hp]

/-- Scenario S2 with the first unit still on the queue: a second push call is
inside `tryWait` and no permit is free. -/
theorem c12_push_timeout_witness :
    (fullQueue.step (.pushEnter 1)).q.finished = false
    ∧ (fullQueue.step (.pushEnter 1)).q.empty_count = 0
    ∧ (fullQueue.step (.pushEnter 1)).pushes[1]? = some (.acquiring 1)
    ∧ ((fullQueue.step (.pushEnter 1)).step (.pushTimeout 1)).q.queue = [0] :=
  ⟨by decide, by decide, by decide, by
    rw [(c12_push_timeout (fullQueue.step (.pushEnter 1)) 1 none 1 (by decide) (by decide)
      (by decide)).2.2.2.1]
    decide⟩

/-- C13: `stopAndWait` throws the "already finished" `LOGICAL_ERROR` exactly
when `finished` was true at the call, and then changes no data member; on a
queue that is not finished it returns normally with `finished` set.  Of two
calls in a row on such a queue the first returns and the second throws. -/
theorem c13_double_stop (s : System) :
    ((∃ e, s.q.stopAndWait.1 = .error e) ↔ s.q.finished = true)
    ∧ (s.q.finished = true →
        s.q.stopAndWait = (.error ⟨.LOGICAL_ERROR, s.q.alreadyFinishedMessage⟩, s.q)
        ∧ (s.step .stopEnter).q = s.q
        ∧ (s.step .stopEnter).stops
            = s.stops ++ [.threw ⟨.LOGICAL_ERROR, s.q.alreadyFinishedMessage⟩])
    ∧ (s.q.finished = false →
        s.q.stopAndWait.1 = .ok () ∧ s.q.stopAndWait.2.finished = true
        ∧ (∃ e, s.q.stopAndWait.2.stopAndWait.1 = .error e)
        ∧ s.q.stopAndWait.2.stopAndWait.2 = s.q.stopAndWait.2
        ∧ (s.step .stopEnter).q.finished = true
        ∧ (s.step .stopEnter).stops = s.stops ++ [.swapping]) := by
  cases hf : s.q.finished <;> simp [stopAndWait, System.step, hf]

/-- C15, as stated, fails: in the state between the two halves of a stop call,
`finished` is set and unit 0 is still on the queue; the worker does not pop it
but leaves the loop, and the queue and the permits stay as they were. -/
theorem c15_finished_worker_leaves_unit :
    (fullQueue.step .stopEnter).q.queue = [0]
    ∧ (fullQueue.step .stopEnter).q.dequeue = .exit
    ∧ (fullQueue.step .stopEnter).step (.workerDequeue 0) = fullQueue.step .stopEnter
    ∧ ((fullQueue.step .stopEnter).step (.workerExit 0)).workers = [.exited]
    ∧ ((fullQueue.step .stopEnter).step (.workerExit 0)).q.queue = [0]
    ∧ ((fullQueue.step .stopEnter).step (.workerExit 0)).q.empty_count = 0 := by
  refine ⟨by decide, by decide, ?_, by decide, by decide, by decide⟩
  rfl

/-- C15, amended: the locked block of a worker yields no unit and makes the
worker leave the loop whenever `finished` is set, whatever the queue holds;
with `finished` false and the queue empty the worker stays blocked; with
`finished` false and the queue non-empty it pops the front unit, returns one
permit to `empty_count` and goes on to call `update_func` on that unit. -/
theorem c15_dequeue_unless_finished (s : System) (worker : Nat)
    (hw : s.workers[worker]? = some .waiting) :
    (s.q.finished = true →
        s.q.dequeue = .exit
        ∧ s.step (.workerDequeue worker) = s
        ∧ (s.step (.workerExit worker)).workers[worker]? = some .exited
        ∧ (s.step (.workerExit worker)).q = s.q)
    ∧ (s.q.finished = false → s.q.queue = [] →
        s.q.dequeue = .blocked
        ∧ s.step (.workerDequeue worker) = s
        ∧ s.step (.workerExit worker) = s)
    ∧ (s.q.finished = false → ∀ front rest, s.q.queue = front :: rest →
        s.q.dequeue
          = .unit front { s.q with queue := rest, empty_count := s.q.empty_count + 1 }
        ∧ (s.run [.workerDequeue worker, .workerRelease worker]).q
          = { s.q with queue := rest, empty_count := s.q.empty_count + 1 }
        ∧ (s.run [.workerDequeue worker, .workerRelease worker]).workers[worker]?
          = some (.updating front)) := by
  have hlt : worker < s.workers.length := by
    by_contra hge
    simp [List.getElem?_eq_none (Nat.le_of_not_lt hge)] at hw
  refine ⟨fun hf => ?_, fun hf hq => ?_, fun hf front rest hq => ?_⟩
  · simp [dequeue, takeFront, System.step, hf, hw, hlt]
  · simp [dequeue, takeFront, System.step, hf, hw, hq]
  · simp [dequeue, takeFront, System.run, System.step, hf, hw, hq, hlt, Semaphore.set]

/-- The worker of `fullQueue` pops unit 0 and returns the permit. -/
theorem c15_dequeue_unless_finished_witness :
    fullQueue.workers[0]? = some .waiting
    ∧ (fullQueue.run [.workerDequeue 0, .workerRelease 0]).workers[0]? = some (.updating 0) :=
  ⟨by decide,
   ((c15_dequeue_unless_finished fullQueue 0 (by decide)).2.2 (by decide) 0 [] (by decide)).2.2⟩

/-- C16: the permit goes back when the worker dequeues, not when the unit
completes.  The pop leaves `empty_count` as it was, the `empty_count.set()` that
follows adds one permit and only then is the worker inside `update_func`; the
write of `is_done` or `current_exception` that ends the iteration leaves the
queue object, and so the permit count, unchanged. -/
theorem c16_permit_returned_at_dequeue (s : System) (worker : Nat) (front : UnitPtr)
    (rest : List UnitPtr) (outcome : UpdateOutcome)
    (hw : s.workers[worker]? = some .waiting) (hf : s.q.finished = false)
    (hq : s.q.queue = front :: rest) :
    (s.step (.workerDequeue worker)).workers[worker]? = some (.popped front)
    ∧ (s.step (.workerDequeue worker)).q.empty_count = s.q.empty_count
    ∧ (s.run [.workerDequeue worker, .workerRelease worker]).workers[worker]?
        = some (.updating front)
    ∧ (s.run [.workerDequeue worker, .workerRelease worker]).q.empty_count
        = s.q.empty_count + 1
    ∧ (s.run [.workerDequeue worker, .workerRelease worker]).units = s.units
    ∧ (s.run [.workerDequeue worker, .workerRelease worker,
          .workerUpdate worker outcome]).q
        = (s.run [.workerDequeue worker, .workerRelease worker]).q
    ∧ (s.run [.workerDequeue worker, .workerRelease worker,
          .workerUpdate worker outcome]).units front
        = recordOutcome outcome (s.units front) := by
  have hlt : worker < s.workers.length := by
    by_contra hge
    simp [List.getElem?_eq_none (Nat.le_of_not_lt hge)] at hw
  simp [takeFront, System.run, System.step, hf, hw, hq, hlt, Semaphore.set]

/-- The worker of `fullQueue` takes unit 0: one permit is free again while
`update_func` runs, and still exactly one after the outcome is recorded. -/
theorem c16_permit_returned_at_dequeue_witness :
    fullQueue.workers[0]? = some .waiting ∧ fullQueue.q.finished = false
    ∧ fullQueue.q.queue = [0] ∧ fullQueue.q.empty_count = 0
    ∧ (fullQueue.run [.workerDequeue 0, .workerRelease 0]).q.empty_count = 1 :=
  ⟨by decide, by decide, by decide, by decide,
   (c16_permit_returned_at_dequeue fullQueue 0 0 [] .returned (by decide) (by decide)
      (by decide)).2.2.2.1⟩

/-- C17: when a permit was obtained and lines 68-69 then throw `e`,
`tryPushToUpdateQueueOrThrow` rethrows `e` and leaves every data member as it
was before the call: the permit count is restored and the queue is unchanged.
In the interleaved system the handler step returns the permit taken by the
acquire step and leaves the queue alone. -/
theorem c17_permit_restored_on_push_failure (s : System) (update_unit_ptr : UnitPtr)
    (e : Exception) (call : Nat)
    (hf : s.q.finished = false) (hp : 0 < s.q.empty_count)
    (hc : s.pushes[call]? = some (.acquiring update_unit_ptr)) :
    s.q.tryPushToUpdateQueueOrThrow update_unit_ptr (some e) = (.error e, s.q)
    ∧ (s.step (.pushAcquire call)).q.empty_count + 1 = s.q.empty_count
    ∧ (s.run [.pushAcquire call, .pushThrow call e]).q = s.q
    ∧ (s.run [.pushAcquire call, .pushThrow call e]).pushes[call]? = some (.threw e) := by
  have hlt : call < s.pushes.length := by
    by_contra hge
    simp [List.getElem?_eq_none (Nat.le_of_not_lt hge)] at hc
  have hrestore : s.q.empty_count - 1 + 1 = s.q.empty_count := by omega
  have hq : ({ s.q with empty_count := s.q.empty_count - 1 + 1 } : CacheDictionaryUpdateQueue)
      = s.q := by
    rw [hrestore]
  refine ⟨?_, ?_, ?_, ?_⟩
  · simpa [tryPushToUpdateQueueOrThrow, hf, Semaphore.tryWait, hp, Semaphore.set] using hq
  · simp [System.step, hc, Semaphore.tryWait, hp, hrestore]
  · simpa [System.run, System.step, hc, Semaphore.tryWait, hp, Semaphore.set, hlt] using hq
  · simp [System.run, System.step, hc, Semaphore.tryWait, hp, hlt]

/-- A push on a fresh queue of size 1 whose `std::queue::push` throws. -/
theorem c17_permit_restored_on_push_failure_witness :
    ((System.start "d" smallConfiguration).step (.pushEnter 0)).q.finished = false
    ∧ 0 < ((System.start "d" smallConfiguration).step (.pushEnter 0)).q.empty_count
    ∧ ((System.start "d" smallConfiguration).step (.pushEnter 0)).pushes[0]?
        = some (.acquiring 0)
    ∧ (((System.start "d" smallConfiguration).step (.pushEnter 0)).run
        [.pushAcquire 0, .pushThrow 0 ⟨.LOGICAL_ERROR, "bad_alloc"⟩]).q
        = ((System.start "d" smallConfiguration).step (.pushEnter 0)).q :=
  ⟨by decide, by decide, by decide,
   (c17_permit_restored_on_push_failure ((System.start "d" smallConfiguration).step
      (.pushEnter 0)) 0 ⟨.LOGICAL_ERROR, "bad_alloc"⟩ 0 (by decide) (by decide)
      (by decide)).2.2.1⟩

/-- C19: with `update_queue_push_timeout_milliseconds` = 0 on a queue that is
not finished, `tryPushToUpdateQueueOrThrow` returns normally exactly when
`empty_count` has a free permit at the call; it then appends the unit and takes
one permit.  With no free permit it throws `CACHE_DICTIONARY_UPDATE_FAIL`, the
message naming the time limit of 0 ms, and changes nothing. -/
theorem c19_non_blocking_push (q : CacheDictionaryUpdateQueue) (update_unit_ptr : UnitPtr)
    (hz : q.configuration.update_queue_push_timeout_milliseconds = 0)
    (hf : q.finished = false) :
    ((q.tryPushToUpdateQueueOrThrow update_unit_ptr none).1 = .ok () ↔ 0 < q.empty_count)
    ∧ (0 < q.empty_count →
        (q.tryPushToUpdateQueueOrThrow update_unit_ptr none).2
          = { q with queue := q.queue ++ [update_unit_ptr], empty_count := q.empty_count - 1 })
    ∧ (q.empty_count = 0 →
        q.tryPushToUpdateQueueOrThrow update_unit_ptr none
          = (.error ⟨.CACHE_DICTIONARY_UPDATE_FAIL, q.pushTimeoutMessage⟩, q)
        ∧ Mentions q.pushTimeoutMessage "Timelimit of 0 ms. exceeded") := by
  by_cases hp : 0 < q.empty_count
  · have hne : q.empty_count ≠ 0 := by omega
    simp [tryPushToUpdateQueueOrThrow, hf, Semaphore.tryWait, hp, hne]
  · have hzero : q.empty_count = 0 := by omega
    simp only [tryPushToUpdateQueueOrThrow, hf, Semaphore.tryWait, hzero]
    refine ⟨by simp, by simp, fun _ => ⟨by simp, ?_⟩⟩
    have hzero_text : (toString 0 : String) = "0" := by decide
    unfold Mentions pushTimeoutMessage
    rw [hz, hzero_text]
    exact ⟨("Cannot push to internal update queue in dictionary " ++ q.dictionary_name_for_logs
        ++ ". ").data,
      (". Current queue size is " ++ toString q.getSize).data,
      by simp [String.data_append, List.append_assoc]⟩

/-- The full queue of size 1 with a push time limit of zero. -/
theorem c19_non_blocking_push_witness :
    ((construct "d" nonBlockingConfiguration).tryPushToUpdateQueueOrThrow 0 none).2.finished
        = false
    ∧ (((construct "d" nonBlockingConfiguration).tryPushToUpdateQueueOrThrow 0
          none).2.tryPushToUpdateQueueOrThrow 1 none).2.queue = [0]
    ∧ ((construct "d" nonBlockingConfiguration).tryPushToUpdateQueueOrThrow 0 none).2.queue
        = [0] :=
  ⟨by decide, by
    rw [((c19_non_blocking_push
      ((construct "d" nonBlockingConfiguration).tryPushToUpdateQueueOrThrow 0 none).2 1
      (by decide) (by decide)).2.2 (by decide)).1]
    decide,
   by
    rw [(c19_non_blocking_push (construct "d" nonBlockingConfiguration) 0
      (by decide) (by decide)).2.1 (by decide)]
    decide⟩

theorem mentions_middle (before text after : String) :
    Mentions (before ++ text ++ after) text := by
  unfold Mentions
  exact ⟨before.data, after.data, by simp only [String.data_append]⟩

theorem mentions_last (before text : String) : Mentions (before ++ text) text := by
  unfold Mentions
  rw [String.data_append]
  exact (List.suffix_append _ _).isInfix

theorem mentions_append_right (haystack text after : String) (h : Mentions haystack text) :
    Mentions (haystack ++ after) text := by
  unfold Mentions at h ⊢
  rw [String.data_append]
  exact h.trans (List.prefix_append _ _).isInfix

theorem alreadyFinishedMessage_name (q : CacheDictionaryUpdateQueue) :
    Mentions q.alreadyFinishedMessage q.dictionary_name_for_logs :=
  mentions_middle _ _ _

theorem pushTimeoutMessage_name (q : CacheDictionaryUpdateQueue) :
    Mentions q.pushTimeoutMessage q.dictionary_name_for_logs := by
  unfold pushTimeoutMessage
  exact mentions_append_right _ _ _ (mentions_append_right _ _ _
    (mentions_append_right _ _ _ (mentions_middle _ _ _)))

theorem pushTimeoutMessage_timeout (q : CacheDictionaryUpdateQueue) :
    Mentions q.pushTimeoutMessage
      (toString q.configuration.update_queue_push_timeout_milliseconds) := by
  unfold pushTimeoutMessage
  exact mentions_append_right _ _ _ (mentions_middle _ _ _)

theorem pushTimeoutMessage_size (q : CacheDictionaryUpdateQueue) :
    Mentions q.pushTimeoutMessage (toString q.getSize) :=
  mentions_last _ _

theorem queryTimeoutMessage_name (q : CacheDictionaryUpdateQueue) :
    Mentions q.queryTimeoutMessage q.dictionary_name_for_logs := by
  unfold queryTimeoutMessage
  exact mentions_append_right _ _ _ (mentions_append_right _ _ _ (mentions_middle _ _ _))

theorem queryTimeoutMessage_timeout (q : CacheDictionaryUpdateQueue) :
    Mentions q.queryTimeoutMessage (toString q.configuration.query_wait_timeout_milliseconds) :=
  mentions_middle _ _ _

theorem updateFailedMessage_name (q : CacheDictionaryUpdateQueue) (description : String) :
    Mentions (q.updateFailedMessage description) q.dictionary_name_for_logs := by
  unfold updateFailedMessage
  exact mentions_append_right _ _ _ (mentions_middle _ _ _)

theorem updateFailedMessage_description (q : CacheDictionaryUpdateQueue)
    (description : String) : Mentions (q.updateFailedMessage description) description :=
  mentions_last _ _

/-- C18, as stated, fails: with time limits of 50 ms and 1000 ms, the message
thrown by a push on a stopped queue and the message built from a captured
failure "boom" contain neither "50" nor "1000". -/
theorem c18_messages_without_timeout :
    ((construct "d" smallConfiguration).stopAndWait.2.tryPushToUpdateQueueOrThrow 0 none).1
        = .error ⟨.LOGICAL_ERROR, "CacheDictionaryUpdateQueue for dictionary d already finished"⟩
    ∧ ¬ Mentions "CacheDictionaryUpdateQueue for dictionary d already finished" "50"
    ∧ ¬ Mentions "CacheDictionaryUpdateQueue for dictionary d already finished" "1000"
    ∧ (construct "d" smallConfiguration).waitForCurrentUpdateFinish ⟨false, some "boom"⟩
        = .error ⟨.CACHE_DICTIONARY_UPDATE_FAIL, "Update failed for dictionary \x27d\x27: boom"⟩
    ∧ ¬ Mentions "Update failed for dictionary \x27d\x27: boom" "50"
    ∧ ¬ Mentions "Update failed for dictionary \x27d\x27: boom" "1000" := by
  refine ⟨?_, by decide, by decide, ?_, by decide, by decide⟩
  · have h : (construct "d" smallConfiguration).stopAndWait.2.alreadyFinishedMessage
        = "CacheDictionaryUpdateQueue for dictionary d already finished" := by decide
    rw [← h]
    rfl
  · have h : (construct "d" smallConfiguration).updateFailedMessage "boom"
        = "Update failed for dictionary \x27d\x27: boom" := by decide
    rw [← h]
    rfl

/-- C18, amended: every exception that `tryPushToUpdateQueueOrThrow` builds and
every exception `waitForCurrentUpdateFinish` throws has a message containing
`dictionary_name_for_logs`.  The push-timeout message also contains
`update_queue_push_timeout_milliseconds` and the value of `getSize()`; the
query-timeout message also contains `query_wait_timeout_milliseconds`; the
update-failed message also contains the description of the captured failure.
The queue-finished message is built from the dictionary name alone and the
update-failed message from the name and that description alone. -/
theorem c18_message_contents (q : CacheDictionaryUpdateQueue) (update_unit_ptr : UnitPtr)
    (update_unit : CacheDictionaryUpdateUnit) :
    (∀ e, (q.tryPushToUpdateQueueOrThrow update_unit_ptr none).1 = .error e →
        Mentions e.message q.dictionary_name_for_logs
        ∧ ((e.code = .LOGICAL_ERROR ∧ e.message = "CacheDictionaryUpdateQueue for dictionary "
              ++ q.dictionary_name_for_logs ++ " already finished")
          ∨ (e.code = .CACHE_DICTIONARY_UPDATE_FAIL
              ∧ Mentions e.message
                  (toString q.configuration.update_queue_push_timeout_milliseconds)
              ∧ Mentions e.message (toString q.getSize))))
    ∧ (∀ e, q.waitForCurrentUpdateFinish update_unit = .error e →
        Mentions e.message q.dictionary_name_for_logs
        ∧ ((e.code = .LOGICAL_ERROR ∧ e.message = "CacheDictionaryUpdateQueue for dictionary "
              ++ q.dictionary_name_for_logs ++ " already finished")
          ∨ (e.code = .TIMEOUT_EXCEEDED
              ∧ Mentions e.message (toString q.configuration.query_wait_timeout_milliseconds))
          ∨ (e.code = .CACHE_DICTIONARY_UPDATE_FAIL
              ∧ ∃ description, update_unit.current_exception = some description
                ∧ e.message = "Update failed for dictionary \x27" ++ q.dictionary_name_for_logs
                    ++ "\x27: " ++ description
                ∧ Mentions e.message description))) := by
  constructor
  · intro e he
    unfold tryPushToUpdateQueueOrThrow at he
    split at he
    · simp only [Except.error.injEq] at he
      subst he
      exact ⟨alreadyFinishedMessage_name q, Or.inl ⟨rfl, rfl⟩⟩
    · split at he
      · simp only [Except.error.injEq] at he
        subst he
        exact ⟨pushTimeoutMessage_name q,
          Or.inr ⟨rfl, pushTimeoutMessage_timeout q, pushTimeoutMessage_size q⟩⟩
      · simp at he
  · intro e he
    unfold waitForCurrentUpdateFinish at he
    split at he
    · simp only [Except.error.injEq] at he
      subst he
      exact ⟨alreadyFinishedMessage_name q, Or.inl ⟨rfl, rfl⟩⟩
    · simp only at he
      split at he
      · simp only [Except.error.injEq] at he
        subst he
        exact ⟨queryTimeoutMessage_name q, Or.inr (Or.inl ⟨rfl, queryTimeoutMessage_timeout q⟩)⟩
      · split at he
        · rename_i description hd
          simp only [Except.error.injEq] at he
          subst he
          exact ⟨updateFailedMessage_name q description,
            Or.inr (Or.inr ⟨rfl, description, hd, rfl, updateFailedMessage_description q _⟩)⟩
        · simp at he

theorem wait_iff (jobs : List WorkerPc) :
    ThreadPool.wait jobs = true ↔ ∀ pc ∈ jobs, pc = WorkerPc.exited := by
  simp [ThreadPool.wait]

theorem joined_of_busy (s : System) (w : Nat) (pc x : WorkerPc) (h : s.Joined)
    (hw : s.workers[w]? = some pc) (hpc : pc ≠ .exited) :
    StopPc.returned ∈ s.stops → ∀ pc1 ∈ s.workers.set w x, pc1 = WorkerPc.exited := by
  intro hret
  exact absurd (h hret pc (List.getElem?_mem hw)) hpc

theorem joined_step (s : System) (a : Action) (h : s.Joined) : (s.step a).Joined := by
  unfold System.Joined at h ⊢
  cases a <;> simp only [System.step]
  case workerDequeue w =>
    split
    · rename_i u q1 hw ht
      exact joined_of_busy s w _ _ h hw (by simp)
    · exact h
  case workerExit w =>
    split
    · rename_i hw ht
      exact joined_of_busy s w _ _ h hw (by simp)
    · exact h
  case workerRelease w =>
    split
    · rename_i u hw
      exact joined_of_busy s w _ _ h hw (by simp)
    · exact h
  case workerUpdate w outcome =>
    split
    · rename_i u hw
      exact joined_of_busy s w _ _ h hw (by simp)
    · exact h
  case stopEnter =>
    split
    · intro hret
      simp only [List.mem_append, List.mem_singleton] at hret
      rcases hret with hret | hret
      · exact h hret
      · simp at hret
    · intro hret
      simp only [List.mem_append, List.mem_singleton] at hret
      rcases hret with hret | hret
      · exact h hret
      · simp at hret
  case stopSwap c =>
    split
    · intro hret
      rcases List.mem_or_eq_of_mem_set hret with hmem | heq
      · exact h hmem
      · simp at heq
    · exact h
  case stopJoin c =>
    split
    · split
      · rename_i hc hall
        intro _
        exact (wait_iff s.workers).mp hall
      · exact h
    · exact h
  case pushAcquire c => split <;> exact h
  case pushTimeout c => split <;> exact h
  all_goals split <;> exact h

theorem joined_run (schedule : List Action) :
    ∀ s : System, s.Joined → (s.run schedule).Joined := by
  induction schedule with
  | nil => intro s h; exact h
  | cons a rest ih =>
    intro s h
    rw [run_cons]
    exact ih _ (joined_step s a h)

theorem workers_length_step (s : System) (a : Action) :
    (s.step a).workers.length = s.workers.length := by
  cases a <;> simp only [System.step]
  case stopJoin c =>
    split
    · split <;> rfl
    · rfl
  all_goals split <;> simp

theorem workers_length_run (schedule : List Action) :
    ∀ s : System, (s.run schedule).workers.length = s.workers.length := by
  induction schedule with
  | nil => intro s; rfl
  | cons a rest ih =>
    intro s
    rw [run_cons, ih, workers_length_step]

/-- C20: in every state reached from construction in which some call of
`stopAndWait` has returned, each of the `max_threads_for_updates` worker threads
has left `updateThreadFunction`: none is waiting in its loop, holding a popped
unit, or inside `update_func`. -/
theorem c20_stop_returns_after_workers (name : String)
    (configuration : CacheDictionaryUpdateQueueConfiguration) (schedule : List Action)
    (call : Nat)
    (hret : ((System.start name configuration).run schedule).stops[call]? = some .returned) :
    ((System.start name configuration).run schedule).workers
      = List.replicate configuration.max_threads_for_updates .exited := by
  have hjoined := joined_run schedule (System.start name configuration)
    (by intro h; simp [System.start] at h)
  have hlen := workers_length_run schedule (System.start name configuration)
  rw [List.eq_replicate_iff]
  refine ⟨?_, hjoined (List.getElem?_mem hret)⟩
  simpa [System.start] using hlen

/-- The orderly stop of an idle queue with one worker. -/
theorem c20_stop_returns_after_workers_witness :
    ((System.start "d" smallConfiguration).run orderlyStop).stops[0]? = some .returned
    ∧ ((System.start "d" smallConfiguration).run orderlyStop).workers = [.exited] :=
  ⟨by decide, c20_stop_returns_after_workers "d" smallConfiguration orderlyStop 0 (by decide)⟩

theorem swapAfterFinish_run (schedule : List Action) :
    ∀ s : System, s.SwapAfterFinish → (s.run schedule).SwapAfterFinish := by
  induction schedule with
  | nil => intro s h; exact h
  | cons a rest ih =>
    intro s h
    rw [run_cons]
    exact ih _ (swapAfterFinish_step s a h)

theorem enteredUnits_append (first second : List Action) :
    enteredUnits (first ++ second) = enteredUnits first ++ enteredUnits second := by
  induction first with
  | nil => rfl
  | cons a rest ih =>
    rw [List.cons_append, enteredUnits_cons, ih, enteredUnits_cons a rest, List.append_assoc]

theorem inFlight_run (schedule : List Action) (u : UnitPtr) :
    ∀ (s : System) (rest : List Action),
      (s.run schedule).inFlight u + ((s.run schedule).units u).written
          + (enteredUnits rest).count u
        ≤ s.inFlight u + (s.units u).written + (enteredUnits (schedule ++ rest)).count u := by
  induction schedule with
  | nil => intro s rest; exact le_refl _
  | cons a tail ih =>
    intro s rest
    rw [run_cons]
    have h1 := ih (s.step a) rest
    have h2 := inFlight_step s a u
    rw [List.cons_append, enteredUnits_cons, List.count_append]
    omega

theorem written_eq_zero (unit : CacheDictionaryUpdateUnit) (h : unit.written = 0) :
    unit.is_done = false ∧ unit.current_exception = none := by
  unfold CacheDictionaryUpdateUnit.written at h
  split at h
  · omega
  · rename_i hnot
    simp only [not_or] at hnot
    obtain ⟨done, failure⟩ := unit
    cases done <;> cases failure <;> simp_all

theorem quiet_step (s : System) (a : Action) (h : s.Quiet) : (s.step a).Quiet := by
  obtain ⟨hf, hq, hp⟩ := h
  have hnone : ∀ (c : Nat) (pc : PushPc), s.pushes[c]? = some pc → pc.pending = 0 := by
    intro c pc hc
    have := weight_le_tally PushPc.pending s.pushes c pc hc
    omega
  unfold System.Quiet
  cases a <;> simp only [System.step]
  case pushEnter u => simp [hf, hq, tally_append, tally_singleton, PushPc.pending, hp]
  case pushAcquire c =>
    split
    · rename_i v permits hc hw
      exact absurd (hnone c _ hc) (by simp [PushPc.pending])
    · exact ⟨hf, hq, hp⟩
  case pushTimeout c =>
    split
    · rename_i v hc hw
      exact absurd (hnone c _ hc) (by simp [PushPc.pending])
    · exact ⟨hf, hq, hp⟩
  case pushAppend c =>
    split
    · rename_i v hc
      exact absurd (hnone c _ hc) (by simp [PushPc.pending])
    · exact ⟨hf, hq, hp⟩
  case pushThrow c e =>
    split
    · rename_i v hc
      exact absurd (hnone c _ hc) (by simp [PushPc.pending])
    · exact ⟨hf, hq, hp⟩
  case workerDequeue w =>
    split
    · rename_i v q1 hw ht
      obtain ⟨hfalse, -⟩ := takeFront_eq_unit _ _ _ ht
      rw [hf] at hfalse
      exact absurd hfalse (by simp)
    · exact ⟨hf, hq, hp⟩
  case workerExit w => split <;> exact ⟨hf, hq, hp⟩
  case workerRelease w => split <;> exact ⟨hf, hq, hp⟩
  case workerUpdate w outcome => split <;> exact ⟨hf, hq, hp⟩
  case stopEnter => simp [hf, hq, hp]
  case stopSwap c => split <;> exact ⟨hf, by first | rfl | exact hq, hp⟩
  case stopJoin c =>
    split
    · split <;> exact ⟨hf, hq, hp⟩
    · exact ⟨hf, hq, hp⟩

theorem quiet_run (schedule : List Action) :
    ∀ s : System, s.Quiet → (s.run schedule).Quiet := by
  induction schedule with
  | nil => intro s h; exact h
  | cons a rest ih =>
    intro s h
    rw [run_cons]
    exact ih _ (quiet_step s a h)

/-- C14, as stated, fails on both counts.  A push call that tested `finished`
before the stop appends unit 0 after the stop call has returned, so the queue is
not empty after a successful `stopAndWait`.  And a unit that sits on the queue
when it is swapped out, while a worker is inside `update_func` on the same unit
from an earlier push, has `is_done` set by a later step. -/
theorem c14_queue_refilled_and_unit_claimed :
    ((System.start "d" smallConfiguration).run pushAcrossStop).stops[0]? = some .returned
    ∧ ((System.start "d" smallConfiguration).run pushAcrossStop).q.getSize = 1
    ∧ ((System.start "d" smallConfiguration).run stopWithCopyInWorker).stops[0]?
        = some .swapping
    ∧ ((System.start "d" smallConfiguration).run stopWithCopyInWorker).q.queue = [0]
    ∧ ((((System.start "d" smallConfiguration).run stopWithCopyInWorker).step
        (.stopSwap 0)).units 0).is_done = false
    ∧ (((((System.start "d" smallConfiguration).run stopWithCopyInWorker).step
        (.stopSwap 0)).run [.workerUpdate 0 .returned]).units 0).is_done = true := by
  decide

/-- C14, amended: the swap of `stopAndWait` leaves the queue empty, and the
queue stays empty through every later step provided no call of
`tryPushToUpdateQueueOrThrow` that has passed its test of `finished` is still
under way at the swap.  Every unit that is on the queue when it is swapped out
and is passed to `tryPushToUpdateQueueOrThrow` at most once is never claimed:
after any later steps its `is_done` is false and its `current_exception` is
empty. -/
theorem c14_discarded_units_never_claimed (name : String)
    (configuration : CacheDictionaryUpdateQueueConfiguration)
    (before later : List Action) (call : Nat) (u : UnitPtr)
    (hswap : ((System.start name configuration).run before).stops[call]? = some .swapping) :
    (((System.start name configuration).run before).step (.stopSwap call)).q.getSize = 0
    ∧ (tally PushPc.pending ((System.start name configuration).run before).pushes = 0 →
        ((((System.start name configuration).run before).step (.stopSwap call)).run
          later).q.getSize = 0)
    ∧ (u ∈ ((System.start name configuration).run before).q.queue →
        (enteredUnits (before ++ later)).count u ≤ 1 →
        (((((System.start name configuration).run before).step (.stopSwap call)).run
            later).units u).is_done = false
        ∧ (((((System.start name configuration).run before).step (.stopSwap call)).run
            later).units u).current_exception = none) := by
  have hstart : (System.start name configuration).SwapAfterFinish := by
    intro _ pc hpc
    simp [System.start] at hpc
  have hfin : ((System.start name configuration).run before).q.finished = true := by
    cases hf : ((System.start name configuration).run before).q.finished with
    | true => rfl
    | false =>
      exact absurd rfl (swapAfterFinish_run before _ hstart hf _ (List.getElem?_mem hswap))
  have hload := inFlight_run before u (System.start name configuration) later
  have hzero : (System.start name configuration).inFlight u
      + ((System.start name configuration).units u).written = 0 := by
    simp [System.inFlight, System.start, construct, tally_nil,
      tally_replicate_zero (WorkerPc.carries u) WorkerPc.waiting _ rfl,
      CacheDictionaryUpdateUnit.written, CacheDictionaryUpdateUnit.fresh]
  generalize (System.start name configuration).run before = s at hswap hfin hload ⊢
  have hstep : s.step (.stopSwap call)
      = { s with q := { s.q with queue := [] }, stops := s.stops.set call .joining } := by
    simp [System.step, hswap]
  refine ⟨by rw [hstep]; rfl, fun hquiet => ?_, fun hu honce => ?_⟩
  · have hq := quiet_run later (s.step (.stopSwap call))
      (by rw [hstep]; exact ⟨hfin, rfl, hquiet⟩)
    simp [getSize, hq.2.1]
  · have hqueued : 1 ≤ s.q.queue.count u := List.count_pos_iff.mpr hu
    have hafter := inFlight_run later u (s.step (.stopSwap call)) []
    have hswapped : (s.step (.stopSwap call)).inFlight u
        + ((s.step (.stopSwap call)).units u).written
          = s.inFlight u - s.q.queue.count u + (s.units u).written := by
      rw [hstep]
      simp [System.inFlight]
      omega
    have hflight : s.inFlight u = tally (PushPc.carries u) s.pushes + s.q.queue.count u
        + tally (WorkerPc.carries u) s.workers := rfl
    apply written_eq_zero
    have hnil : (enteredUnits []).count u = 0 := rfl
    simp only [List.append_nil] at hafter
    omega

/-- Units 0 and 1 are pending when the queue is stopped; whatever the worker
and a later submitter try, unit 1 is never written. -/
theorem c14_discarded_units_never_claimed_witness :
    ((System.start "d" pairConfiguration).run stopWithPending).stops[0]? = some .swapping
    ∧ 1 ∈ ((System.start "d" pairConfiguration).run stopWithPending).q.queue
    ∧ (enteredUnits (stopWithPending ++ [.workerDequeue 0, .workerExit 0, .stopJoin 0,
        .pushEnter 2, .workerUpdate 0 .returned])).count 1 ≤ 1
    ∧ (((((System.start "d" pairConfiguration).run stopWithPending).step (.stopSwap 0)).run
        [.workerDequeue 0, .workerExit 0, .stopJoin 0, .pushEnter 2,
          .workerUpdate 0 .returned]).units 1).is_done = false :=
  ⟨by decide, by decide, by decide,
   ((c14_discarded_units_never_claimed "d" pairConfiguration stopWithPending
      [.workerDequeue 0, .workerExit 0, .stopJoin 0, .pushEnter 2, .workerUpdate 0 .returned]
      0 1 (by decide)).2.2 (by decide) (by decide)).1⟩

/-! ## Properties of the ring buffer -/

theorem roundUpFrom_spec (tries : Nat) :
    ∀ j n : Nat, 0 < tries → n ≤ 2 ^ (j + tries - 1) → (∀ m, m < j → 2 ^ m < n) →
      ∃ k, roundUpFrom tries (2 ^ j) n = 2 ^ k ∧ n ≤ 2 ^ k ∧ ∀ m, m < k → 2 ^ m < n := by
  induction tries with
  | zero => intro j n h; omega
  | succ t ih =>
    intro j n _ hfit hbelow
    unfold roundUpFrom
    by_cases hle : n ≤ 2 ^ j
    · exact ⟨j, by simp [hle], hle, hbelow⟩
    · have hlt : 2 ^ j < n := Nat.lt_of_not_le hle
      have ht : 0 < t := by
        by_contra h0
        have h0' : t = 0 := by omega
        subst h0'
        simp at hfit
        omega
      have hfit' : n ≤ 2 ^ (j + 1 + t - 1) := by
        have : j + 1 + t - 1 = j + (t + 1) - 1 := by omega
        rw [this]
        exact hfit
      have hbelow' : ∀ m, m < j + 1 → 2 ^ m < n := by
        intro m hm
        by_cases hmj : m < j
        · exact hbelow m hmj
        · have : m = j := by omega
          subst this
          exact hlt
      obtain ⟨k, hk, hnk, hmin⟩ := ih (j + 1) n ht hfit' hbelow'
      refine ⟨k, ?_, hnk, hmin⟩
      simp only [hle, if_false]
      rw [← hk, Nat.pow_succ, Nat.mul_comm]

theorem roundUpToPowerOfTwoOrZero_spec (n : Nat) (h1 : 1 ≤ n) (h2 : n ≤ 2 ^ 63) :
    ∃ k, roundUpToPowerOfTwoOrZero n = 2 ^ k ∧ n ≤ 2 ^ k ∧ ∀ m, m < k → 2 ^ m < n := by
  have hn : n ≠ 0 := by omega
  have h := roundUpFrom_spec 64 0 n (by omega) (by simpa using h2) (by intro m hm; omega)
  simpa [roundUpToPowerOfTwoOrZero, hn] using h

/-- C21: for every `initial_capacity` from 1 up to 2^63 the constructor
succeeds, `capacity()` is a power of two that is not below `initial_capacity`
and not above any other such power of two, and `size()` is 0. -/
theorem c21_constructor_capacity {Value : Type} [Inhabited Value] (initial_capacity : Nat)
    (h1 : 1 ≤ initial_capacity) (h2 : initial_capacity ≤ 2 ^ 63) :
    ∃ (b : RingBuffer Value) (k : Nat),
      RingBuffer.construct initial_capacity = some b
      ∧ b.capacity = 2 ^ k
      ∧ initial_capacity ≤ b.capacity
      ∧ (∀ m, initial_capacity ≤ 2 ^ m → b.capacity ≤ 2 ^ m)
      ∧ b.size = 0 := by
  obtain ⟨k, hk, hnk, hmin⟩ := roundUpToPowerOfTwoOrZero_spec initial_capacity h1 h2
  have hpos : (2 : Nat) ^ k ≠ 0 := by positivity
  refine ⟨RingBuffer.mk 0 0 0 (2 ^ k) (fun _ => default), k,
    by simp [RingBuffer.construct, hk, hpos], rfl, ?_, ?_, rfl⟩
  · simpa [RingBuffer.capacity] using hnk
  · intro m hm
    have hkm : k ≤ m := by
      by_contra hlt
      have := hmin m (by omega)
      omega
    simpa [RingBuffer.capacity] using Nat.pow_le_pow_right (by omega) hkm

/-- The two constructions of the constructor test: 1 gives capacity 1 and 6
gives capacity 8. -/
theorem c21_constructor_capacity_witness :
    (1 ≤ 6 ∧ 6 ≤ 2 ^ 63)
    ∧ (∃ (b : RingBuffer Nat) (k : Nat), RingBuffer.construct 6 = some b ∧ b.capacity = 2 ^ k
        ∧ 6 ≤ b.capacity ∧ (∀ m, 6 ≤ 2 ^ m → b.capacity ≤ 2 ^ m) ∧ b.size = 0)
    ∧ (RingBuffer.construct 6 : Option (RingBuffer Nat)).map RingBuffer.capacity = some 8
    ∧ (RingBuffer.construct 1 : Option (RingBuffer Nat)).map RingBuffer.capacity = some 1 :=
  ⟨by decide, c21_constructor_capacity 6 (by decide) (by decide), by decide, by decide⟩

namespace RingBuffer

variable {Value : Type}

theorem pred64_pos (x : Nat) (h : 0 < x) : pred64 x = x - 1 := by
  unfold pred64
  have : x ≠ 0 := by omega
  simp [this]

theorem mod_wrap (a i c : Nat) (ha : a < c) (hi : i ≤ c) :
    (a + i) % c = if a + i < c then a + i else a + i - c := by
  split
  · rename_i h
    exact Nat.mod_eq_of_lt h
  · rename_i h
    rw [Nat.mod_eq_sub_mod (by omega)]
    exact Nat.mod_eq_of_lt (by omega)

theorem incrementPointer_wrap (b : RingBuffer Value) (c k p offset : Nat)
    (hc : b.elements_capacity = c) (hk : c = 2 ^ k) (hp : p < c) (hoff : offset ≤ c) :
    b.incrementPointer p offset = if p + offset < c then p + offset else p + offset - c := by
  have hpos : 0 < c := by omega
  unfold incrementPointer getIndexMask
  rw [hc, pred64_pos c hpos, hk, Nat.and_pow_two_sub_one_eq_mod, ← hk]
  exact mod_wrap p offset c hp hoff

theorem decrementPointer_wrap (b : RingBuffer Value) (c p : Nat)
    (hc : b.elements_capacity = c) (hp : p < c) :
    b.decrementPointer p = if p = 0 then c - 1 else p - 1 := by
  unfold decrementPointer
  rw [hc]
  split
  · exact pred64_pos c (by omega)
  · exact pred64_pos p (by omega)

/-- The invariant with the wrap-around written out. -/
theorem valid_iff (b : RingBuffer Value) :
    b.Valid ↔ (∃ k, b.elements_capacity = 2 ^ k)
      ∧ b.elements_size ≤ b.elements_capacity
      ∧ b.left_pointer < b.elements_capacity
      ∧ b.right_pointer
          = if b.left_pointer + b.elements_size < b.elements_capacity
            then b.left_pointer + b.elements_size
            else b.left_pointer + b.elements_size - b.elements_capacity := by
  unfold Valid
  constructor
  · rintro ⟨hk, hs, hl, hr⟩
    exact ⟨hk, hs, hl, by rw [hr]; exact mod_wrap _ _ _ hl hs⟩
  · rintro ⟨hk, hs, hl, hr⟩
    exact ⟨hk, hs, hl, by rw [hr]; exact (mod_wrap _ _ _ hl hs).symm⟩

theorem toList_length (b : RingBuffer Value) : b.toList.length = b.elements_size := by
  simp [toList]

theorem toList_getElem? (b : RingBuffer Value) (i : Nat) (hi : i < b.elements_size) :
    b.toList[i]? = some (b.getElement i) := by
  simp [toList, List.getElem?_range hi]

/-- A valid buffer either has room or is moved to an array of twice the
capacity; the sequence it holds is the same afterwards and there is room. -/
theorem resizeIfNeeded_spec [Inhabited Value] (b : RingBuffer Value) (h : b.Valid) :
    ∃ r, b.resizeIfNeeded = some r ∧ r.Valid ∧ r.elements_size < r.elements_capacity
      ∧ r.elements_size = b.elements_size ∧ r.toList = b.toList
      ∧ (r.elements_capacity = b.elements_capacity
          ∨ r.elements_capacity = 2 * b.elements_capacity) := by
  obtain ⟨⟨k, hk⟩, hs, hl, hr⟩ := (valid_iff b).mp h
  have hpos : 0 < b.elements_capacity := by rw [hk]; positivity
  have hne : b.elements_capacity ≠ 0 := by omega
  by_cases hroom : b.elements_size < b.elements_capacity
  · exact ⟨b, by simp [resizeIfNeeded, hne, hroom], h, hroom, rfl, rfl, Or.inl rfl⟩
  · have hfull : b.elements_size = b.elements_capacity := by omega
    have hk2 : b.elements_capacity * 2 = 2 ^ (k + 1) := by rw [hk, Nat.pow_succ]
    have hres : b.resizeIfNeeded = some (RingBuffer.mk 0 b.elements_size b.elements_size
        (b.elements_capacity * 2) (fun i =>
          if i < b.elements_size then b.data (b.incrementPointer b.left_pointer i)
          else default)) := by
      simp only [resizeIfNeeded, hne, hroom, if_false]
    refine ⟨_, hres, ?_, ?_, rfl, ?_, Or.inr ?_⟩
    · rw [valid_iff]
      refine ⟨⟨k + 1, hk2⟩, ?_, ?_, ?_⟩
      · show b.elements_size ≤ b.elements_capacity * 2
        omega
      · show 0 < b.elements_capacity * 2
        omega
      · show b.elements_size = if 0 + b.elements_size < b.elements_capacity * 2
          then 0 + b.elements_size else 0 + b.elements_size - b.elements_capacity * 2
        split <;> omega
    · show b.elements_size < b.elements_capacity * 2
      omega
    · unfold toList
      apply List.map_congr_left
      intro i hi
      have hi' : i < b.elements_size := by simpa using hi
      unfold getElement
      rw [incrementPointer_wrap _ (b.elements_capacity * 2) (k + 1) 0 i rfl hk2 (by omega)
        (by omega)]
      have hlt : i < b.elements_capacity * 2 := by omega
      simp only [Nat.zero_add, hlt, if_true, hi']
    · show b.elements_capacity * 2 = 2 * b.elements_capacity
      omega

end RingBuffer

namespace RingBuffer

variable {Value : Type}

theorem getElement_wrap (b : RingBuffer Value) (k i : Nat)
    (hk : b.elements_capacity = 2 ^ k) (hl : b.left_pointer < b.elements_capacity)
    (hi : i ≤ b.elements_capacity) :
    b.getElement i
      = b.data (if b.left_pointer + i < b.elements_capacity then b.left_pointer + i
          else b.left_pointer + i - b.elements_capacity) := by
  unfold getElement
  rw [incrementPointer_wrap b b.elements_capacity k b.left_pointer i rfl hk hl hi]

/-- A value stored at `right_pointer` of a valid buffer with room becomes its
last element. -/
theorem storeBack_spec (r b1 : RingBuffer Value) (value : Value) (h : r.Valid)
    (hroom : r.elements_size < r.elements_capacity)
    (hleft : b1.left_pointer = r.left_pointer)
    (hright : b1.right_pointer = r.incrementPointer r.right_pointer 1)
    (hsize : b1.elements_size = r.elements_size + 1)
    (hcap : b1.elements_capacity = r.elements_capacity)
    (hdata : b1.data = Function.update r.data r.right_pointer value) :
    b1.Valid ∧ b1.toList = r.toList ++ [value] ∧ b1.back = value := by
  obtain ⟨⟨k, hk⟩, hs, hl, hr⟩ := (valid_iff r).mp h
  have hrlt : r.right_pointer < r.elements_capacity := by
    rw [hr]
    split <;> omega
  have hinc := incrementPointer_wrap r r.elements_capacity k r.right_pointer 1 rfl hk hrlt
    (by omega)
  have hk1 : b1.elements_capacity = 2 ^ k := by rw [hcap, hk]
  have hl1 : b1.left_pointer < b1.elements_capacity := by rw [hcap, hleft]; exact hl
  refine ⟨?_, ?_, ?_⟩
  · rw [valid_iff]
    refine ⟨⟨k, hk1⟩, by rw [hsize, hcap]; omega, hl1, ?_⟩
    rw [hright, hinc, hleft, hsize, hcap]
    split at hr <;> split <;> split <;> omega
  · unfold toList
    rw [hsize, List.range_succ, List.map_append]
    congr 1
    · apply List.map_congr_left
      intro i hi
      have hi1 : i < r.elements_size := by simpa using hi
      rw [getElement_wrap b1 k i hk1 hl1 (by rw [hcap]; omega),
        getElement_wrap r k i hk hl (by omega), hdata, hleft, hcap]
      rw [Function.update_noteq]
      intro heq
      split at heq <;> split at hr <;> omega
    · rw [List.map_singleton,
        getElement_wrap b1 k r.elements_size hk1 hl1 (by rw [hcap]; omega), hdata, hleft, hcap,
        ← hr, Function.update_same]
  · unfold back
    rw [decrementPointer_wrap b1 r.elements_capacity _ hcap
      (by rw [hright, hinc]; split <;> omega), hdata, hright]
    have hslot : (if r.incrementPointer r.right_pointer 1 = 0 then r.elements_capacity - 1
        else r.incrementPointer r.right_pointer 1 - 1) = r.right_pointer := by
      rw [hinc]
      split <;> split <;> omega
    rw [hslot, Function.update_same]

/-- `emplace_back` on a valid buffer, full or not, succeeds, keeps it valid and
appends the value to the sequence it holds. -/
theorem emplace_back_spec [Inhabited Value] (b : RingBuffer Value) (value : Value)
    (h : b.Valid) :
    ∃ b1, b.emplace_back value = some b1 ∧ b1.Valid ∧ b1.toList = b.toList ++ [value]
      ∧ b1.back = value := by
  obtain ⟨r, hres, hvalid, hroom, -, hlist, -⟩ := resizeIfNeeded_spec b h
  obtain ⟨h1, h2, h3⟩ := storeBack_spec r
    (RingBuffer.mk r.left_pointer (r.incrementPointer r.right_pointer 1) (r.elements_size + 1)
      r.elements_capacity (Function.update r.data r.right_pointer value))
    value hvalid hroom rfl rfl rfl rfl rfl
  refine ⟨_, by simp only [emplace_back, hres], h1, ?_, h3⟩
  rw [h2, hlist]

end RingBuffer

namespace RingBuffer

variable {Value : Type}

/-- A value stored just before `left_pointer` of a valid buffer with room
becomes its first element. -/
theorem storeFront_spec (r b1 : RingBuffer Value) (value : Value) (h : r.Valid)
    (hroom : r.elements_size < r.elements_capacity)
    (hleft : b1.left_pointer = r.decrementPointer r.left_pointer)
    (hright : b1.right_pointer = r.right_pointer)
    (hsize : b1.elements_size = r.elements_size + 1)
    (hcap : b1.elements_capacity = r.elements_capacity)
    (hdata : b1.data = Function.update r.data (r.decrementPointer r.left_pointer) value) :
    b1.Valid ∧ b1.toList = value :: r.toList ∧ b1.front = value := by
  obtain ⟨⟨k, hk⟩, hs, hl, hr⟩ := (valid_iff r).mp h
  have hdec := decrementPointer_wrap r r.elements_capacity r.left_pointer rfl hl
  have hk1 : b1.elements_capacity = 2 ^ k := by rw [hcap, hk]
  have hl1 : b1.left_pointer < b1.elements_capacity := by
    rw [hcap, hleft, hdec]
    split <;> omega
  refine ⟨?_, ?_, ?_⟩
  · rw [valid_iff]
    refine ⟨⟨k, hk1⟩, by rw [hsize, hcap]; omega, hl1, ?_⟩
    rw [hright, hleft, hdec, hsize, hcap]
    split at hr <;> split <;> split <;> omega
  · unfold toList
    rw [hsize, List.range_succ_eq_map, List.map_cons, List.map_map]
    congr 1
    · rw [getElement_wrap b1 k 0 hk1 hl1 (by omega), hdata, hleft, hcap, hdec]
      have hslot : (if (if r.left_pointer = 0 then r.elements_capacity - 1
            else r.left_pointer - 1) + 0 < r.elements_capacity
          then (if r.left_pointer = 0 then r.elements_capacity - 1 else r.left_pointer - 1) + 0
          else (if r.left_pointer = 0 then r.elements_capacity - 1 else r.left_pointer - 1) + 0
            - r.elements_capacity)
          = (if r.left_pointer = 0 then r.elements_capacity - 1 else r.left_pointer - 1) := by
        split <;> split <;> omega
      rw [hslot, Function.update_same]
    · apply List.map_congr_left
      intro i hi
      have hi1 : i < r.elements_size := by simpa using hi
      show b1.getElement (i + 1) = r.getElement i
      rw [getElement_wrap b1 k (i + 1) hk1 hl1 (by rw [hcap]; omega),
        getElement_wrap r k i hk hl (by omega), hdata, hleft, hcap, hdec]
      have hslot : (if (if r.left_pointer = 0 then r.elements_capacity - 1
            else r.left_pointer - 1) + (i + 1) < r.elements_capacity
          then (if r.left_pointer = 0 then r.elements_capacity - 1 else r.left_pointer - 1)
            + (i + 1)
          else (if r.left_pointer = 0 then r.elements_capacity - 1 else r.left_pointer - 1)
            + (i + 1) - r.elements_capacity)
          = (if r.left_pointer + i < r.elements_capacity then r.left_pointer + i
              else r.left_pointer + i - r.elements_capacity) := by
        split <;> split <;> split <;> omega
      rw [hslot, Function.update_noteq]
      intro heq
      split at heq <;> split at heq <;> omega
  · unfold front
    rw [hdata, hleft, Function.update_same]

/-- `emplace_front` on a valid buffer, full or not, succeeds, keeps it valid
and puts the value in front of the sequence it holds. -/
theorem emplace_front_spec [Inhabited Value] (b : RingBuffer Value) (value : Value)
    (h : b.Valid) :
    ∃ b1, b.emplace_front value = some b1 ∧ b1.Valid ∧ b1.toList = value :: b.toList
      ∧ b1.front = value := by
  obtain ⟨r, hres, hvalid, hroom, -, hlist, -⟩ := resizeIfNeeded_spec b h
  obtain ⟨h1, h2, h3⟩ := storeFront_spec r
    (RingBuffer.mk (r.decrementPointer r.left_pointer) r.right_pointer (r.elements_size + 1)
      r.elements_capacity (Function.update r.data (r.decrementPointer r.left_pointer) value))
    value hvalid hroom rfl rfl rfl rfl rfl
  refine ⟨_, by simp only [emplace_front, hres], h1, ?_, h3⟩
  rw [h2, hlist]

/-- `pop_front` on a valid non-empty buffer keeps it valid and removes the first
element of the sequence, which is what `front` returned. -/
theorem pop_front_spec (b : RingBuffer Value) (h : b.Valid) (hne : 0 < b.elements_size) :
    b.pop_front.Valid ∧ b.pop_front.toList = b.toList.tail
      ∧ b.toList.head? = some b.front
      ∧ b.pop_front.elements_size = b.elements_size - 1 := by
  obtain ⟨⟨k, hk⟩, hs, hl, hr⟩ := (valid_iff b).mp h
  have hinc := incrementPointer_wrap b b.elements_capacity k b.left_pointer 1 rfl hk hl
    (by omega)
  have hsize : b.pop_front.elements_size = b.elements_size - 1 := pred64_pos _ hne
  have hleft : b.pop_front.left_pointer = b.incrementPointer b.left_pointer 1 := rfl
  have hcap : b.pop_front.elements_capacity = b.elements_capacity := rfl
  have hl1 : b.pop_front.left_pointer < b.pop_front.elements_capacity := by
    rw [hleft, hcap, hinc]
    split <;> omega
  obtain ⟨n, hn⟩ : ∃ n, b.elements_size = n + 1 := ⟨b.elements_size - 1, by omega⟩
  refine ⟨?_, ?_, ?_, hsize⟩
  · rw [valid_iff]
    refine ⟨⟨k, hk⟩, by rw [hsize, hcap]; omega, hl1, ?_⟩
    rw [hleft, hsize, hcap, hinc]
    show b.right_pointer = _
    split at hr <;> split <;> split <;> omega
  · unfold toList
    rw [hsize, hn, List.range_succ_eq_map, List.map_cons, List.tail_cons, List.map_map]
    apply List.map_congr_left
    intro i hi
    have hi1 : i < n := by simpa using hi
    show b.pop_front.getElement i = b.getElement (i + 1)
    rw [getElement_wrap b.pop_front k i hk hl1 (by rw [hcap]; omega),
      getElement_wrap b k (i + 1) hk hl (by omega), hleft, hcap, hinc]
    show b.data _ = b.data _
    congr 1
    split <;> split <;> split <;> omega
  · unfold toList front
    rw [hn, List.range_succ_eq_map, List.map_cons, List.head?_cons,
      getElement_wrap b k 0 hk hl (by omega)]
    simp only [Nat.add_zero, hl, if_true]

end RingBuffer

theorem roundUpFrom_pow (tries : Nat) :
    ∀ j n : Nat, roundUpFrom tries (2 ^ j) n = 0 ∨ ∃ k, roundUpFrom tries (2 ^ j) n = 2 ^ k := by
  induction tries with
  | zero => intro j n; exact Or.inl rfl
  | succ t ih =>
    intro j n
    unfold roundUpFrom
    by_cases hle : n ≤ 2 ^ j
    · exact Or.inr ⟨j, by simp [hle]⟩
    · have h2 : 2 * 2 ^ j = 2 ^ (j + 1) := by rw [Nat.pow_succ, Nat.mul_comm]
      simp only [hle, if_false, h2]
      exact ih (j + 1) n

namespace RingBuffer

variable {Value : Type}

theorem construct_valid [Inhabited Value] (initial_capacity : Nat) (b : RingBuffer Value)
    (h : RingBuffer.construct initial_capacity = some b) :
    b.Valid ∧ b.elements_size = 0 := by
  unfold RingBuffer.construct at h
  simp only at h
  split at h
  · simp at h
  · rename_i hne
    simp only [Option.some.injEq] at h
    subst h
    have hpow : ∃ k, roundUpToPowerOfTwoOrZero initial_capacity = 2 ^ k := by
      unfold roundUpToPowerOfTwoOrZero at hne ⊢
      split
      · rename_i h0
        simp [h0] at hne
      · rename_i h0
        simp only [h0, if_false] at hne
        rcases roundUpFrom_pow 64 0 initial_capacity with hz | hk
        · simp only [Nat.pow_zero] at hz
          exact absurd hz hne
        · simpa using hk
    refine ⟨⟨hpow, Nat.zero_le _, Nat.pos_of_ne_zero hne, ?_⟩, rfl⟩
    show 0 = (0 + 0) % _
    simp

theorem clear_valid (b : RingBuffer Value) (h : ∃ k, b.elements_capacity = 2 ^ k) :
    b.clear.Valid := by
  obtain ⟨k, hk⟩ := h
  have hpos : 0 < b.elements_capacity := by rw [hk]; positivity
  refine ⟨⟨k, hk⟩, Nat.zero_le _, hpos, ?_⟩
  show 0 = (0 + 0) % _
  simp

/-- Every buffer that is reached satisfies the representation invariant. -/
theorem reached_valid [Inhabited Value] (b : RingBuffer Value) (h : b.Reached) : b.Valid := by
  induction h with
  | construct n b hc => exact (construct_valid n b hc).1
  | push_back b b1 value _ hpush ih =>
    obtain ⟨b2, h2, hv, -⟩ := emplace_back_spec b value ih
    have heq : b.emplace_back value = some b1 := hpush
    rw [h2] at heq
    simp only [Option.some.injEq] at heq
    subst heq
    exact hv
  | push_front b b1 value _ hpush ih =>
    obtain ⟨b2, h2, hv, -⟩ := emplace_front_spec b value ih
    have heq : b.emplace_front value = some b1 := hpush
    rw [h2] at heq
    simp only [Option.some.injEq] at heq
    subst heq
    exact hv
  | pop_front b _ hne ih => exact (pop_front_spec b ih hne).1
  | clear b _ ih => exact clear_valid b ih.1

theorem pushAllBack_spec [Inhabited Value] (values : List Value) :
    ∀ b : RingBuffer Value, b.Valid →
      ∃ b1, b.pushAllBack values = some b1 ∧ b1.Valid ∧ b1.toList = b.toList ++ values := by
  induction values with
  | nil => intro b h; exact ⟨b, rfl, h, by simp⟩
  | cons value rest ih =>
    intro b h
    obtain ⟨b1, h1, hv, hl, -⟩ := emplace_back_spec b value h
    obtain ⟨b2, h2, hv2, hl2⟩ := ih b1 hv
    refine ⟨b2, ?_, hv2, ?_⟩
    · simp only [pushAllBack, push_back, h1, h2]
    · rw [hl2, hl, List.append_assoc, List.singleton_append]

theorem popFrontTimes_spec (count : Nat) :
    ∀ b : RingBuffer Value, b.Valid → count ≤ b.elements_size →
      (b.popFrontTimes count).Valid ∧ (b.popFrontTimes count).toList = b.toList.drop count := by
  induction count with
  | zero => intro b h _; exact ⟨h, by simp [popFrontTimes]⟩
  | succ n ih =>
    intro b h hle
    obtain ⟨hv, hl, -, hs⟩ := pop_front_spec b h (by omega)
    obtain ⟨hv2, hl2⟩ := ih b.pop_front hv (by omega)
    refine ⟨hv2, ?_⟩
    show (b.pop_front.popFrontTimes n).toList = _
    rw [hl2, hl, List.drop_tail]

theorem getElement_of_toList (b : RingBuffer Value) (l : List Value) (i : Nat)
    (hl : b.toList = l) (hi : i < b.elements_size) : l[i]? = some (b.getElement i) := by
  rw [← hl]
  exact toList_getElem? b i hi

end RingBuffer

/-- C22, as stated, fails: a buffer that went through `clearAndShrink` holds
the empty sequence and has capacity 0; `push_back` on it stops at the assertion
of `resizeIfNeeded` instead of storing the value. -/
theorem c22_push_back_without_array :
    RingBuffer.shrunk.toList = [] ∧ RingBuffer.shrunk.capacity = 0
    ∧ (RingBuffer.shrunk.push_back 7).isNone = true := by
  decide

/-- C22, amended: for every buffer that satisfies the representation invariant
(the capacity is a power of two, `size() <= capacity()`, `left_pointer` is below
the capacity and `right_pointer = (left_pointer + size()) mod capacity()`),
full or not, and every value, `push_back` succeeds;
afterwards `size()` is one more, `operator[]` is unchanged at every old index,
and `operator[]` at the old size and `back()` give the value. -/
theorem c22_push_back {Value : Type} [Inhabited Value] (b : RingBuffer Value) (value : Value)
    (h : b.Valid) :
    ∃ b1, b.push_back value = some b1
      ∧ b1.size = b.size + 1
      ∧ (∀ i, i < b.size → b1.getElement i = b.getElement i)
      ∧ b1.getElement b.size = value
      ∧ b1.back = value
      ∧ b1.toList = b.toList ++ [value] := by
  obtain ⟨b1, h1, -, hl, hb⟩ := RingBuffer.emplace_back_spec b value h
  have hsize : b1.elements_size = b.elements_size + 1 := by
    have := congrArg List.length hl
    simpa [RingBuffer.toList_length] using this
  refine ⟨b1, h1, hsize, ?_, ?_, hb, hl⟩
  · intro i hi
    have hi0 : i < b.elements_size := hi
    have h2 := RingBuffer.getElement_of_toList b1 _ i hl (by omega)
    rw [List.getElem?_append_left (by rw [RingBuffer.toList_length]; exact hi0),
      RingBuffer.toList_getElem? b i hi0] at h2
    exact (Option.some.inj h2).symm
  · have h2 := RingBuffer.getElement_of_toList b1 _ b.elements_size hl (by omega)
    rw [List.getElem?_append_right (by rw [RingBuffer.toList_length])] at h2
    simp only [RingBuffer.toList_length, Nat.sub_self, List.getElem?_cons_zero,
      Option.some.injEq] at h2
    exact h2.symm

/-- The full buffer holding 10, 11 takes 12 at the back after a resize. -/
theorem c22_push_back_witness :
    RingBuffer.fullPair.Valid
    ∧ RingBuffer.fullPair.size = RingBuffer.fullPair.capacity
    ∧ (RingBuffer.fullPair.push_back 12).map RingBuffer.toList = some [10, 11, 12]
    ∧ ∃ b1, RingBuffer.fullPair.push_back 12 = some b1 ∧ b1.back = 12 :=
  ⟨⟨⟨1, rfl⟩, by decide, by decide, by decide⟩, by decide, by decide,
   (c22_push_back RingBuffer.fullPair 12 ⟨⟨1, rfl⟩, by decide, by decide, by decide⟩).imp
     (fun _ hb => ⟨hb.1, hb.2.2.2.2.1⟩)⟩

/-- C23, as stated, fails: on the buffer left by `clearAndShrink`, which holds
the empty sequence with capacity 0, `push_front` stops at the assertion of
`resizeIfNeeded` instead of storing the value. -/
theorem c23_push_front_without_array :
    RingBuffer.shrunk.toList = [] ∧ RingBuffer.shrunk.size = 0
    ∧ (RingBuffer.shrunk.push_front 7).isNone = true := by
  decide

/-- C23, amended: for every buffer that satisfies the representation invariant
(the capacity is a power of two, `size() <= capacity()`, `left_pointer` is below
the capacity and `right_pointer = (left_pointer + size()) mod capacity()`),
full or not, and every value, `push_front` succeeds;
afterwards `size()` is one more, `front()` and `operator[]` at 0 give the value,
and `operator[]` at `i + 1` gives what it gave at `i` before. -/
theorem c23_push_front {Value : Type} [Inhabited Value] (b : RingBuffer Value) (value : Value)
    (h : b.Valid) :
    ∃ b1, b.push_front value = some b1
      ∧ b1.size = b.size + 1
      ∧ b1.front = value
      ∧ b1.getElement 0 = value
      ∧ (∀ i, i < b.size → b1.getElement (i + 1) = b.getElement i)
      ∧ b1.toList = value :: b.toList := by
  obtain ⟨b1, h1, -, hl, hf⟩ := RingBuffer.emplace_front_spec b value h
  have hsize : b1.elements_size = b.elements_size + 1 := by
    have := congrArg List.length hl
    simpa [RingBuffer.toList_length] using this
  refine ⟨b1, h1, hsize, hf, ?_, ?_, hl⟩
  · have h2 := RingBuffer.getElement_of_toList b1 _ 0 hl (by omega)
    simp only [List.getElem?_cons_zero, Option.some.injEq] at h2
    exact h2.symm
  · intro i hi
    have hi0 : i < b.elements_size := hi
    have h2 := RingBuffer.getElement_of_toList b1 _ (i + 1) hl (by omega)
    rw [List.getElem?_cons_succ, RingBuffer.toList_getElem? b i hi0] at h2
    exact (Option.some.inj h2).symm

/-- The full buffer holding 10, 11 takes 9 at the front after a resize. -/
theorem c23_push_front_witness :
    RingBuffer.fullPair.Valid
    ∧ (RingBuffer.fullPair.push_front 9).map RingBuffer.toList = some [9, 10, 11]
    ∧ ∃ b1, RingBuffer.fullPair.push_front 9 = some b1 ∧ b1.front = 9 :=
  ⟨⟨⟨1, rfl⟩, by decide, by decide, by decide⟩, by decide,
   (c23_push_front RingBuffer.fullPair 9 ⟨⟨1, rfl⟩, by decide, by decide, by decide⟩).imp
     (fun _ hb => ⟨hb.1, hb.2.2.1⟩)⟩

/-- C24 fails on the code: `pop_back()` assigns no data member.  On the buffer
that holds 0, 1 after two calls of `push_back`, `size()` is still 2 and `back()`
still 1 after `pop_back()`, where the claim (and the unit test) expect 1 and
0. -/
theorem c24_pop_back_changes_nothing :
    ((RingBuffer.construct 32 : Option (RingBuffer Nat)).bind
        (fun b => b.pushAllBack [0, 1])).map RingBuffer.toList = some [0, 1]
    ∧ ((RingBuffer.construct 32 : Option (RingBuffer Nat)).bind
        (fun b => b.pushAllBack [0, 1])).map (fun b => b.pop_back.size) = some 2
    ∧ ((RingBuffer.construct 32 : Option (RingBuffer Nat)).bind
        (fun b => b.pushAllBack [0, 1])).map (fun b => b.pop_back.back) = some 1
    ∧ ((RingBuffer.construct 32 : Option (RingBuffer Nat)).bind
        (fun b => b.pushAllBack [0, 1])).map (fun b => b.pop_back.toList) = some [0, 1]
    ∧ ∀ b : RingBuffer Nat, b.pop_back = b := by
  refine ⟨by decide, by decide, by decide, by decide, fun _ => rfl⟩

/-- C25: take any reached buffer that is empty and append `x_0, ..., x_{n-1}`
with `emplace_back`.  Then for every `k < n`, after `k` calls of `pop_front` the
call `front()` returns `x_k`, and the `pop_front` that follows leaves `size()`
at `n - k - 1`. -/
theorem c25_first_in_first_out {Value : Type} [Inhabited Value] (b : RingBuffer Value)
    (values : List Value) (h : b.Reached) (hempty : b.size = 0) :
    ∃ b1, b.pushAllBack values = some b1
      ∧ b1.size = values.length
      ∧ ∀ k, k < values.length →
          values[k]? = some (b1.popFrontTimes k).front
          ∧ (b1.popFrontTimes k).pop_front.size = values.length - k - 1 := by
  have hvalid := RingBuffer.reached_valid b h
  have hnil : b.toList = [] := by
    apply List.eq_nil_of_length_eq_zero
    rw [RingBuffer.toList_length]
    exact hempty
  obtain ⟨b1, h1, hv, hl⟩ := RingBuffer.pushAllBack_spec values b hvalid
  rw [hnil, List.nil_append] at hl
  have hsize : b1.elements_size = values.length := by
    rw [← RingBuffer.toList_length, hl]
  refine ⟨b1, h1, hsize, fun k hk => ?_⟩
  obtain ⟨hvk, hlk⟩ := RingBuffer.popFrontTimes_spec k b1 hv (by omega)
  have hsk : (b1.popFrontTimes k).elements_size = values.length - k := by
    rw [← RingBuffer.toList_length, hlk, hl, List.length_drop]
  obtain ⟨-, -, hhead, hpop⟩ := RingBuffer.pop_front_spec (b1.popFrontTimes k) hvk (by omega)
  refine ⟨?_, ?_⟩
  · rw [← hhead, hlk, hl, List.head?_drop]
  · show (b1.popFrontTimes k).pop_front.elements_size = _
    rw [hpop, hsk]

/-- The test `RingBufferPushBackPopFront` in small: a buffer of capacity 1,
emptied again after one round, takes 5, 6, 7 and gives them back in order. -/
theorem c25_first_in_first_out_witness :
    (∃ b : RingBuffer Nat, RingBuffer.construct 1 = some b
      ∧ ∃ b1, b.push_back 4 = some b1 ∧ b1.pop_front.Reached ∧ b1.pop_front.size = 0
        ∧ ∃ b2, b1.pop_front.pushAllBack [5, 6, 7] = some b2
          ∧ ([5, 6, 7] : List Nat)[1]? = some (b2.popFrontTimes 1).front) := by
  refine ⟨_, rfl, _, rfl, ?_, by decide, ?_⟩
  · exact RingBuffer.Reached.pop_front _
      (RingBuffer.Reached.push_back _ _ 4 (RingBuffer.Reached.construct 1 _ rfl) rfl)
      (by decide)
  · obtain ⟨b2, h2, -, h3⟩ := c25_first_in_first_out _ [5, 6, 7]
      (RingBuffer.Reached.pop_front _
        (RingBuffer.Reached.push_back _ _ 4 (RingBuffer.Reached.construct 1 _ rfl) rfl)
        (by decide)) (by decide)
    exact ⟨b2, h2, (h3 1 (by decide)).1⟩

/-- C26, as stated, fails: the buffer left by `clearAndShrink` is a buffer
state too; after `clear()` on it the capacity is still 0 and the first
`push_back` stops at the assertion of `resizeIfNeeded`, unlike on a freshly
constructed buffer. -/
theorem c26_clear_without_array :
    RingBuffer.shrunk.clear.size = 0 ∧ RingBuffer.shrunk.clear.capacity = 0
    ∧ (RingBuffer.shrunk.clear.pushAllBack [1]).isNone = true
    ∧ ((RingBuffer.construct 32 : Option (RingBuffer Nat)).bind
        (fun b => b.pushAllBack [1])).map RingBuffer.toList = some [1] := by
  decide

/-- C26, amended: for every buffer state `clear()` and `clearAndShrink()` both
leave `size()` = 0; `clear()` keeps `capacity()` and `clearAndShrink()` leaves
`capacity()` = 0.  When the capacity is a power of two, as it is in every buffer
that still owns its array, the cleared buffer takes `push_back` of
`x_0, ..., x_{n-1}` like a freshly constructed one: `size()` is `n` and
`operator[](i)` is `x_i`. -/
theorem c26_clear {Value : Type} [Inhabited Value] (b : RingBuffer Value)
    (values : List Value) :
    b.clear.size = 0 ∧ b.clear.capacity = b.capacity
    ∧ b.clearAndShrink.size = 0 ∧ b.clearAndShrink.capacity = 0
    ∧ ((∃ k, b.capacity = 2 ^ k) →
        ∃ b1, b.clear.pushAllBack values = some b1
          ∧ b1.size = values.length
          ∧ ∀ i, i < values.length → values[i]? = some (b1.getElement i)) := by
  refine ⟨rfl, rfl, rfl, rfl, fun hcap => ?_⟩
  have hvalid := RingBuffer.clear_valid b hcap
  have hnil : b.clear.toList = [] := rfl
  obtain ⟨b1, h1, -, hl⟩ := RingBuffer.pushAllBack_spec values b.clear hvalid
  rw [hnil, List.nil_append] at hl
  have hsize : b1.elements_size = values.length := by
    rw [← RingBuffer.toList_length, hl]
  exact ⟨b1, h1, hsize, fun i hi =>
    RingBuffer.getElement_of_toList b1 values i hl (by omega)⟩

/-- C27, as stated, fails: `pop_front()` has no guard, and on the empty buffer
of capacity 4 it leaves `left_pointer` = 1 and `size()` = 2^64 - 1, which is not
empty.  There `back()` and `operator[](size() - 1)` are slot 3, and so is
`operator[](2)`: a value written through `back()` also changes what index 2
gives. -/
theorem c27_back_after_pop_front_on_empty :
    ∃ b : RingBuffer Nat, RingBuffer.construct 4 = some b
      ∧ b.size = 0
      ∧ b.pop_front.size = 2 ^ 64 - 1
      ∧ b.pop_front.decrementPointer b.pop_front.right_pointer = 3
      ∧ b.pop_front.incrementPointer b.pop_front.left_pointer (b.pop_front.size - 1) = 3
      ∧ (2 < b.pop_front.size ∧ 2 ≠ b.pop_front.size - 1)
      ∧ b.pop_front.getElement 2 = 0
      ∧ (b.pop_front.assignBack 9).getElement 2 = 9 :=
  ⟨_, rfl, by decide, by decide, by decide, by decide, by decide, by decide, by decide⟩

/-- C27, amended: in every non-empty buffer reached from the constructor by
`push_back`, `push_front`, `clear` and `pop_front` on non-empty buffers,
`back()` is the slot of `operator[](size() - 1)` and `front()` the slot of
`operator[](0)`; after a value is written through `back()`, `operator[]` gives
that value at `size() - 1` and what it gave before at every other index below
`size()`. -/
theorem c27_back_is_last {Value : Type} [Inhabited Value] (b : RingBuffer Value)
    (value : Value) (h : b.Reached) (hne : 0 < b.size) :
    b.decrementPointer b.right_pointer = b.incrementPointer b.left_pointer (b.size - 1)
    ∧ b.left_pointer = b.incrementPointer b.left_pointer 0
    ∧ b.back = b.getElement (b.size - 1)
    ∧ b.front = b.getElement 0
    ∧ (b.assignBack value).size = b.size
    ∧ ∀ i, i < b.size →
        (b.assignBack value).getElement i
          = if i = b.size - 1 then value else b.getElement i := by
  have hvalid := RingBuffer.reached_valid b h
  obtain ⟨⟨k, hk⟩, hs, hl, hr⟩ := (RingBuffer.valid_iff b).mp hvalid
  have hne0 : 0 < b.elements_size := hne
  have hrlt : b.right_pointer < b.elements_capacity := by
    rw [hr]
    split <;> omega
  have hdec := RingBuffer.decrementPointer_wrap b b.elements_capacity b.right_pointer rfl hrlt
  have hslot : ∀ i, i ≤ b.elements_capacity → b.incrementPointer b.left_pointer i
      = if b.left_pointer + i < b.elements_capacity then b.left_pointer + i
        else b.left_pointer + i - b.elements_capacity :=
    fun i hi => RingBuffer.incrementPointer_wrap b b.elements_capacity k b.left_pointer i rfl hk
      hl hi
  have hlast : b.decrementPointer b.right_pointer
      = b.incrementPointer b.left_pointer (b.elements_size - 1) := by
    rw [hdec, hslot _ (by omega)]
    split at hr <;> split <;> split <;> omega
  have hfirst : b.left_pointer = b.incrementPointer b.left_pointer 0 := by
    rw [hslot 0 (by omega)]
    split <;> omega
  refine ⟨hlast, hfirst, ?_, ?_, rfl, fun i hi => ?_⟩
  · show b.data _ = b.data _
    rw [hlast]
    rfl
  · show b.data _ = b.data _
    rw [← hfirst]
  · have hi0 : i < b.elements_size := hi
    show Function.update b.data (b.decrementPointer b.right_pointer) value
        (b.incrementPointer b.left_pointer i) = _
    by_cases hlasti : i = b.size - 1
    · rw [if_pos hlasti, hlast, hlasti]
      exact Function.update_same _ _ _
    · rw [if_neg hlasti, Function.update_noteq]
      · rfl
      · have hlasti0 : i ≠ b.elements_size - 1 := hlasti
        rw [hlast, hslot i (by omega), hslot _ (by omega)]
        intro heq
        split at heq <;> split at heq <;> omega

/-- The buffer holding 0, 1 after `push_back(0)` and `push_back(1)`, as in the
test `RingBufferModifications`: a write of 250 through `back()` shows at index 1
and index 0 keeps 0. -/
theorem c27_back_is_last_witness :
    (∃ b : RingBuffer Nat, (RingBuffer.construct 32).bind (fun b0 => b0.pushAllBack [0, 1])
        = some b
      ∧ b.Reached ∧ 0 < b.size
      ∧ (b.assignBack 250).getElement 1 = 250 ∧ (b.assignBack 250).getElement 0 = 0
      ∧ b.back = b.getElement (b.size - 1)) := by
  refine ⟨_, rfl, ?_, by decide, by decide, by decide, ?_⟩
  · exact RingBuffer.Reached.push_back _ _ 1
      (RingBuffer.Reached.push_back _ _ 0 (RingBuffer.Reached.construct 32 _ rfl) rfl) rfl
  · exact (c27_back_is_last _ 250
      (RingBuffer.Reached.push_back _ _ 1
        (RingBuffer.Reached.push_back _ _ 0 (RingBuffer.Reached.construct 32 _ rfl) rfl) rfl)
      (by decide)).2.2.1

/-! ## The worker loop of the update queue -/

theorem takeFront_eq_exit (q : CacheDictionaryUpdateQueue) (h : q.takeFront = .exit) :
    q.finished = true := by
  unfold takeFront at h
  split at h
  · assumption
  · split at h <;> simp at h

theorem exited_step (s : System) (a : Action) (w : Nat)
    (hbefore : s.workers[w]? ≠ some .exited)
    (hafter : (s.step a).workers[w]? = some .exited) :
    s.q.finished = true ∧ a = .workerExit w ∧ s.workers[w]? = some .waiting := by
  have hset : ∀ (c : Nat) (x : WorkerPc), x ≠ .exited →
      (s.workers.set c x)[w]? = some .exited → False := by
    intro c x hx hget
    rw [List.getElem?_set] at hget
    split at hget
    · split at hget
      · exact hx (Option.some.inj hget)
      · simp at hget
    · exact hbefore hget
  cases a <;> simp only [System.step] at hafter
  case workerDequeue c =>
    split at hafter
    · exact absurd hafter (fun h => hset c _ (by simp) h)
    · exact absurd hafter hbefore
  case workerExit c =>
    split at hafter
    · rename_i hw ht
      by_cases hc : c = w
      · subst hc
        exact ⟨takeFront_eq_exit _ ht, rfl, hw⟩
      · rw [List.getElem?_set_ne hc] at hafter
        exact absurd hafter hbefore
    · exact absurd hafter hbefore
  case workerRelease c =>
    split at hafter
    · exact absurd hafter (fun h => hset c _ (by simp) h)
    · exact absurd hafter hbefore
  case workerUpdate c outcome =>
    split at hafter
    · exact absurd hafter (fun h => hset c _ (by simp) h)
    · exact absurd hafter hbefore
  case pushAcquire c => split at hafter <;> exact absurd hafter hbefore
  case pushTimeout c => split at hafter <;> exact absurd hafter hbefore
  case stopJoin c =>
    split at hafter
    · split at hafter <;> exact absurd hafter hbefore
    · exact absurd hafter hbefore
  all_goals split at hafter <;> exact absurd hafter hbefore

/-- C28: whatever `update_func` does on the unit a worker holds, return or
throw, the worker records the outcome on the unit (`is_done` is true after a
return, `current_exception` holds the failure after a throw) and is back at its
loop test; no outcome ends the thread.  The only step by which a worker leaves
`updateThreadFunction` is the one taken at the loop test with `finished` set. -/
theorem c28_worker_survives_callback (s : System) (worker : Nat) (unit_to_update : UnitPtr)
    (outcome : UpdateOutcome) (hw : s.workers[worker]? = some (.updating unit_to_update)) :
    (s.step (.workerUpdate worker outcome)).workers[worker]? = some .waiting
    ∧ (outcome = .returned →
        ((s.step (.workerUpdate worker outcome)).units unit_to_update).is_done = true)
    ∧ (∀ description, outcome = .raised description →
        ((s.step (.workerUpdate worker outcome)).units unit_to_update).current_exception
          = some description)
    ∧ ∀ (t : System) (a : Action) (w : Nat),
        t.workers[w]? ≠ some .exited → (t.step a).workers[w]? = some .exited →
          t.q.finished = true ∧ a = .workerExit w ∧ t.workers[w]? = some .waiting := by
  have hlt : worker < s.workers.length := by
    by_contra hge
    simp [List.getElem?_eq_none (Nat.le_of_not_lt hge)] at hw
  refine ⟨by simp [System.step, hw, hlt], ?_, ?_, ?_⟩
  · rintro rfl
    simp [System.step, hw, recordOutcome]
  · rintro description rfl
    simp [System.step, hw, recordOutcome]
  · intro t a w hbefore hafter
    exact exited_step t a w hbefore hafter

/-- A worker whose callback throws "boom" has the failure recorded on the unit
and is waiting for the next unit. -/
theorem c28_worker_survives_callback_witness :
    ((System.start "d" smallConfiguration).run
        [.pushEnter 3, .pushAcquire 0, .pushAppend 0, .workerDequeue 0, .workerRelease 0]).workers[0]?
      = some (.updating 3)
    ∧ (((System.start "d" smallConfiguration).run
        [.pushEnter 3, .pushAcquire 0, .pushAppend 0, .workerDequeue 0, .workerRelease 0]).step
          (.workerUpdate 0 (.raised "boom"))).workers[0]? = some .waiting
    ∧ ((((System.start "d" smallConfiguration).run
        [.pushEnter 3, .pushAcquire 0, .pushAppend 0, .workerDequeue 0, .workerRelease 0]).step
          (.workerUpdate 0 (.raised "boom"))).units 3).current_exception = some "boom" :=
  ⟨by decide,
   (c28_worker_survives_callback _ 0 3 (.raised "boom") (by decide)).1,
   (c28_worker_survives_callback _ 0 3 (.raised "boom") (by decide)).2.2.1 "boom" rfl⟩

/-! ## Properties of the merge sorter -/

theorem mergeLoop_counts (max_merged_block_size limit : Nat) (queue : List Row) :
    ∀ (merged_columns : List Column) (merged_rows total_merged_rows : Nat)
      (chunks : List Chunk),
      (mergeLoop max_merged_block_size limit queue merged_columns merged_rows total_merged_rows
          chunks).total_merged_rows + merged_rows
        = total_merged_rows
          + (mergeLoop max_merged_block_size limit queue merged_columns merged_rows
              total_merged_rows chunks).merged_rows := by
  induction queue with
  | nil => intro c m t ch; simp [mergeLoop]
  | cons current rest ih =>
    intro c m t ch
    unfold mergeLoop
    simp only
    split
    · simp only
      omega
    · split
      · simp only
        omega
      · have := ih (insertRow c current) (m + 1) (t + 1) ch
        omega

theorem mergeLoop_rows_le (max_merged_block_size limit : Nat) (queue : List Row) :
    ∀ (merged_columns : List Column) (merged_rows total_merged_rows : Nat)
      (chunks : List Chunk), merged_rows < max_merged_block_size →
      (mergeLoop max_merged_block_size limit queue merged_columns merged_rows total_merged_rows
          chunks).merged_rows ≤ max_merged_block_size := by
  induction queue with
  | nil => intro c m t ch hm; simp only [mergeLoop]; omega
  | cons current rest ih =>
    intro c m t ch hm
    unfold mergeLoop
    simp only
    split
    · simp only
      omega
    · split
      · simp only
        omega
      · rename_i hne
        exact ih (insertRow c current) (m + 1) (t + 1) ch (by omega)

theorem mergeImpl_rows (s : MergeSorter) :
    s.mergeImpl.1.getNumRows
      = (mergeLoop s.max_merged_block_size s.limit s.queue
          (List.replicate (s.chunks.headD Chunk.empty).getNumColumns []) 0 s.total_merged_rows
          s.chunks).merged_rows := by
  unfold MergeSorter.mergeImpl
  simp only
  split
  · rename_i h
    rw [h]
    rfl
  · rfl

/-- With a block size of at least one row the block never has more rows than
`max_merged_block_size`. -/
theorem mergeImpl_rows_le (s : MergeSorter) (h : 1 ≤ s.max_merged_block_size) :
    s.mergeImpl.1.getNumRows ≤ s.max_merged_block_size := by
  rw [mergeImpl_rows]
  exact mergeLoop_rows_le _ _ _ _ _ _ _ (by omega)

/-- C29 fails on the code: with `max_merged_block_size` = 0 the test
`merged_rows == max_merged_block_size` never holds after the increment, and one
call of `mergeImpl` over two chunks of one row each returns a chunk of 2 rows,
more than `max_merged_block_size`. -/
theorem c29_block_larger_than_max :
    unboundedBlock.max_merged_block_size = 0
    ∧ unboundedBlock.chunks.length = 2
    ∧ unboundedBlock.mergeImpl.1 = { columns := [[1, 2]], num_rows := 2 }
    ∧ ¬ unboundedBlock.mergeImpl.1.getNumRows ≤ unboundedBlock.max_merged_block_size := by
  decide

theorem mergeLoop_limit (max_merged_block_size limit : Nat) (hl : 0 < limit)
    (queue : List Row) :
    ∀ (merged_columns : List Column) (merged_rows total_merged_rows : Nat)
      (chunks : List Chunk), total_merged_rows < limit →
      (mergeLoop max_merged_block_size limit queue merged_columns merged_rows total_merged_rows
          chunks).total_merged_rows ≤ limit
      ∧ ((mergeLoop max_merged_block_size limit queue merged_columns merged_rows
            total_merged_rows chunks).chunks ≠ [] →
          (mergeLoop max_merged_block_size limit queue merged_columns merged_rows
            total_merged_rows chunks).total_merged_rows < limit)
      ∧ ((mergeLoop max_merged_block_size limit queue merged_columns merged_rows
            total_merged_rows chunks).chunks = []
          ∨ (mergeLoop max_merged_block_size limit queue merged_columns merged_rows
            total_merged_rows chunks).chunks = chunks) := by
  induction queue with
  | nil =>
    intro c m t ch ht
    exact ⟨Nat.le_of_lt ht, fun _ => ht, Or.inr rfl⟩
  | cons current rest ih =>
    intro c m t ch ht
    unfold mergeLoop
    simp only
    split
    · rename_i hreached
      exact ⟨Nat.le_of_eq hreached.2, fun h => absurd rfl h, Or.inl rfl⟩
    · rename_i hnot
      have hlt : t + 1 < limit := by
        by_contra hge
        exact hnot ⟨by omega, by omega⟩
      split
      · exact ⟨Nat.le_of_lt hlt, fun _ => hlt, Or.inr rfl⟩
      · exact ih (insertRow c current) (m + 1) (t + 1) ch hlt

theorem read_within_limit (s : MergeSorter) (hl : 0 < s.limit) (h : s.WithinLimit) :
    s.read.1.getNumRows + s.total_merged_rows = s.read.2.total_merged_rows
    ∧ s.read.2.WithinLimit ∧ s.read.2.limit = s.limit := by
  obtain ⟨hle, hlt, hone⟩ := h
  unfold MergeSorter.read
  split
  · rename_i hnil
    exact ⟨by simp [Chunk.getNumRows, Chunk.empty], ⟨hle, hlt, hone⟩, rfl⟩
  · rename_i chunk hsingle
    rw [hsingle] at hone
    exact absurd rfl hone
  · rename_i first second others hchunks
    have hstart : s.total_merged_rows < s.limit := hlt (by rw [hchunks]; simp)
    have hcount := mergeLoop_counts s.max_merged_block_size s.limit s.queue
      (List.replicate (s.chunks.headD Chunk.empty).getNumColumns []) 0 s.total_merged_rows
      s.chunks
    obtain ⟨h1, h2, h3⟩ := mergeLoop_limit s.max_merged_block_size s.limit hl s.queue
      (List.replicate (s.chunks.headD Chunk.empty).getNumColumns []) 0 s.total_merged_rows
      s.chunks hstart
    have hafter : s.mergeImpl.2
        = { s with
            chunks := if (mergeLoop s.max_merged_block_size s.limit s.queue
                (List.replicate (s.chunks.headD Chunk.empty).getNumColumns []) 0
                s.total_merged_rows s.chunks).queue.isEmpty then []
              else (mergeLoop s.max_merged_block_size s.limit s.queue
                (List.replicate (s.chunks.headD Chunk.empty).getNumColumns []) 0
                s.total_merged_rows s.chunks).chunks
            total_merged_rows := (mergeLoop s.max_merged_block_size s.limit s.queue
                (List.replicate (s.chunks.headD Chunk.empty).getNumColumns []) 0
                s.total_merged_rows s.chunks).total_merged_rows
            queue := (mergeLoop s.max_merged_block_size s.limit s.queue
                (List.replicate (s.chunks.headD Chunk.empty).getNumColumns []) 0
                s.total_merged_rows s.chunks).queue } := by
      unfold MergeSorter.mergeImpl
      simp only
      split <;> rfl
    refine ⟨?_, ?_, ?_⟩
    · rw [mergeImpl_rows, hafter]
      simp only
      omega
    · rw [hafter]
      refine ⟨h1, ?_, ?_⟩
      · simp only
        intro hne
        split at hne
        · exact absurd rfl hne
        · exact h2 hne
      · simp only
        split
        · simp
        · rcases h3 with h3 | h3
          · rw [h3]
            simp
          · rw [h3, hchunks]
            simp
    · rw [hafter]

theorem readMany_within_limit (count : Nat) :
    ∀ s : MergeSorter, 0 < s.limit → s.WithinLimit →
      totalRows (s.readMany count).1 + s.total_merged_rows
          = (s.readMany count).2.total_merged_rows
      ∧ (s.readMany count).2.WithinLimit ∧ (s.readMany count).2.limit = s.limit := by
  induction count with
  | zero => intro s _ h; exact ⟨by simp [MergeSorter.readMany, totalRows], h, rfl⟩
  | succ n ih =>
    intro s hl h
    obtain ⟨h1, h2, h3⟩ := read_within_limit s hl h
    obtain ⟨h4, h5, h6⟩ := ih s.read.2 (by rw [h3]; exact hl) h2
    simp only [MergeSorter.readMany]
    refine ⟨?_, h5, by rw [h6, h3]⟩
    simp only [totalRows, List.map_cons, List.sum_cons] at h4 ⊢
    omega

theorem readMany_of_no_chunks (count : Nat) :
    ∀ s : MergeSorter, s.chunks = [] →
      (s.readMany count).1 = List.replicate count Chunk.empty ∧ (s.readMany count).2 = s := by
  induction count with
  | zero => intro s _; exact ⟨rfl, rfl⟩
  | succ n ih =>
    intro s h
    have hread : s.read = (Chunk.empty, s) := by
      unfold MergeSorter.read
      rw [h]
    obtain ⟨h1, h2⟩ := ih s h
    simp only [MergeSorter.readMany, hread, h1, h2, List.replicate_succ, and_self]

/-- C30: for a sorter built with `limit` > 0 over chunks of which two or more
have rows, the chunks returned by any number of successive calls of `read` have
at most `limit` rows in total; that total is the value of `total_merged_rows`,
which counts every appended row once; and once it equals `limit` no chunks are
left, so every later `read` returns an empty chunk. -/
theorem c30_rows_within_limit (chunks_ : List Chunk) (max_merged_block_size_ limit_ : Nat)
    (order : List Row) (count later : Nat) (hl : 0 < limit_)
    (h2 : 2 ≤ (chunks_.filter (fun chunk => chunk.getNumRows ≠ 0)).length) :
    totalRows ((MergeSorter.construct chunks_ max_merged_block_size_ limit_ order).readMany
        count).1 ≤ limit_
    ∧ totalRows ((MergeSorter.construct chunks_ max_merged_block_size_ limit_ order).readMany
        count).1
      = ((MergeSorter.construct chunks_ max_merged_block_size_ limit_ order).readMany
          count).2.total_merged_rows
    ∧ (((MergeSorter.construct chunks_ max_merged_block_size_ limit_ order).readMany
          count).2.total_merged_rows = limit_ →
        ((MergeSorter.construct chunks_ max_merged_block_size_ limit_ order).readMany
          count).2.chunks = []
        ∧ (((MergeSorter.construct chunks_ max_merged_block_size_ limit_ order).readMany
            count).2.readMany later).1 = List.replicate later Chunk.empty) := by
  have hstart : (MergeSorter.construct chunks_ max_merged_block_size_ limit_ order).WithinLimit := by
    refine ⟨Nat.zero_le _, fun _ => hl, ?_⟩
    show (chunks_.filter (fun chunk => chunk.getNumRows ≠ 0)).length ≠ 1
    omega
  obtain ⟨h1, ⟨hle, hlt, -⟩, hlimit⟩ := readMany_within_limit count
    (MergeSorter.construct chunks_ max_merged_block_size_ limit_ order) hl hstart
  have hzero : (MergeSorter.construct chunks_ max_merged_block_size_ limit_ order).total_merged_rows
      = 0 := rfl
  have hlim : (MergeSorter.construct chunks_ max_merged_block_size_ limit_ order).limit = limit_ :=
    rfl
  rw [hzero, Nat.add_zero] at h1
  rw [hlim] at hlimit
  rw [hlimit] at hle hlt
  refine ⟨by rw [h1]; exact hle, h1, fun hreached => ?_⟩
  have hnone : ((MergeSorter.construct chunks_ max_merged_block_size_ limit_ order).readMany
      count).2.chunks = [] := by
    by_contra hne
    have := hlt hne
    omega
  exact ⟨hnone, (readMany_of_no_chunks later _ hnone).1⟩

/-- Three rows in two non-empty chunks under a limit of two rows, read in
blocks of one row: two rows come out and then empty chunks only. -/
theorem c30_rows_within_limit_witness :
    (0 < 2 ∧ 2 ≤ (([⟨[[1, 3]], 2⟩, ⟨[[2]], 1⟩, ⟨[[]], 0⟩] : List Chunk).filter
        (fun chunk => chunk.getNumRows ≠ 0)).length)
    ∧ totalRows ((MergeSorter.construct [⟨[[1, 3]], 2⟩, ⟨[[2]], 1⟩, ⟨[[]], 0⟩] 1 2
        [[1], [2], [3]]).readMany 4).1 ≤ 2
    ∧ (limitedMerge.readMany 4).1
        = [⟨[[1]], 1⟩, ⟨[[2]], 1⟩, Chunk.empty, Chunk.empty] :=
  ⟨by decide,
   (c30_rows_within_limit [⟨[[1, 3]], 2⟩, ⟨[[2]], 1⟩, ⟨[[]], 0⟩] 1 2 [[1], [2], [3]] 4 0
      (by decide) (by decide)).1,
   by decide⟩

/-! ## Properties of the profile counters -/

theorem safeDiff_of_le (bits prev curr : Nat) (hc : curr < 2 ^ bits) (h : prev ≤ curr) :
    safeDiff bits prev curr = curr - prev := by
  unfold safeDiff
  rw [if_pos h]
  generalize 2 ^ bits = m at hc
  have hsum : curr + m - prev = curr - prev + m := by omega
  rw [hsum, Nat.add_mod_right, Nat.mod_eq_of_lt (by omega)]

/-- C31: on unsigned integers of any width, `safeDiff(prev, curr)` is
`curr - prev`, computed without wrap-around, when `curr >= prev`, and 0
otherwise; so it is at most `curr`, fits the type, and `prev` plus the result is
the larger of `prev` and `curr`, again without wrap-around. -/
theorem c31_safeDiff (bits prev curr : Nat) (hp : prev < 2 ^ bits) (hc : curr < 2 ^ bits) :
    (prev ≤ curr → safeDiff bits prev curr = curr - prev)
    ∧ (curr < prev → safeDiff bits prev curr = 0)
    ∧ safeDiff bits prev curr ≤ curr
    ∧ safeDiff bits prev curr < 2 ^ bits
    ∧ prev + safeDiff bits prev curr = max prev curr
    ∧ (prev + safeDiff bits prev curr) % 2 ^ bits = max prev curr := by
  by_cases h : prev ≤ curr
  · have hd := safeDiff_of_le bits prev curr hc h
    have hmax : max prev curr = curr := Nat.max_eq_right h
    refine ⟨fun _ => hd, fun hlt => by omega, by omega, by omega, by omega, ?_⟩
    rw [hd, hmax, show prev + (curr - prev) = curr by omega]
    exact Nat.mod_eq_of_lt hc
  · have hlt : curr < prev := Nat.lt_of_not_le h
    have hd : safeDiff bits prev curr = 0 := by
      unfold safeDiff
      rw [if_neg (by omega)]
    have hmax : max prev curr = prev := Nat.max_eq_left (Nat.le_of_lt hlt)
    refine ⟨fun hle => by omega, fun _ => hd, by omega, by omega, by omega, ?_⟩
    rw [hd, hmax, Nat.add_zero]
    exact Nat.mod_eq_of_lt hp

/-- A counter read as 7 after 250 on 8 bits gives 0, and 250 after 7 gives
243. -/
theorem c31_safeDiff_witness :
    (250 < 2 ^ 8 ∧ 7 < 2 ^ 8)
    ∧ safeDiff 8 250 7 = 0 ∧ safeDiff 8 7 250 = 243
    ∧ 250 + safeDiff 8 250 7 = max 250 7 :=
  ⟨by decide, by decide, by decide, (c31_safeDiff 8 250 7 (by decide) (by decide)).2.2.2.2.1⟩

/-! ## Units in progress in the update queue -/

theorem tally_le_length {α : Type} (weight : α → Nat) (h : ∀ x, weight x ≤ 1) :
    ∀ l : List α, tally weight l ≤ l.length := by
  intro l
  induction l with
  | nil => exact Nat.le_refl _
  | cons head rest ih =>
    have hhead := h head
    simp only [tally, List.map_cons, List.sum_cons, List.length_cons] at ih ⊢
    omega

theorem busy_le_one (pc : WorkerPc) : WorkerPc.busy pc ≤ 1 := by
  cases pc <;> simp [WorkerPc.busy]

theorem workers_length_start (name : String)
    (configuration : CacheDictionaryUpdateQueueConfiguration) :
    (System.start name configuration).workers.length = configuration.max_threads_for_updates := by
  simp [System.start]

/-- C35: the number of units on the queue or held by a worker (popped, or inside
`update_func`) can exceed `max_update_queue_size`: with queue size 1 and one
worker it is 2 once a second unit is pushed while the first is being updated.
In every state reached from construction it is at most
`max_update_queue_size + max_threads_for_updates`, also when the units of push
calls that hold a permit and have not appended yet are counted in. -/
theorem c35_units_in_progress (name : String)
    (configuration : CacheDictionaryUpdateQueueConfiguration) (schedule : List Action) :
    (smallConfiguration.max_update_queue_size
        < ((System.start "d" smallConfiguration).run overlappingUnits).inProgress)
    ∧ ((System.start "d" smallConfiguration).run overlappingUnits).q.queue = [1]
    ∧ ((System.start "d" smallConfiguration).run overlappingUnits).workers = [.updating 0]
    ∧ ((System.start name configuration).run schedule).inProgress
        ≤ configuration.max_update_queue_size + configuration.max_threads_for_updates
    ∧ ((System.start name configuration).run schedule).inProgress
        + tally PushPc.permits ((System.start name configuration).run schedule).pushes
        ≤ configuration.max_update_queue_size + configuration.max_threads_for_updates := by
  have h := permitsAccounted_run schedule (System.start name configuration)
  rw [permitsAccounted_start] at h
  have hbusy := tally_le_length WorkerPc.busy busy_le_one
    ((System.start name configuration).run schedule).workers
  rw [workers_length_run, workers_length_start] at hbusy
  unfold System.permitsAccounted at h
  unfold System.inProgress
  refine ⟨by decide, by decide, by decide, ?_, ?_⟩ <;> omega

/-! ## The representation invariant of the ring buffer -/

namespace RingBuffer

theorem valid_pointers {Value : Type} (b : RingBuffer Value) (h : b.Valid) :
    (∃ k, b.capacity = 2 ^ k)
    ∧ b.size ≤ b.capacity
    ∧ b.left_pointer < b.capacity
    ∧ b.right_pointer < b.capacity
    ∧ b.right_pointer = (b.left_pointer + b.size) % b.capacity := by
  obtain ⟨hk, hs, hl, hr⟩ := h
  refine ⟨hk, hs, hl, ?_, hr⟩
  rw [hr]
  exact Nat.mod_lt _ (by omega)

end RingBuffer

/-- C34: every buffer reached from construction by `push_back`/`emplace_back`,
`push_front`/`emplace_front`, `pop_front` on a non-empty buffer and `clear` has
a capacity that is a power of two, `size <= capacity`, both pointers below the
capacity, and `right_pointer = (left_pointer + size) mod capacity`; the call of
`resizeIfNeeded` inside the next push succeeds and leaves a buffer for which
the same holds. -/
theorem c34_representation_invariant {Value : Type} [Inhabited Value] (b : RingBuffer Value)
    (h : b.Reached) :
    ((∃ k, b.capacity = 2 ^ k)
      ∧ b.size ≤ b.capacity
      ∧ b.left_pointer < b.capacity
      ∧ b.right_pointer < b.capacity
      ∧ b.right_pointer = (b.left_pointer + b.size) % b.capacity)
    ∧ ∃ r, b.resizeIfNeeded = some r
      ∧ (∃ k, r.capacity = 2 ^ k)
      ∧ r.size ≤ r.capacity
      ∧ r.left_pointer < r.capacity
      ∧ r.right_pointer < r.capacity
      ∧ r.right_pointer = (r.left_pointer + r.size) % r.capacity := by
  have hv := RingBuffer.reached_valid b h
  obtain ⟨r, hr, hrv, -⟩ := RingBuffer.resizeIfNeeded_spec b hv
  exact ⟨RingBuffer.valid_pointers b hv, r, hr, RingBuffer.valid_pointers r hrv⟩

/-- A buffer of capacity 2 that took 4 at the back, 3 at the front, gave up its
front and took 5 and 6 at the back, the last push doubling the array: the
pointers stand at 0 and 3 in an array of 4. -/
theorem c34_representation_invariant_witness :
    ∃ b : RingBuffer Nat, b.Reached ∧ b.capacity = 4 ∧ b.size = 3
      ∧ b.left_pointer = 0 ∧ b.right_pointer = 3
      ∧ b.right_pointer = (b.left_pointer + b.size) % b.capacity := by
  have hreached : ∀ b0 b1 b2 b3 b4 : RingBuffer Nat,
      RingBuffer.construct 2 = some b0 → b0.push_back 4 = some b1
      → b1.push_front 3 = some b2 → b2.pop_front.push_back 5 = some b3
      → b3.push_back 6 = some b4 → 0 < b2.size → b4.Reached :=
    fun b0 b1 b2 b3 b4 h0 h1 h2 h3 h4 hpos =>
      RingBuffer.Reached.push_back _ _ 6
        (RingBuffer.Reached.push_back _ _ 5
          (RingBuffer.Reached.pop_front _
            (RingBuffer.Reached.push_front _ _ 3
              (RingBuffer.Reached.push_back _ _ 4
                (RingBuffer.Reached.construct 2 _ h0) h1) h2) hpos) h3) h4
  have h := hreached _ _ _ _ _ rfl rfl rfl rfl rfl (by decide)
  exact ⟨_, h, by decide, by decide, by decide, by decide,
    (c34_representation_invariant _ h).1.2.2.2.2⟩

/-! ## The shortcut of `MergeSorter::read` -/

/-- C36: the constructor keeps exactly the chunks with rows.  With none left,
`read` returns the empty chunk and changes nothing.  With exactly one chunk left
`read` returns that chunk as it is, whatever `limit` and `max_merged_block_size`
are, the heap and `total_merged_rows` are not touched, and every later `read`
returns the empty chunk. -/
theorem c36_read_shortcut (chunks_ : List Chunk) (max_merged_block_size_ limit_ : Nat)
    (order : List Row) (chunk : Chunk) (count : Nat) :
    (MergeSorter.construct chunks_ max_merged_block_size_ limit_ order).chunks
        = chunks_.filter (fun c => c.getNumRows ≠ 0)
    ∧ (∀ s : MergeSorter, s.chunks = [] → s.read = (Chunk.empty, s))
    ∧ (chunks_.filter (fun c => c.getNumRows ≠ 0) = [chunk] →
        (MergeSorter.construct chunks_ max_merged_block_size_ limit_ order).read.1 = chunk
        ∧ chunk ∈ chunks_ ∧ chunk.getNumRows ≠ 0
        ∧ (MergeSorter.construct chunks_ max_merged_block_size_ limit_ order).read.2
            = { MergeSorter.construct chunks_ max_merged_block_size_ limit_ order with
                chunks := [] }
        ∧ ((MergeSorter.construct chunks_ max_merged_block_size_ limit_ order).read.2.readMany
              count).1 = List.replicate count Chunk.empty) := by
  refine ⟨rfl, ?_, ?_⟩
  · intro s h
    unfold MergeSorter.read
    rw [h]
  · intro h
    have hc : (MergeSorter.construct chunks_ max_merged_block_size_ limit_ order).chunks
        = [chunk] := h
    have hread : (MergeSorter.construct chunks_ max_merged_block_size_ limit_ order).read
        = (chunk, { MergeSorter.construct chunks_ max_merged_block_size_ limit_ order with
                    chunks := [] }) := by
      unfold MergeSorter.read
      rw [hc]
    have hmem : chunk ∈ chunks_.filter (fun c => c.getNumRows ≠ 0) := by
      rw [h]
      exact List.mem_singleton.mpr rfl
    rw [List.mem_filter] at hmem
    refine ⟨by rw [hread], hmem.1, by simpa using hmem.2, by rw [hread], ?_⟩
    rw [hread]
    exact (readMany_of_no_chunks count _ rfl).1

/-- A sorter over an empty chunk and a chunk of three rows, with `limit` = 1 and
`max_merged_block_size` = 2: the first `read` returns the three rows, the next
two return empty chunks. -/
theorem c36_read_shortcut_witness :
    (MergeSorter.construct [⟨[[]], 0⟩, ⟨[[3, 1, 2]], 3⟩] 2 1 [[1], [2], [3]]).read.1
        = ⟨[[3, 1, 2]], 3⟩
    ∧ ((MergeSorter.construct [⟨[[]], 0⟩, ⟨[[3, 1, 2]], 3⟩] 2 1 [[1], [2], [3]]).read.2.readMany
          2).1 = [Chunk.empty, Chunk.empty] :=
  ⟨((c36_read_shortcut [⟨[[]], 0⟩, ⟨[[3, 1, 2]], 3⟩] 2 1 [[1], [2], [3]] ⟨[[3, 1, 2]], 3⟩ 2).2.2
      (by decide)).1,
   ((c36_read_shortcut [⟨[[]], 0⟩, ⟨[[3, 1, 2]], 3⟩] 2 1 [[1], [2], [3]] ⟨[[3, 1, 2]], 3⟩ 2).2.2
      (by decide)).2.2.2.2⟩

/-! ## Constant columns of the sorting transform -/

theorem drop_cons_getD {α : Type} (l : List α) (i : Nat) (x d : α) (rest : List α)
    (h : l.drop i = x :: rest) : l.getD i d = x ∧ l.drop (i + 1) = rest ∧ i < l.length := by
  have hi : i < l.length := by
    by_contra hge
    rw [List.drop_of_length_le (by omega)] at h
    exact List.noConfusion h
  rw [List.drop_eq_getElem_cons hi] at h
  injection h with h1 h2
  refine ⟨?_, h2, hi⟩
  rw [List.getD_eq_getElem _ _ hi, h1]

theorem drop_ne_nil {α : Type} (l : List α) (i : Nat) (h : i < l.length) :
    ∃ x rest, l.drop i = x :: rest := by
  rw [List.drop_eq_getElem_cons h]
  exact ⟨_, _, rfl⟩

theorem unflagged_nil (flags : List Bool) : unflagged flags [] = [] := by
  simp [unflagged]

theorem unflagged_nil_flags (columns : List Column) : unflagged [] columns = [] := by
  simp [unflagged]

theorem unflagged_cons (flag : Bool) (flags : List Bool) (column : Column)
    (columns : List Column) :
    unflagged (flag :: flags) (column :: columns)
      = if flag then unflagged flags columns else column :: unflagged flags columns := by
  cases flag <;> simp [unflagged]

theorem unflagged_length : ∀ (flags : List Bool) (columns : List Column),
    flags.length = columns.length → (unflagged flags columns).length = flags.count false := by
  intro flags
  induction flags with
  | nil => intro columns _; simp [unflagged_nil_flags]
  | cons flag rest ih =>
    intro columns h
    cases columns with
    | nil => simp at h
    | cons column others =>
      have hlen : rest.length = others.length := by simpa using h
      have := ih others hlen
      cases flag <;> simp [unflagged_cons, this]

theorem unflagged_mem : ∀ (flags : List Bool) (columns : List Column) (column : Column),
    column ∈ unflagged flags columns → column ∈ columns := by
  intro flags columns column h
  unfold unflagged at h
  rw [List.mem_map] at h
  obtain ⟨entry, hentry, rfl⟩ := h
  exact (List.of_mem_zip (List.mem_of_mem_filter hentry)).1

namespace SortingTransform

theorem constructLoop_flags (sample : List HeaderColumn) :
    ∀ (remaining pos : Nat) (flags : List Bool) (without : List HeaderColumn),
      pos + remaining = sample.length →
      flags = (sample.take pos).map HeaderColumn.isConst ++ List.replicate remaining true →
      (constructLoop sample remaining pos flags without).1 = sample.map HeaderColumn.isConst := by
  intro remaining
  induction remaining with
  | zero =>
    intro pos flags without hpos hflags
    simp only [constructLoop]
    rw [hflags, List.take_of_length_le (by omega)]
    simp
  | succ r ih =>
    intro pos flags without hpos hflags
    have hlt : pos < sample.length := by omega
    have htake : sample.take (pos + 1) = sample.take pos ++ [sample[pos]] := by
      rw [List.take_succ, List.getElem?_eq_getElem hlt]
      rfl
    have hget : sample.getD pos HeaderColumn.absent = sample[pos] :=
      List.getD_eq_getElem _ _ hlt
    have hlen : ((sample.take pos).map HeaderColumn.isConst).length = pos := by
      simp [List.length_take]
      omega
    simp only [constructLoop, hget]
    split
    · rename_i hnot
      have hfalse : sample[pos].isConst = false := by simpa using hnot
      apply ih (pos + 1) _ _ (by omega)
      rw [hflags, htake, List.replicate_succ, List.set_append_right _ _ (by omega), hlen]
      simp only [List.map_append, List.map_cons, List.map_nil, hfalse, List.append_assoc,
        List.cons_append, List.nil_append, Nat.sub_self, List.set_cons_zero]
    · rename_i hnot
      have htrue : sample[pos].isConst = true := by simpa using hnot
      apply ih (pos + 1) _ _ (by omega)
      rw [hflags, htake, List.replicate_succ]
      simp only [List.map_append, List.map_cons, List.map_nil, htrue, List.append_assoc,
        List.cons_append, List.nil_append]

/-- The flags the constructor leaves: set exactly at the constant columns of
the header. -/
theorem construct_flags (header : List HeaderColumn) :
    (construct header).const_columns_to_remove = header.map HeaderColumn.isConst := by
  unfold construct
  exact constructLoop_flags header header.length 0 _ [] (by omega) (by simp)

theorem construct_header (header : List HeaderColumn) : (construct header).header = header := rfl

theorem removeLoop_eq (flags : List Bool) (columns : List Column) :
    ∀ (remaining position : Nat) (acc : List Column),
      position + remaining = flags.length → position + remaining = columns.length →
      removeLoop flags columns remaining position acc
        = acc ++ unflagged (flags.drop position) (columns.drop position) := by
  intro remaining
  induction remaining with
  | zero =>
    intro position acc hf hc
    simp only [removeLoop]
    rw [List.drop_of_length_le (by omega), unflagged_nil_flags, List.append_nil]
  | succ r ih =>
    intro position acc hf hc
    obtain ⟨flag, flags1, hflags⟩ := drop_ne_nil flags position (by omega)
    obtain ⟨column, columns1, hcolumns⟩ := drop_ne_nil columns position (by omega)
    obtain ⟨hg1, hd1, -⟩ := drop_cons_getD flags position flag true flags1 hflags
    obtain ⟨hg2, hd2, -⟩ := drop_cons_getD columns position column [] columns1 hcolumns
    simp only [removeLoop, hg1, hg2]
    rw [hflags, hcolumns, unflagged_cons]
    cases flag
    · simp only [Bool.not_false, if_true]
      rw [ih (position + 1) _ (by omega) (by omega), hd1, hd2]
      simp
    · simp only [Bool.not_true, Bool.false_eq_true, if_false, if_true]
      rw [ih (position + 1) _ (by omega) (by omega), hd1, hd2]

end SortingTransform

namespace SortingTransform

theorem flagged_is_constant (t : SortingTransform)
    (hwf : t.const_columns_to_remove = t.header.map HeaderColumn.isConst)
    (i : Nat) (flags1 : List Bool) (h : t.const_columns_to_remove.drop i = true :: flags1) :
    ∃ value, t.header[i]? = some (.constant value)
      ∧ t.header.getD i .absent = .constant value := by
  rw [hwf, ← List.map_drop] at h
  cases hh : t.header.drop i with
  | nil => rw [hh] at h; exact List.noConfusion h
  | cons column rest =>
    rw [hh] at h
    simp only [List.map_cons] at h
    injection h with h1 h2
    obtain ⟨hg, -, hlt⟩ := drop_cons_getD t.header i column .absent rest hh
    have hsome : t.header[i]? = some column := by
      rw [List.getElem?_eq_getElem hlt, ← List.getD_eq_getElem _ HeaderColumn.absent hlt, hg]
    rw [hg, hsome]
    cases column with
    | absent => exact Bool.noConfusion h1
    | constant value => exact ⟨value, rfl, rfl⟩
    | full c => exact Bool.noConfusion h1

/-- With enough columns the loop of `enrichChunkWithConstants` ends normally:
it adds one column per position, and the columns it adds at the positions that
are not flagged are the next columns of the chunk, in their order. -/
theorem enrichLoop_ok (t : SortingTransform)
    (hwf : t.const_columns_to_remove = t.header.map HeaderColumn.isConst)
    (num_rows : Nat) (columns : List Column) :
    ∀ (remaining i : Nat) (acc : List Column) (next : Nat),
      i + remaining = t.const_columns_to_remove.length →
      next + (t.const_columns_to_remove.drop i).count false ≤ columns.length →
      ∃ out, enrichLoop t num_rows columns remaining i acc next = some (.ok (acc ++ out))
        ∧ out.length = remaining
        ∧ unflagged (t.const_columns_to_remove.drop i) out
            = (columns.drop next).take ((t.const_columns_to_remove.drop i).count false)
        ∧ (∀ column ∈ out, column.length = num_rows ∨ column ∈ columns)
        ∧ ∀ k, (t.const_columns_to_remove.drop i)[k]? = some true →
            ∃ value, t.header[i + k]? = some (.constant value)
              ∧ out[k]? = some (List.replicate num_rows value) := by
  intro remaining
  induction remaining with
  | zero =>
    intro i acc next hi _
    refine ⟨[], by simp [enrichLoop], rfl, ?_, by simp, ?_⟩
    · rw [List.drop_of_length_le (by omega)]
      simp [unflagged_nil_flags]
    · intro k hk
      rw [List.drop_of_length_le (by omega)] at hk
      simp at hk
  | succ r ih =>
    intro i acc next hi hnext
    obtain ⟨flag, flags1, hflags⟩ := drop_ne_nil t.const_columns_to_remove i (by omega)
    obtain ⟨hg1, hd1, -⟩ := drop_cons_getD t.const_columns_to_remove i flag false flags1 hflags
    cases flag with
    | true =>
      obtain ⟨value, hsome, hvalue⟩ := flagged_is_constant t hwf i flags1 hflags
      have hcount : next + (t.const_columns_to_remove.drop (i + 1)).count false
          ≤ columns.length := by
        rw [hflags] at hnext
        rw [hd1]
        simpa using hnext
      obtain ⟨out, h1, h2, h3, h4, h5⟩ :=
        ih (i + 1) (acc ++ [List.replicate num_rows value]) next (by omega) hcount
      refine ⟨List.replicate num_rows value :: out, ?_, by simp [h2], ?_, ?_, ?_⟩
      · simp only [enrichLoop, hg1, hvalue, HeaderColumn.cloneResized, if_true]
        rw [h1, List.append_assoc]
        rfl
      · rw [hflags, unflagged_cons, if_pos rfl]
        rw [hd1] at h3
        rw [h3]
        simp
      · intro column hmem
        rcases List.mem_cons.mp hmem with rfl | hmem
        · exact Or.inl (List.length_replicate _ _)
        · exact h4 column hmem
      · intro k hk
        cases k with
        | zero => exact ⟨value, hsome, List.getElem?_cons_zero⟩
        | succ j =>
          rw [hflags, List.getElem?_cons_succ, ← hd1] at hk
          obtain ⟨v, hv1, hv2⟩ := h5 j hk
          have hidx : i + (j + 1) = i + 1 + j := by omega
          exact ⟨v, by rw [hidx]; exact hv1, by rw [List.getElem?_cons_succ]; exact hv2⟩
    | false =>
      have hcount : (t.const_columns_to_remove.drop i).count false = flags1.count false + 1 := by
        rw [hflags]
        simp
      obtain ⟨column, columns1, hcolumns⟩ := drop_ne_nil columns next (by omega)
      obtain ⟨hg2, hd2, hlt⟩ := drop_cons_getD columns next column [] columns1 hcolumns
      obtain ⟨out, h1, h2, h3, h4, h5⟩ :=
        ih (i + 1) (acc ++ [column]) (next + 1) (by omega) (by rw [hd1]; omega)
      refine ⟨column :: out, ?_, by simp [h2], ?_, ?_, ?_⟩
      · simp only [enrichLoop, hg1, hg2, Bool.false_eq_true, if_false]
        rw [if_neg (by omega), h1, List.append_assoc]
        rfl
      · rw [hcount, hcolumns, hflags, unflagged_cons]
        rw [hd1, hd2] at h3
        simp only [Bool.false_eq_true, if_false, List.take_succ_cons, h3]
      · intro c hmem
        rcases List.mem_cons.mp hmem with rfl | hmem
        · exact Or.inr (List.mem_of_mem_drop (by rw [hcolumns]; exact List.mem_cons_self _ _))
        · exact h4 c hmem
      · intro k hk
        cases k with
        | zero =>
          rw [hflags] at hk
          simp at hk
        | succ j =>
          rw [hflags, List.getElem?_cons_succ, ← hd1] at hk
          obtain ⟨v, hv1, hv2⟩ := h5 j hk
          have hidx : i + (j + 1) = i + 1 + j := by omega
          exact ⟨v, by rw [hidx]; exact hv1, by rw [List.getElem?_cons_succ]; exact hv2⟩

/-- With too few columns the loop of `enrichChunkWithConstants` throws. -/
theorem enrichLoop_error (t : SortingTransform)
    (hwf : t.const_columns_to_remove = t.header.map HeaderColumn.isConst)
    (num_rows : Nat) (columns : List Column) :
    ∀ (remaining i : Nat) (acc : List Column) (next : Nat),
      i + remaining = t.const_columns_to_remove.length →
      next ≤ columns.length →
      columns.length < next + (t.const_columns_to_remove.drop i).count false →
      ∃ e, enrichLoop t num_rows columns remaining i acc next = some (.error e)
        ∧ e.code = .LOGICAL_ERROR := by
  intro remaining
  induction remaining with
  | zero =>
    intro i acc next hi hle hnext
    rw [List.drop_of_length_le (by omega)] at hnext
    simp at hnext
    omega
  | succ r ih =>
    intro i acc next hi hle hnext
    obtain ⟨flag, flags1, hflags⟩ := drop_ne_nil t.const_columns_to_remove i (by omega)
    obtain ⟨hg1, hd1, -⟩ := drop_cons_getD t.const_columns_to_remove i flag false flags1 hflags
    cases flag with
    | true =>
      obtain ⟨value, -, hvalue⟩ := flagged_is_constant t hwf i flags1 hflags
      have hcount : columns.length
          < next + (t.const_columns_to_remove.drop (i + 1)).count false := by
        rw [hflags] at hnext
        rw [hd1]
        simpa using hnext
      obtain ⟨e, h1, h2⟩ :=
        ih (i + 1) (acc ++ [List.replicate num_rows value]) next (by omega) hle hcount
      refine ⟨e, ?_, h2⟩
      simp only [enrichLoop, hg1, hvalue, HeaderColumn.cloneResized, if_true]
      exact h1
    | false =>
      have hcount : (t.const_columns_to_remove.drop i).count false = flags1.count false + 1 := by
        rw [hflags]
        simp
      by_cases hout : next ≥ columns.length
      · refine ⟨Exception.mk .LOGICAL_ERROR
          "Can\x27t enrich chunk with constants because run out of non-constant columns.",
          ?_, rfl⟩
        simp only [enrichLoop, hg1, Bool.false_eq_true, if_false]
        rw [if_pos hout]
      · obtain ⟨e, h1, h2⟩ :=
          ih (i + 1) (acc ++ [columns.getD next []]) (next + 1) (by omega) (by omega)
            (by rw [hd1]; omega)
        refine ⟨e, ?_, h2⟩
        simp only [enrichLoop, hg1, Bool.false_eq_true, if_false]
        rw [if_neg hout]
        exact h1

end SortingTransform

theorem unflagged_positions : ∀ (flags : List Bool) (a b : List Column),
    a.length = flags.length → b.length = flags.length →
    unflagged flags a = unflagged flags b →
    ∀ i : Nat, flags[i]? = some false → a[i]? = b[i]? := by
  intro flags
  induction flags with
  | nil => intro a b _ _ _ i hi; simp at hi
  | cons flag rest ih =>
    intro a b ha hb h i hi
    cases a with
    | nil => simp at ha
    | cons x a1 =>
      cases b with
      | nil => simp at hb
      | cons y b1 =>
        have ha1 : a1.length = rest.length := by simpa using ha
        have hb1 : b1.length = rest.length := by simpa using hb
        rw [unflagged_cons, unflagged_cons] at h
        cases flag with
        | true =>
          simp only [if_true] at h
          cases i with
          | zero => simp at hi
          | succ j =>
            rw [List.getElem?_cons_succ] at hi
            rw [List.getElem?_cons_succ, List.getElem?_cons_succ]
            exact ih a1 b1 ha1 hb1 h j hi
        | false =>
          simp only [Bool.false_eq_true, if_false] at h
          injection h with hhead htail
          cases i with
          | zero => rw [List.getElem?_cons_zero, List.getElem?_cons_zero, hhead]
          | succ j =>
            rw [List.getElem?_cons_succ] at hi
            rw [List.getElem?_cons_succ, List.getElem?_cons_succ]
            exact ih a1 b1 ha1 hb1 htail j hi

theorem setColumns_ok (columns : List Column) (num_rows : Nat)
    (h : ∀ column ∈ columns, column.length = num_rows) :
    Chunk.setColumns columns num_rows = .ok { columns := columns, num_rows := num_rows } := by
  unfold Chunk.setColumns
  rw [if_pos]
  rw [List.all_eq_true]
  intro column hmem
  exact decide_eq_true (h column hmem)

namespace SortingTransform

/-- What `removeConstColumns` does to a chunk with as many columns as there are
flags. -/
theorem removeConstColumns_ok (t : SortingTransform) (chunk : Chunk)
    (hconsistent : chunk.Consistent)
    (hcolumns : chunk.getNumColumns = t.const_columns_to_remove.length) :
    t.removeConstColumns chunk
      = .ok { columns := unflagged t.const_columns_to_remove chunk.columns
              num_rows := chunk.num_rows } := by
  have hloop := removeLoop_eq t.const_columns_to_remove chunk.columns chunk.getNumColumns 0 []
    (by omega) (by simp [Chunk.getNumColumns])
  simp only [List.drop_zero, List.nil_append] at hloop
  unfold removeConstColumns
  simp only [hloop, Chunk.getNumRows]
  rw [if_neg (by simpa using hcolumns)]
  exact setColumns_ok _ _ (fun column hmem => hconsistent column (unflagged_mem _ _ _ hmem))

/-- What `enrichChunkWithConstants` does to a chunk with enough columns. -/
theorem enrichChunkWithConstants_ok (t : SortingTransform)
    (hwf : t.const_columns_to_remove = t.header.map HeaderColumn.isConst)
    (chunk : Chunk) (hconsistent : chunk.Consistent)
    (hcolumns : t.const_columns_to_remove.count false ≤ chunk.getNumColumns) :
    ∃ out, t.enrichChunkWithConstants chunk
        = some (.ok { columns := out, num_rows := chunk.num_rows })
      ∧ out.length = t.const_columns_to_remove.length
      ∧ unflagged t.const_columns_to_remove out
          = chunk.columns.take (t.const_columns_to_remove.count false)
      ∧ ∀ i : Nat, t.const_columns_to_remove[i]? = some true →
          ∃ value, t.header[i]? = some (.constant value)
            ∧ out[i]? = some (List.replicate chunk.num_rows value) := by
  obtain ⟨out, h1, h2, h3, h4, h5⟩ := enrichLoop_ok t hwf chunk.getNumRows chunk.columns
    t.const_columns_to_remove.length 0 [] 0 (by omega)
    (by simpa [Chunk.getNumColumns] using hcolumns)
  simp only [List.drop_zero, List.nil_append, Nat.zero_add] at h1 h3 h5
  refine ⟨out, ?_, h2, h3, h5⟩
  unfold enrichChunkWithConstants
  simp only [h1]
  rw [setColumns_ok out chunk.getNumRows]
  · rfl
  · intro column hmem
    rcases h4 column hmem with hlen | hold
    · exact hlen
    · exact hconsistent column hold

/-- What `enrichChunkWithConstants` does to a chunk with too few columns. -/
theorem enrichChunkWithConstants_error (t : SortingTransform)
    (hwf : t.const_columns_to_remove = t.header.map HeaderColumn.isConst)
    (chunk : Chunk)
    (hcolumns : chunk.getNumColumns < t.const_columns_to_remove.count false) :
    ∃ e, t.enrichChunkWithConstants chunk = some (.error e) ∧ e.code = .LOGICAL_ERROR := by
  obtain ⟨e, h1, h2⟩ := enrichLoop_error t hwf chunk.getNumRows chunk.columns
    t.const_columns_to_remove.length 0 [] 0 (by omega) (by omega)
    (by simpa [Chunk.getNumColumns] using hcolumns)
  refine ⟨e, ?_, h2⟩
  unfold enrichChunkWithConstants
  simp only [h1]

theorem construct_wellFormed (header : List HeaderColumn) :
    (construct header).const_columns_to_remove
      = (construct header).header.map HeaderColumn.isConst := by
  rw [construct_flags, construct_header]

end SortingTransform

/-- C32: for a transform built by the constructor and a chunk with as many
columns as there are flags, `removeConstColumns` leaves exactly the columns at
the positions that are not flagged, in their order, and
`enrichChunkWithConstants` applied to the result gives a chunk with the original
number of columns and rows that holds, at every position that is not flagged,
the original column of that position.  The flags are set exactly at the
constant columns of the header. -/
theorem c32_constants_round_trip (header : List HeaderColumn) (chunk : Chunk)
    (hconsistent : chunk.Consistent)
    (hcolumns : chunk.getNumColumns
      = (SortingTransform.construct header).const_columns_to_remove.length) :
    (SortingTransform.construct header).const_columns_to_remove
        = header.map HeaderColumn.isConst
    ∧ ∃ reduced restored,
      (SortingTransform.construct header).removeConstColumns chunk = .ok reduced
      ∧ reduced.columns
          = unflagged (SortingTransform.construct header).const_columns_to_remove chunk.columns
      ∧ reduced.getNumRows = chunk.getNumRows
      ∧ (SortingTransform.construct header).enrichChunkWithConstants reduced
          = some (.ok restored)
      ∧ restored.getNumColumns = chunk.getNumColumns
      ∧ restored.getNumRows = chunk.getNumRows
      ∧ ∀ i : Nat,
          (SortingTransform.construct header).const_columns_to_remove[i]? = some false →
            restored.columns[i]? = chunk.columns[i]? := by
  refine ⟨SortingTransform.construct_flags header, ?_⟩
  have hwf := SortingTransform.construct_wellFormed header
  generalize SortingTransform.construct header = t at hcolumns hwf
  have hremove := SortingTransform.removeConstColumns_ok t chunk hconsistent hcolumns
  have hlength : (unflagged t.const_columns_to_remove chunk.columns).length
      = t.const_columns_to_remove.count false :=
    unflagged_length _ _ hcolumns.symm
  have hreduced : Chunk.Consistent
      { columns := unflagged t.const_columns_to_remove chunk.columns
        num_rows := chunk.num_rows } :=
    fun column hmem => hconsistent column (unflagged_mem _ _ _ hmem)
  obtain ⟨out, h1, h2, h3, -⟩ :=
    SortingTransform.enrichChunkWithConstants_ok t hwf _ hreduced (Nat.le_of_eq hlength.symm)
  have h4 : unflagged t.const_columns_to_remove out
      = unflagged t.const_columns_to_remove chunk.columns := by
    rw [h3]
    exact List.take_of_length_le (Nat.le_of_eq hlength)
  exact ⟨_, _, hremove, rfl, rfl, h1, h2.trans hcolumns.symm, rfl,
    unflagged_positions _ out chunk.columns h2 hcolumns h4⟩

/-- A header with a constant 7 between two other columns and a chunk of two
rows: the constant column is taken out and put back. -/
theorem c32_constants_round_trip_witness :
    constantInTheMiddle.removeConstColumns ⟨[[1, 2], [7, 7], [5, 6]], 2⟩
        = .ok ⟨[[1, 2], [5, 6]], 2⟩
    ∧ constantInTheMiddle.enrichChunkWithConstants ⟨[[1, 2], [5, 6]], 2⟩
        = some (.ok ⟨[[1, 2], [7, 7], [5, 6]], 2⟩)
    ∧ (SortingTransform.construct [.full [], .constant 7, .full []]).const_columns_to_remove
        = [false, true, false] :=
  ⟨rfl, rfl,
    (c32_constants_round_trip [.full [], .constant 7, .full []] ⟨[[1, 2], [7, 7], [5, 6]], 2⟩
      (by simp [Chunk.Consistent]) (by decide)).1⟩

/-- C33: for a transform built by the constructor, `removeConstColumns` throws
`LOGICAL_ERROR` exactly when the number of columns of the chunk differs from
the number of flags, and `enrichChunkWithConstants` throws `LOGICAL_ERROR`
exactly when the chunk has fewer columns than there are positions that are not
flagged.  With that many columns or more it returns normally: the result has
one column per flag, the positions that are not flagged hold the first columns
of the chunk in their order, the flagged positions hold the constants of the
header, and the columns beyond are in the result nowhere. -/
theorem c33_logical_errors (header : List HeaderColumn) (chunk : Chunk)
    (hconsistent : chunk.Consistent) :
    ((∃ e, (SortingTransform.construct header).removeConstColumns chunk = .error e
          ∧ e.code = .LOGICAL_ERROR)
        ↔ chunk.getNumColumns
            ≠ (SortingTransform.construct header).const_columns_to_remove.length)
    ∧ ((∃ e, (SortingTransform.construct header).enrichChunkWithConstants chunk
            = some (.error e) ∧ e.code = .LOGICAL_ERROR)
        ↔ chunk.getNumColumns
            < (SortingTransform.construct header).const_columns_to_remove.count false)
    ∧ ((SortingTransform.construct header).const_columns_to_remove.count false
          ≤ chunk.getNumColumns →
        ∃ restored, (SortingTransform.construct header).enrichChunkWithConstants chunk
            = some (.ok restored)
          ∧ restored.getNumColumns
              = (SortingTransform.construct header).const_columns_to_remove.length
          ∧ restored.getNumRows = chunk.getNumRows
          ∧ unflagged (SortingTransform.construct header).const_columns_to_remove
                restored.columns
              = chunk.columns.take
                  ((SortingTransform.construct header).const_columns_to_remove.count false)
          ∧ ∀ i : Nat,
              (SortingTransform.construct header).const_columns_to_remove[i]? = some true →
                ∃ value, header[i]? = some (.constant value)
                  ∧ restored.columns[i]? = some (List.replicate chunk.getNumRows value)) := by
  have hwf := SortingTransform.construct_wellFormed header
  have hheader := SortingTransform.construct_header header
  generalize SortingTransform.construct header = t at hwf hheader
  have hok : t.const_columns_to_remove.count false ≤ chunk.getNumColumns →
      ∃ restored, t.enrichChunkWithConstants chunk = some (.ok restored)
        ∧ restored.getNumColumns = t.const_columns_to_remove.length
        ∧ restored.getNumRows = chunk.getNumRows
        ∧ unflagged t.const_columns_to_remove restored.columns
            = chunk.columns.take (t.const_columns_to_remove.count false)
        ∧ ∀ i : Nat, t.const_columns_to_remove[i]? = some true →
            ∃ value, header[i]? = some (.constant value)
              ∧ restored.columns[i]? = some (List.replicate chunk.getNumRows value) := by
    intro henough
    obtain ⟨out, h1, h2, h3, h5⟩ :=
      SortingTransform.enrichChunkWithConstants_ok t hwf chunk hconsistent henough
    rw [hheader] at h5
    exact ⟨_, h1, h2, rfl, h3, h5⟩
  refine ⟨⟨?_, ?_⟩, ⟨?_, ?_⟩, hok⟩
  · rintro ⟨e, he, -⟩ hequal
    rw [SortingTransform.removeConstColumns_ok t chunk hconsistent hequal] at he
    exact Except.noConfusion he
  · intro hdiffer
    refine ⟨Exception.mk .LOGICAL_ERROR
      ("Block has different number of columns with header: " ++ toString chunk.getNumColumns
        ++ " vs " ++ toString t.const_columns_to_remove.length), ?_, rfl⟩
    unfold SortingTransform.removeConstColumns
    simp only []
    rw [if_pos hdiffer]
  · rintro ⟨e, he, -⟩
    by_contra hnot
    obtain ⟨restored, hrestored, -⟩ := hok (by omega)
    rw [hrestored] at he
    injection he with he
    exact Except.noConfusion he
  · intro hfew
    exact SortingTransform.enrichChunkWithConstants_error t hwf chunk hfew

/-- A header with a constant 7 between two other columns: a chunk of one column
makes both functions throw, and of a chunk of three columns the last one is
dropped. -/
theorem c33_logical_errors_witness :
    (∃ e, constantInTheMiddle.removeConstColumns ⟨[[1, 2]], 2⟩ = .error e
        ∧ e.code = .LOGICAL_ERROR)
    ∧ (∃ e, constantInTheMiddle.enrichChunkWithConstants ⟨[[1, 2]], 2⟩ = some (.error e)
        ∧ e.code = .LOGICAL_ERROR)
    ∧ constantInTheMiddle.enrichChunkWithConstants ⟨[[1, 2], [3, 4], [5, 6]], 2⟩
        = some (.ok ⟨[[1, 2], [7, 7], [3, 4]], 2⟩) :=
  ⟨(c33_logical_errors [.full [], .constant 7, .full []] ⟨[[1, 2]], 2⟩
      (by simp [Chunk.Consistent])).1.mpr (by decide),
   (c33_logical_errors [.full [], .constant 7, .full []] ⟨[[1, 2]], 2⟩
      (by simp [Chunk.Consistent])).2.1.mpr (by decide),
   rfl⟩

/-! ## Permit accounting across interleaved calls -/

theorem finished_run (schedule : List Action) :
    ∀ s : System, s.q.finished = true → (s.run schedule).q.finished = true := by
  induction schedule with
  | nil => intro s h; exact h
  | cons a rest ih =>
    intro s h
    rw [run_cons]
    exact ih _ (step_finished s a h)

theorem open_before_step (s : System) (a : Action) (h : (s.step a).q.finished = false) :
    s.q.finished = false := by
  cases hf : s.q.finished with
  | false => rfl
  | true =>
    rw [step_finished s a hf] at h
    exact Bool.noConfusion h

/-- While `finished` is false no step loses a permit: only the swap of
`stopAndWait` drops units, and it comes after `finished` is set. -/
theorem permitsAccounted_step_eq (s : System) (a : Action) (hswap : s.SwapAfterFinish)
    (hf : (s.step a).q.finished = false) :
    (s.step a).permitsAccounted = s.permitsAccounted := by
  have hopen := open_before_step s a hf
  cases a with
  | pushEnter u =>
    simp only [System.step]
    split <;> simp [System.permitsAccounted, tally_append, tally_singleton, PushPc.permits]
  | pushAcquire c =>
    simp only [System.step]
    split
    · rename_i u permits hc hw
      have := tally_set PushPc.permits (.admitted u) s.pushes c _ hc
      simp [Semaphore.tryWait] at hw
      simp [System.permitsAccounted, PushPc.permits] at this ⊢
      omega
    · rfl
  | pushTimeout c =>
    simp only [System.step]
    split
    · rename_i u hc hw
      have := tally_set PushPc.permits
        (.threw ⟨.CACHE_DICTIONARY_UPDATE_FAIL, s.q.pushTimeoutMessage⟩) s.pushes c _ hc
      simp [System.permitsAccounted, PushPc.permits] at this ⊢
      omega
    · rfl
  | pushAppend c =>
    simp only [System.step]
    split
    · rename_i u hc
      have := tally_set PushPc.permits .returned s.pushes c _ hc
      simp [System.permitsAccounted, PushPc.permits] at this ⊢
      omega
    · rfl
  | pushThrow c e =>
    simp only [System.step]
    split
    · rename_i u hc
      have := tally_set PushPc.permits (.threw e) s.pushes c _ hc
      simp [System.permitsAccounted, PushPc.permits, Semaphore.set] at this ⊢
      omega
    · rfl
  | workerDequeue w =>
    simp only [System.step]
    split
    · rename_i u q1 hw ht
      have := tally_set WorkerPc.permits (.popped u) s.workers w _ hw
      obtain ⟨-, rest, hq, rfl⟩ := takeFront_eq_unit _ _ _ ht
      simp [System.permitsAccounted, WorkerPc.permits, hq] at this ⊢
      omega
    · rfl
  | workerExit w =>
    simp only [System.step]
    split
    · rename_i hw ht
      have := tally_set WorkerPc.permits .exited s.workers w _ hw
      simp [System.permitsAccounted, WorkerPc.permits] at this ⊢
      omega
    · rfl
  | workerRelease w =>
    simp only [System.step]
    split
    · rename_i u hw
      have := tally_set WorkerPc.permits (.updating u) s.workers w _ hw
      simp [System.permitsAccounted, WorkerPc.permits, Semaphore.set] at this ⊢
      omega
    · rfl
  | workerUpdate w outcome =>
    simp only [System.step]
    split
    · rename_i u hw
      have := tally_set WorkerPc.permits .waiting s.workers w _ hw
      simp [System.permitsAccounted, WorkerPc.permits] at this ⊢
      omega
    · rfl
  | stopEnter =>
    simp only [System.step] at hf ⊢
    rw [hopen] at hf ⊢
    simp at hf
  | stopSwap c =>
    simp only [System.step]
    split
    · rename_i hc
      exact absurd rfl (hswap hopen _ (List.getElem?_mem hc))
    · rfl
  | stopJoin c =>
    simp only [System.step]
    split
    · split
      · simp [System.permitsAccounted]
      · rfl
    · rfl

theorem permitsAccounted_open (schedule : List Action) :
    ∀ s : System, s.SwapAfterFinish → (s.run schedule).q.finished = false →
      (s.run schedule).permitsAccounted = s.permitsAccounted := by
  induction schedule with
  | nil => intro s _ _; rfl
  | cons a rest ih =>
    intro s hswap hf
    rw [run_cons] at hf ⊢
    have hstep : (s.step a).q.finished = false := by
      cases hfin : (s.step a).q.finished with
      | false => rfl
      | true =>
        rw [finished_run rest _ hfin] at hf
        exact Bool.noConfusion hf
    rw [ih (s.step a) (swapAfterFinish_step s a hswap) hf]
    exact permitsAccounted_step_eq s a hswap hstep

theorem swapAfterFinish_start (name : String)
    (configuration : CacheDictionaryUpdateQueueConfiguration) :
    (System.start name configuration).SwapAfterFinish := by
  intro _ pc hpc
  simp [System.start] at hpc

/-- C2, as stated, fails: with queue size 1, after unit 0 is pushed and a
`stopAndWait` has run to its end, every call has returned, the queue is empty
and no permit is free, so length plus permits is 0 and not
`max_update_queue_size`. -/
theorem c2_stop_keeps_permits_of_discarded_units :
    ((System.start "d" smallConfiguration).run stopWithUnitQueued).pushes = [.returned]
    ∧ ((System.start "d" smallConfiguration).run stopWithUnitQueued).stops = [.returned]
    ∧ ((System.start "d" smallConfiguration).run stopWithUnitQueued).workers = [.exited]
    ∧ ((System.start "d" smallConfiguration).run stopWithUnitQueued).q.queue.length
        + ((System.start "d" smallConfiguration).run stopWithUnitQueued).q.empty_count
      ≠ smallConfiguration.max_update_queue_size := by
  decide

/-- C2, amended: in every state reached from construction by steps of push
calls, workers and stop calls, in any interleaving, the queue length, the free
permits, the permits held by push calls that have not appended yet and the
permits owed by workers that have popped and not yet called `empty_count.set()`
add up to `max_update_queue_size` as long as `finished` is false, and to at most
`max_update_queue_size` always.  When no push call holds a permit and no worker
owes one, as when every call is completed, the queue length plus the free
permits is `max_update_queue_size` as long as `finished` is false and at most
`max_update_queue_size` afterwards.  The queue need not be empty once
`finished` is set: a push call that tested `finished` before the stop appends
after it. -/
theorem c2_length_plus_permits (name : String)
    (configuration : CacheDictionaryUpdateQueueConfiguration) (schedule : List Action) :
    (((System.start name configuration).run schedule).q.finished = false →
      ((System.start name configuration).run schedule).q.queue.length
        + ((System.start name configuration).run schedule).q.empty_count
        + tally PushPc.permits ((System.start name configuration).run schedule).pushes
        + tally WorkerPc.permits ((System.start name configuration).run schedule).workers
        = configuration.max_update_queue_size)
    ∧ ((System.start name configuration).run schedule).q.queue.length
        + ((System.start name configuration).run schedule).q.empty_count
        + tally PushPc.permits ((System.start name configuration).run schedule).pushes
        + tally WorkerPc.permits ((System.start name configuration).run schedule).workers
        ≤ configuration.max_update_queue_size
    ∧ (tally PushPc.permits ((System.start name configuration).run schedule).pushes = 0 →
        tally WorkerPc.permits ((System.start name configuration).run schedule).workers = 0 →
        (((System.start name configuration).run schedule).q.finished = false →
          ((System.start name configuration).run schedule).q.queue.length
            + ((System.start name configuration).run schedule).q.empty_count
            = configuration.max_update_queue_size)
        ∧ ((System.start name configuration).run schedule).q.queue.length
            + ((System.start name configuration).run schedule).q.empty_count
            ≤ configuration.max_update_queue_size)
    ∧ (((System.start "d" smallConfiguration).run pushAcrossStop).q.finished = true
        ∧ ((System.start "d" smallConfiguration).run pushAcrossStop).q.queue = [0]
        ∧ ((System.start "d" smallConfiguration).run pushAcrossStop).pushes = [.returned]
        ∧ ((System.start "d" smallConfiguration).run pushAcrossStop).stops = [.returned]) := by
  have hle := permitsAccounted_run schedule (System.start name configuration)
  rw [permitsAccounted_start] at hle
  have heq : ((System.start name configuration).run schedule).q.finished = false →
      ((System.start name configuration).run schedule).permitsAccounted
        = configuration.max_update_queue_size := by
    intro hf
    rw [permitsAccounted_open schedule _ (swapAfterFinish_start name configuration) hf,
      permitsAccounted_start]
  unfold System.permitsAccounted at hle heq
  refine ⟨heq, hle, fun hp hw => ⟨fun hf => ?_, ?_⟩, by decide⟩
  · have := heq hf
    omega
  · omega

/-! ## The completion write of a worker iteration -/

/-- A unit that was pushed at most once is in its constructed state while a
worker is inside `update_func` on it. -/
theorem fresh_while_updating (name : String)
    (configuration : CacheDictionaryUpdateQueueConfiguration) (schedule : List Action)
    (worker : Nat) (u : UnitPtr)
    (h : ((System.start name configuration).run schedule).workers[worker]?
      = some (.updating u))
    (honce : (enteredUnits schedule).count u ≤ 1) :
    ((System.start name configuration).run schedule).units u
      = CacheDictionaryUpdateUnit.fresh := by
  have hload := inFlight_run schedule u (System.start name configuration) []
  have hstart : (System.start name configuration).inFlight u
      + ((System.start name configuration).units u).written = 0 := by
    simp [System.inFlight, System.start, construct, tally_nil,
      tally_replicate_zero (WorkerPc.carries u) WorkerPc.waiting _ rfl,
      CacheDictionaryUpdateUnit.written, CacheDictionaryUpdateUnit.fresh]
  have hcarry := weight_le_tally (WorkerPc.carries u) _ worker _ h
  simp only [WorkerPc.carries, if_true] at hcarry
  rw [List.append_nil] at hload
  simp only [enteredUnits, List.count_nil, Nat.add_zero] at hload
  have hzero : (((System.start name configuration).run schedule).units u).written = 0 := by
    unfold System.inFlight at hload hstart
    omega
  obtain ⟨h1, h2⟩ := written_eq_zero _ hzero
  cases hunit : ((System.start name configuration).run schedule).units u with
  | mk done failure =>
    rw [hunit] at h1 h2
    simp only at h1 h2
    rw [h1, h2]
    rfl

/-- C6, as stated, fails: unit 0 was updated once with `update_func` returning
and then pushed again; on the second pass `update_func` throws "boom" and the
iteration sets `current_exception`, but `is_done` is true afterwards, not
false. -/
theorem c6_second_pass_keeps_first_write :
    ((System.start "d" smallConfiguration).run secondPass).workers[0]? = some (.updating 0)
    ∧ ((((System.start "d" smallConfiguration).run secondPass).step
          (.workerUpdate 0 (.raised "boom"))).units 0).current_exception = some "boom"
    ∧ ((((System.start "d" smallConfiguration).run secondPass).step
          (.workerUpdate 0 (.raised "boom"))).units 0).is_done = true := by
  decide

/-- C6, amended: in every state reached from construction in which a worker is
inside `update_func` on a unit, the end of the call writes exactly one field of
that unit and changes no other unit: on a normal return `is_done` becomes true
and `current_exception` stays as it was, on a failure `current_exception`
becomes the failure and `is_done` stays as it was.  For a unit that has been
passed to `tryPushToUpdateQueueOrThrow` at most once, `is_done` true with
`current_exception` empty holds afterwards exactly when `update_func` returned,
and `current_exception` set with `is_done` false exactly when it threw. -/
theorem c6_worker_records_one_outcome (name : String)
    (configuration : CacheDictionaryUpdateQueueConfiguration) (schedule : List Action)
    (worker : Nat) (unit_to_update : UnitPtr) (outcome : UpdateOutcome)
    (h : ((System.start name configuration).run schedule).workers[worker]?
      = some (.updating unit_to_update)) :
    (∀ other, other ≠ unit_to_update →
        (((System.start name configuration).run schedule).step
          (.workerUpdate worker outcome)).units other
          = ((System.start name configuration).run schedule).units other)
    ∧ (outcome = .returned →
        ((((System.start name configuration).run schedule).step
          (.workerUpdate worker outcome)).units unit_to_update).is_done = true
        ∧ ((((System.start name configuration).run schedule).step
          (.workerUpdate worker outcome)).units unit_to_update).current_exception
            = (((System.start name configuration).run schedule).units
                unit_to_update).current_exception)
    ∧ (∀ description, outcome = .raised description →
        ((((System.start name configuration).run schedule).step
          (.workerUpdate worker outcome)).units unit_to_update).current_exception
            = some description
        ∧ ((((System.start name configuration).run schedule).step
          (.workerUpdate worker outcome)).units unit_to_update).is_done
            = (((System.start name configuration).run schedule).units unit_to_update).is_done)
    ∧ ((enteredUnits schedule).count unit_to_update ≤ 1 →
        ((((((System.start name configuration).run schedule).step
            (.workerUpdate worker outcome)).units unit_to_update).is_done = true
            ∧ ((((System.start name configuration).run schedule).step
              (.workerUpdate worker outcome)).units unit_to_update).current_exception = none)
          ↔ outcome = .returned)
        ∧ ((((((System.start name configuration).run schedule).step
            (.workerUpdate worker outcome)).units unit_to_update).current_exception.isSome
              = true
            ∧ ((((System.start name configuration).run schedule).step
              (.workerUpdate worker outcome)).units unit_to_update).is_done = false)
          ↔ ∃ description, outcome = .raised description)) := by
  have hfresh := fresh_while_updating name configuration schedule worker unit_to_update h
  generalize (System.start name configuration).run schedule = s at h hfresh
  have hu : (s.step (.workerUpdate worker outcome)).units
      = Function.update s.units unit_to_update (recordOutcome outcome (s.units unit_to_update)) := by
    simp [System.step, h]
  rw [hu]
  refine ⟨fun other ho => by simp [Function.update, ho], ?_, ?_, ?_⟩
  · rintro rfl
    simp [recordOutcome]
  · rintro description rfl
    simp [recordOutcome]
  · intro honce
    rw [Function.update_same, hfresh honce]
    cases outcome <;> simp [recordOutcome, CacheDictionaryUpdateUnit.fresh]

/-- A worker inside `update_func` on unit 3, pushed once, whose call throws
"boom": the failure is recorded and `is_done` stays false. -/
theorem c6_worker_records_one_outcome_witness :
    ((System.start "d" smallConfiguration).run
        [.pushEnter 3, .pushAcquire 0, .pushAppend 0, .workerDequeue 0, .workerRelease 0]).workers[0]?
      = some (.updating 3)
    ∧ ((((System.start "d" smallConfiguration).run
        [.pushEnter 3, .pushAcquire 0, .pushAppend 0, .workerDequeue 0, .workerRelease 0]).step
          (.workerUpdate 0 (.raised "boom"))).units 3).current_exception = some "boom"
    ∧ ((((System.start "d" smallConfiguration).run
        [.pushEnter 3, .pushAcquire 0, .pushAppend 0, .workerDequeue 0, .workerRelease 0]).step
          (.workerUpdate 0 (.raised "boom"))).units 3).is_done = false :=
  ⟨by decide,
   ((c6_worker_records_one_outcome "d" smallConfiguration
      [.pushEnter 3, .pushAcquire 0, .pushAppend 0, .workerDequeue 0, .workerRelease 0]
      0 3 (.raised "boom") (by decide)).2.2.1 "boom" rfl).1,
   (((c6_worker_records_one_outcome "d" smallConfiguration
      [.pushEnter 3, .pushAcquire 0, .pushAppend 0, .workerDequeue 0, .workerRelease 0]
      0 3 (.raised "boom") (by decide)).2.2.2 (by decide)).2.mpr ⟨"boom", rfl⟩).2⟩

end DB
